import Mathlib

/-!
# A verification development for the `qtree` quadtree (`src/qtree.go`)

The Go program is embedded shallowly.

* Coordinates (`float64` in the source) are rationals: every comparison the
  program makes is a comparison of an order, and the only arithmetic is the
  midpoint `(max + min) / 2`, taken exactly.
* A point `[2]float64` is a pair; index `0` is the first component and index
  `1` the second.
* The payload `interface{}` is any type with decidable equality (the program
  compares payloads with `==`).
* `node` is a tree: `quads == nil` is the constructor `leaf`, a non-nil
  `quads` is the constructor `quad` with its four children.
* The mutating methods return the new node; `insert`, which in the source
  recurses through `split`, takes a fuel argument and returns `none` when
  the fuel runs out.
* A visitor callback is a state-passing function: it receives the caller's
  state and the visited entry, and returns the new state and its `bool`.
-/

namespace Qtree

/-- A point `[2]float64`. -/
abbrev Pt := ℚ × ℚ

/-- Indexing `p[axis]` for `axis` 0 or 1. -/
def Pt.get (p : Pt) (axis : Nat) : ℚ := if axis = 0 then p.1 else p.2

def maxEntries : Nat := 32
def minEntries : Int := (maxEntries : Int) * 40 / 100
def maxLevel : Nat := 16

/-- The `entry` struct. -/
structure Entry (D : Type) where
  min : Pt
  max : Pt
  data : D
deriving DecidableEq, Repr

/-- The `node` struct: `leaf` has `quads == nil`, `quad` has the four children. -/
inductive Node (D : Type) where
  | leaf (count : Int) (entries : List (Entry D))
  | quad (count : Int) (entries : List (Entry D)) (c0 c1 c2 c3 : Node D)
deriving DecidableEq, Repr

/-- The `QTree` struct. -/
structure QTree (D : Type) where
  init : Bool
  min : Pt
  max : Pt
  root : Node D
deriving DecidableEq, Repr

variable {D : Type}

/-- Field `n.count`. -/
def Node.count : Node D → Int
  | .leaf c _ => c
  | .quad c _ _ _ _ _ => c

/-- Field `n.entries`. -/
def Node.entries : Node D → List (Entry D)
  | .leaf _ es => es
  | .quad _ es _ _ _ _ => es

/-- The zero value of `node`. -/
def Node.zero : Node D := .leaf 0 []

/-! ## Geometry -/

def intersects (amin amax bmin bmax : Pt) : Bool :=
  if bmin.1 > amax.1 ∨ bmax.1 < amin.1 then false
  else if bmin.2 > amax.2 ∨ bmax.2 < amin.2 then false
  else true

def contains (amin amax bmin bmax : Pt) : Bool :=
  decide (bmin.1 ≥ amin.1 ∧ bmax.1 ≤ amax.1 ∧ bmin.2 ≥ amin.2 ∧ bmax.2 ≤ amax.2)

def q0min (min _max : Pt) : Pt := (min.1, min.2)
def q0max (min max : Pt) : Pt := ((max.1 + min.1) / 2, (max.2 + min.2) / 2)
def q0 (min max : Pt) : Pt × Pt := (q0min min max, q0max min max)

def q1min (min max : Pt) : Pt := ((max.1 + min.1) / 2, min.2)
def q1max (min max : Pt) : Pt := (max.1, (max.2 + min.2) / 2)
def q1 (min max : Pt) : Pt × Pt := (q1min min max, q1max min max)

def q2min (min max : Pt) : Pt := (min.1, (max.2 + min.2) / 2)
def q2max (min max : Pt) : Pt := ((max.1 + min.1) / 2, max.2)
def q2 (min max : Pt) : Pt × Pt := (q2min min max, q2max min max)

def q3min (min max : Pt) : Pt := ((max.1 + min.1) / 2, (max.2 + min.2) / 2)
def q3max (_min max : Pt) : Pt := (max.1, max.2)
def q3 (min max : Pt) : Pt × Pt := (q3min min max, q3max min max)

/-- The function `choose`: the first quadrant of `(min, max)` that contains the
box of `e`, or `-1` (with the bounds of quadrant 3) when none does. -/
def choose (min max : Pt) (e : Entry D) : Pt × Pt × Int :=
  if contains (q0 min max).1 (q0 min max).2 e.min e.max then
    ((q0 min max).1, (q0 min max).2, 0)
  else if contains (q1 min max).1 (q1 min max).2 e.min e.max then
    ((q1 min max).1, (q1 min max).2, 1)
  else if contains (q2 min max).1 (q2 min max).2 e.min e.max then
    ((q2 min max).1, (q2 min max).2, 2)
  else if contains (q3 min max).1 (q3 min max).2 e.min e.max then
    ((q3 min max).1, (q3 min max).2, 3)
  else ((q3 min max).1, (q3 min max).2, -1)

/-! ## Insertion -/

/-- The loop `for _, e := range entries { n.insert(min, max, level, e) }` of
`split`, over the insertion `ins` at the node's region and level. -/
def splitLoop (ins : Node D → Entry D → Option (Node D)) :
    List (Entry D) → Node D → Option (Node D)
  | [], n => some n
  | x :: xs, n =>
    match ins n x with
    | none => none
    | some n1 => splitLoop ins xs n1

/-- The method `node.split`: the node gets four fresh children, an empty
entry list and count 0, and its former entries are inserted again. -/
def split (ins : Node D → Entry D → Option (Node D)) (entries : List (Entry D)) :
    Option (Node D) :=
  splitLoop ins entries (.quad 0 [] Node.zero Node.zero Node.zero Node.zero)

/-- The method `node.insert`. Every call uses one unit of fuel. -/
def insert : Nat → Node D → Pt → Pt → Nat → Entry D → Option (Node D)
  | 0, _, _, _, _, _ => none
  | fuel + 1, .leaf count entries, min, max, level, e =>
    if level ≠ maxLevel ∧ entries.length = maxEntries then
      match split (fun n x => insert fuel n min max level x) entries with
      | none => none
      | some n1 => insert fuel n1 min max level e
    else
      some (.leaf (count + 1) (entries ++ [e]))
  | fuel + 1, .quad count entries c0 c1 c2 c3, min, max, level, e =>
    match choose min max e with
    | (qmin, qmax, quad) =>
      if quad = -1 then
        some (.quad (count + 1) (entries ++ [e]) c0 c1 c2 c3)
      else if quad = 0 then
        (insert fuel c0 qmin qmax (level + 1) e).map
          (fun c => .quad (count + 1) entries c c1 c2 c3)
      else if quad = 1 then
        (insert fuel c1 qmin qmax (level + 1) e).map
          (fun c => .quad (count + 1) entries c0 c c2 c3)
      else if quad = 2 then
        (insert fuel c2 qmin qmax (level + 1) e).map
          (fun c => .quad (count + 1) entries c0 c1 c c3)
      else
        (insert fuel c3 qmin qmax (level + 1) e).map
          (fun c => .quad (count + 1) entries c0 c1 c2 c)

/-! ## Deletion -/

/-- The removal `entries[i] = entries[len-1]; entries = entries[:len-1]`. -/
def swapRemove (es : List (Entry D)) (i : Nat) : List (Entry D) :=
  match es.getLast? with
  | none => es
  | some l => (es.set i l).dropLast

/-- The method `node.join`: the entry lists of the four children are appended
to the node's own and the children are dropped; the count is not touched. -/
def join : Node D → Node D
  | .leaf count entries => .leaf count entries
  | .quad count entries c0 c1 c2 c3 =>
    .leaf count (entries ++ c0.entries ++ c1.entries ++ c2.entries ++ c3.entries)

/-- The tail of `node.delete` after a child reported a removal:
`n.count--; if n.count < minEntries { n.join() }`. -/
def afterChildDelete (n : Node D) : Node D :=
  match n with
  | .leaf count entries => .leaf (count - 1) entries
  | .quad count entries c0 c1 c2 c3 =>
    if count - 1 < minEntries then join (.quad (count - 1) entries c0 c1 c2 c3)
    else .quad (count - 1) entries c0 c1 c2 c3

/-- The method `node.delete`; the `Bool` is its return value. -/
def delete [DecidableEq D] : Node D → Pt → Pt → Entry D → Node D × Bool
  | .leaf count entries, _, _, e =>
    match entries.findIdx? (fun x => decide (x.data = e.data)) with
    | some i => (.leaf (count - 1) (swapRemove entries i), true)
    | none => (.leaf count entries, false)
  | .quad count entries c0 c1 c2 c3, min, max, e =>
    match entries.findIdx? (fun x => decide (x.data = e.data)) with
    | some i => (.quad (count - 1) (swapRemove entries i) c0 c1 c2 c3, true)
    | none =>
      match choose min max e with
      | (qmin, qmax, quad) =>
        if quad = 0 then
          match delete c0 qmin qmax e with
          | (c, true) => (afterChildDelete (.quad count entries c c1 c2 c3), true)
          | (c, false) => (.quad count entries c c1 c2 c3, false)
        else if quad = 1 then
          match delete c1 qmin qmax e with
          | (c, true) => (afterChildDelete (.quad count entries c0 c c2 c3), true)
          | (c, false) => (.quad count entries c0 c c2 c3, false)
        else if quad = 2 then
          match delete c2 qmin qmax e with
          | (c, true) => (afterChildDelete (.quad count entries c0 c1 c c3), true)
          | (c, false) => (.quad count entries c0 c1 c c3, false)
        else if quad = 3 then
          match delete c3 qmin qmax e with
          | (c, true) => (afterChildDelete (.quad count entries c0 c1 c2 c), true)
          | (c, false) => (.quad count entries c0 c1 c2 c, false)
        else (.quad count entries c0 c1 c2 c3, false)

/-! ## Search and scan -/

/-- A visitor callback `func(min, max [2]float64, data interface{}) bool` with
the caller's state made explicit. -/
abbrev Visitor (σ D : Type) := σ → Pt → Pt → D → σ × Bool

/-- The loop over `n.entries` in `node.search`. -/
def searchEntries {σ : Type} (tmin tmax : Pt) (iter : Visitor σ D) :
    List (Entry D) → σ → σ × Bool
  | [], s => (s, true)
  | e :: es, s =>
    if intersects tmin tmax e.min e.max then
      match iter s e.min e.max e.data with
      | (s1, false) => (s1, false)
      | (s1, true) => searchEntries tmin tmax iter es s1
    else searchEntries tmin tmax iter es s

/-- The method `node.search`; the `Bool` is its return value. -/
def search {σ : Type} : Node D → Pt → Pt → Pt → Pt → Visitor σ D → σ → σ × Bool
  | .leaf _ entries, _, _, tmin, tmax, iter, s => searchEntries tmin tmax iter entries s
  | .quad _ entries c0 c1 c2 c3, min, max, tmin, tmax, iter, s =>
    match searchEntries tmin tmax iter entries s with
    | (s0, false) => (s0, false)
    | (s0, true) =>
      match (if c0.count > 0 ∧ intersects tmin tmax (q0 min max).1 (q0 min max).2 = true
             then search c0 (q0 min max).1 (q0 min max).2 tmin tmax iter s0
             else (s0, true)) with
      | (s1, false) => (s1, false)
      | (s1, true) =>
        match (if c1.count > 0 ∧ intersects tmin tmax (q1 min max).1 (q1 min max).2 = true
               then search c1 (q1 min max).1 (q1 min max).2 tmin tmax iter s1
               else (s1, true)) with
        | (s2, false) => (s2, false)
        | (s2, true) =>
          match (if c2.count > 0 ∧ intersects tmin tmax (q2 min max).1 (q2 min max).2 = true
                 then search c2 (q2 min max).1 (q2 min max).2 tmin tmax iter s2
                 else (s2, true)) with
          | (s3, false) => (s3, false)
          | (s3, true) =>
            if c3.count > 0 ∧ intersects tmin tmax (q3 min max).1 (q3 min max).2 = true
            then search c3 (q3 min max).1 (q3 min max).2 tmin tmax iter s3
            else (s3, true)

/-- The loop over `n.entries` in `node.scan`. -/
def scanEntries {σ : Type} (iter : Visitor σ D) : List (Entry D) → σ → σ × Bool
  | [], s => (s, true)
  | e :: es, s =>
    match iter s e.min e.max e.data with
    | (s1, false) => (s1, false)
    | (s1, true) => scanEntries iter es s1

/-- The method `node.scan`; the `Bool` is its return value. -/
def scan {σ : Type} : Node D → Visitor σ D → σ → σ × Bool
  | .leaf _ entries, iter, s => scanEntries iter entries s
  | .quad _ entries c0 c1 c2 c3, iter, s =>
    match scanEntries iter entries s with
    | (s0, false) => (s0, false)
    | (s0, true) =>
      match scan c0 iter s0 with
      | (s1, false) => (s1, false)
      | (s1, true) =>
        match scan c1 iter s1 with
        | (s2, false) => (s2, false)
        | (s2, true) =>
          match scan c2 iter s2 with
          | (s3, false) => (s3, false)
          | (s3, true) => scan c3 iter s3

/-! ## Bounds -/

/-- The loop over `n.entries` in `node.min`. -/
def minLoop (axis : Nat) : List (Entry D) → ℚ → Bool → ℚ × Bool
  | [], v, set => (v, set)
  | e :: es, v, set =>
    if !set || decide (e.min.get axis < v) then minLoop axis es (e.min.get axis) true
    else minLoop axis es v set

/-- The method `node.min`. -/
def Node.min : Node D → Pt → Pt → Nat → ℚ → Bool → ℚ × Bool
  | .leaf _ entries, _, _, axis, v, set => minLoop axis entries v set
  | .quad _ entries c0 _ c2 _, min, max, axis, v, set =>
    match minLoop axis entries v set with
    | (v0, set0) =>
      if set0 && decide (v0 < min.get axis) then (v0, set0)
      else if axis = 0 then
        match c0.min (q0 min max).1 (q0 min max).2 axis v0 set0 with
        | (qv, qset) =>
          match (if qset && (!set0 || decide (qv < v0)) then (qv, true) else (v0, set0)) with
          | (v1, set1) =>
            match c2.min (q2 min max).1 (q2 min max).2 axis v1 set1 with
            | (qv2, qset2) =>
              if qset2 && (!set1 || decide (qv2 < v1)) then (qv2, true) else (v1, set1)
      else (v0, set0)

/-- The loop over `n.entries` in `node.max`. -/
def maxLoop (axis : Nat) : List (Entry D) → ℚ → Bool → ℚ × Bool
  | [], v, set => (v, set)
  | e :: es, v, set =>
    if !set || decide (e.max.get axis > v) then maxLoop axis es (e.max.get axis) true
    else maxLoop axis es v set

/-- The method `node.max`. -/
def Node.max : Node D → Pt → Pt → Nat → ℚ → Bool → ℚ × Bool
  | .leaf _ entries, _, _, axis, v, set => maxLoop axis entries v set
  | .quad _ entries c0 _ c2 _, min, max, axis, v, set =>
    match maxLoop axis entries v set with
    | (v0, set0) =>
      if set0 && decide (v0 > max.get axis) then (v0, set0)
      else if axis = 0 then
        match c0.max (q0 min max).1 (q0 min max).2 axis v0 set0 with
        | (qv, qset) =>
          match (if qset && (!set0 || decide (qv > v0)) then (qv, true) else (v0, set0)) with
          | (v1, set1) =>
            match c2.max (q2 min max).1 (q2 min max).2 axis v1 set1 with
            | (qv2, qset2) =>
              if qset2 && (!set1 || decide (qv2 > v1)) then (qv2, true) else (v1, set1)
      else (v0, set0)

/-! ## The tree -/

/-- The constructor `New`. -/
def New (min max : Pt) : QTree D := { init := true, min := min, max := max, root := Node.zero }

/-- The zero value `QTree{}`. -/
def QTree.zero : QTree D := { init := false, min := (0, 0), max := (0, 0), root := Node.zero }

/-- The method `QTree.Insert`, with the fuel of the root `insert`. -/
def QTree.Insert (fuel : Nat) (tr : QTree D) (min max : Pt) (data : D) : Option (QTree D) :=
  let tr1 : QTree D := if tr.init then tr else New (-180, -90) (180, 90)
  (insert fuel tr1.root tr1.min tr1.max 1 ⟨min, max, data⟩).map
    (fun r => { tr1 with root := r })

/-- The method `QTree.Delete`. -/
def QTree.Delete [DecidableEq D] (tr : QTree D) (min max : Pt) (data : D) : QTree D :=
  if tr.init then { tr with root := (delete tr.root tr.min tr.max ⟨min, max, data⟩).1 }
  else tr

/-- The method `QTree.Replace`: a `Delete` followed by an `Insert`. -/
def QTree.Replace [DecidableEq D] (fuel : Nat) (tr : QTree D) (oldMin oldMax : Pt) (oldData : D)
    (newMin newMax : Pt) (newData : D) : Option (QTree D) :=
  (tr.Delete oldMin oldMax oldData).Insert fuel newMin newMax newData

/-- The method `QTree.Search`; the result is the caller's state afterwards. -/
def QTree.Search {σ : Type} (tr : QTree D) (min max : Pt) (iter : Visitor σ D) (s : σ) : σ :=
  if tr.init then (search tr.root tr.min tr.max min max iter s).1 else s

/-- The method `QTree.Scan`; the result is the caller's state afterwards. -/
def QTree.Scan {σ : Type} (tr : QTree D) (iter : Visitor σ D) (s : σ) : σ :=
  (scan tr.root iter s).1

/-- The method `QTree.Len`. -/
def QTree.Len (tr : QTree D) : Int := tr.root.count

/-- The method `QTree.Bounds`. -/
def QTree.Bounds (tr : QTree D) : Pt × Pt :=
  if tr.init then
    (((tr.root.min tr.min tr.max 0 0 false).1, (tr.root.min tr.min tr.max 1 0 false).1),
     ((tr.root.max tr.min tr.max 0 0 false).1, (tr.root.max tr.min tr.max 1 0 false).1))
  else ((0, 0), (0, 0))

/-! ## Observations and call sequences -/

/-- The visitor that appends every entry it is given to a list and never stops. -/
def collect : Visitor (List (Entry D)) D := fun s mn mx d => (s ++ [⟨mn, mx, d⟩], true)

/-- The entries a `Search` visits, in order, when the visitor never stops. -/
def QTree.searchList (tr : QTree D) (min max : Pt) : List (Entry D) :=
  tr.Search min max collect []

/-- The entries a `Scan` visits, in order, when the visitor never stops. -/
def QTree.scanList (tr : QTree D) : List (Entry D) := tr.Scan collect []

/-- One call of a mutating method. -/
inductive Op (D : Type) where
  | insert (min max : Pt) (data : D)
  | delete (min max : Pt) (data : D)
  | replace (oldMin oldMax : Pt) (oldData : D) (newMin newMax : Pt) (newData : D)
deriving DecidableEq, Repr

/-- One call on a tree. -/
def QTree.apply [DecidableEq D] (fuel : Nat) (tr : QTree D) : Op D → Option (QTree D)
  | .insert mn mx d => tr.Insert fuel mn mx d
  | .delete mn mx d => some (tr.Delete mn mx d)
  | .replace a b c x y z => tr.Replace fuel a b c x y z

/-- A sequence of calls on a tree, from left to right. -/
def QTree.run [DecidableEq D] (fuel : Nat) : QTree D → List (Op D) → Option (QTree D)
  | tr, [] => some tr
  | tr, op :: ops =>
    match tr.apply fuel op with
    | none => none
    | some tr1 => QTree.run fuel tr1 ops

/-- The trees the program can build: from `New` or the zero value by
`Insert`, `Delete` and `Replace`. -/
inductive Reachable [DecidableEq D] : QTree D → Prop where
  | new (min max : Pt) : Reachable (New min max)
  | zero : Reachable QTree.zero
  | insert {tr tr1 : QTree D} (fuel : Nat) (min max : Pt) (data : D) :
      Reachable tr → tr.Insert fuel min max data = some tr1 → Reachable tr1
  | delete {tr : QTree D} (min max : Pt) (data : D) :
      Reachable tr → Reachable (tr.Delete min max data)
  | replace {tr tr1 : QTree D} (fuel : Nat) (a b : Pt) (c : D) (x y : Pt) (z : D) :
      Reachable tr → tr.Replace fuel a b c x y z = some tr1 → Reachable tr1

/-! ## Specification-level views of a node -/

/-- Every entry stored in the subtree of a node, in the order of `scan`. -/
def Node.all : Node D → List (Entry D)
  | .leaf _ entries => entries
  | .quad _ entries c0 c1 c2 c3 => entries ++ c0.all ++ c1.all ++ c2.all ++ c3.all

/-- The test `intersects(tmin, tmax, e.min, e.max)` on an entry. -/
def Entry.hit (tmin tmax : Pt) (e : Entry D) : Bool := intersects tmin tmax e.min e.max

/-- The entries that `search` offers to its visitor, in order, as long as
the visitor does not stop. -/
def Node.hits : Node D → Pt → Pt → Pt → Pt → List (Entry D)
  | .leaf _ entries, _, _, tmin, tmax => entries.filter (Entry.hit tmin tmax)
  | .quad _ entries c0 c1 c2 c3, min, max, tmin, tmax =>
    entries.filter (Entry.hit tmin tmax)
    ++ (if c0.count > 0 ∧ intersects tmin tmax (q0 min max).1 (q0 min max).2 = true
        then c0.hits (q0 min max).1 (q0 min max).2 tmin tmax else [])
    ++ (if c1.count > 0 ∧ intersects tmin tmax (q1 min max).1 (q1 min max).2 = true
        then c1.hits (q1 min max).1 (q1 min max).2 tmin tmax else [])
    ++ (if c2.count > 0 ∧ intersects tmin tmax (q2 min max).1 (q2 min max).2 = true
        then c2.hits (q2 min max).1 (q2 min max).2 tmin tmax else [])
    ++ (if c3.count > 0 ∧ intersects tmin tmax (q3 min max).1 (q3 min max).2 = true
        then c3.hits (q3 min max).1 (q3 min max).2 tmin tmax else [])

/-- Whether the node has children (`quads != nil`). -/
def Node.isQuad : Node D → Bool
  | .leaf _ _ => false
  | .quad _ _ _ _ _ _ => true

/-- The quadrant index that `choose` returns. -/
def quadOf (min max : Pt) (e : Entry D) : Int := (choose min max e).2.2

/-- The invariant of a node with region `(min, max)` at depth `level`: the
count is at least the number of stored entries, no node at `maxLevel` has
children, every entry kept by a node with children fits no quadrant, and
every entry below child `i` has `i` as its chosen quadrant. -/
def Good : Node D → Pt → Pt → Nat → Prop
  | .leaf count entries, _, _, level => (entries.length : Int) ≤ count ∧ level ≤ maxLevel
  | .quad count entries c0 c1 c2 c3, min, max, level =>
    ((entries ++ c0.all ++ c1.all ++ c2.all ++ c3.all).length : Int) ≤ count ∧
    level < maxLevel ∧
    (∀ e ∈ entries, quadOf min max e = -1) ∧
    (∀ e ∈ c0.all, quadOf min max e = 0) ∧
    (∀ e ∈ c1.all, quadOf min max e = 1) ∧
    (∀ e ∈ c2.all, quadOf min max e = 2) ∧
    (∀ e ∈ c3.all, quadOf min max e = 3) ∧
    Good c0 (q0 min max).1 (q0 min max).2 (level + 1) ∧
    Good c1 (q1 min max).1 (q1 min max).2 (level + 1) ∧
    Good c2 (q2 min max).1 (q2 min max).2 (level + 1) ∧
    Good c3 (q3 min max).1 (q3 min max).2 (level + 1)

/-- The invariant of a tree: an uninitialised tree has the zero root, and the
root satisfies `Good` for the domain at depth 1. -/
def GoodTree (tr : QTree D) : Prop :=
  (tr.init = false → tr.root = Node.zero) ∧ Good tr.root tr.min tr.max 1

/-! ## Call logs, list models and concrete call sequences -/

/-- A visitor wrapped so that every invocation is written to a log: the entry
it was called on and the `bool` it returned. -/
def traced {σ : Type} (iter : Visitor σ D) : Visitor (σ × List (Entry D × Bool)) D :=
  fun s mn mx d => (((iter s.1 mn mx d).1, s.2 ++ [(⟨mn, mx, d⟩, (iter s.1 mn mx d).2)]),
    (iter s.1 mn mx d).2)

/-- The invocations a visitor gets when it is offered the entries of a list in
turn and is not called again after it returned `false`. -/
def callsOn {σ : Type} (iter : Visitor σ D) : List (Entry D) → σ → List (Entry D × Bool)
  | [], _ => []
  | e :: es, s =>
    (e, (iter s e.min e.max e.data).2) ::
      (if (iter s e.min e.max e.data).2 then callsOn iter es (iter s e.min e.max e.data).1
       else [])

/-- The log of the visitor's invocations during `tr.Search`. -/
def QTree.searchLog {σ : Type} (tr : QTree D) (min max : Pt) (iter : Visitor σ D) (s : σ) :
    List (Entry D × Bool) :=
  (tr.Search min max (traced iter) (s, [])).2

/-- The log of the visitor's invocations during `tr.Scan`. -/
def QTree.scanLog {σ : Type} (tr : QTree D) (iter : Visitor σ D) (s : σ) :
    List (Entry D × Bool) :=
  (tr.Scan (traced iter) (s, [])).2

/-- The list model of a call sequence, in the words of the claims: the
net-surviving inserted entries, those inserted and not since deleted (a
`Delete` removes the entries with its payload). -/
def survivors [DecidableEq D] : List (Op D) → List (Entry D) → List (Entry D)
  | [], acc => acc
  | .insert mn mx d :: ops, acc => survivors ops (acc ++ [⟨mn, mx, d⟩])
  | .delete _ _ d :: ops, acc => survivors ops (acc.filter (fun x => decide (x.data ≠ d)))
  | .replace _ _ c x y z :: ops, acc =>
    survivors ops (acc.filter (fun x => decide (x.data ≠ c)) ++ [⟨x, y, z⟩])

/-- The calls `Insert((a,b), (c,d), k)` for `k` from `lo` to `lo + n - 1`. -/
def insertsOf (a b c d : ℚ) (lo n : Nat) : List (Op Nat) :=
  (List.range n).map (fun k => Op.insert (a, b) (c, d) (lo + k))

/-- The calls `Delete((a,b), (c,d), k)` for `k` from `lo` to `lo + n - 1`. -/
def deletesOf (a b c d : ℚ) (lo n : Nat) : List (Op Nat) :=
  (List.range n).map (fun k => Op.delete (a, b) (c, d) (lo + k))

/-- The domain of the examples. -/
def demoNew : QTree Nat := New (0, 0) (16, 16)

/-- Thirty-three boxes around the centre of quadrant 0 and a point in its
lower left corner: the root splits, then its child 0 splits. -/
def demoOps : List (Op Nat) :=
  insertsOf 3 3 5 5 1 33 ++ [Op.insert (1, 1) (1, 1) 100]

/-- The tree that `demoOps` builds. -/
def demoTree : QTree Nat :=
  { init := true, min := (0, 0), max := (16, 16),
    root := .quad 34 []
      (.quad 34 ((List.range 33).map (fun k => ⟨(3, 3), (5, 5), 1 + k⟩))
        (.leaf 1 [⟨(1, 1), (1, 1), 100⟩]) Node.zero Node.zero Node.zero)
      Node.zero Node.zero Node.zero }

/-- After `demoOps`, twenty-three of the boxes are deleted again. -/
def lossOps : List (Op Nat) := demoOps ++ deletesOf 3 3 5 5 1 23

/-- Thirty-three boxes around the centre of the domain, all deleted again. -/
def hollowOps : List (Op Nat) := insertsOf 7 7 9 9 1 33 ++ deletesOf 7 7 9 9 1 33

/-- The tree that `hollowOps` builds: a root with four empty children. -/
def hollowTree : QTree Nat :=
  { init := true, min := (0, 0), max := (16, 16),
    root := .quad 0 [] Node.zero Node.zero Node.zero Node.zero }

/-- Twelve boxes around the centre of the domain, thirty-three around the
centre of quadrant 0 and a point in it; then all the boxes are deleted. The
root and its child 0 keep their children, and the point is all that is left. -/
def sparseOps : List (Op Nat) :=
  insertsOf 7 7 9 9 1 12 ++ insertsOf 3 3 5 5 101 33 ++ [Op.insert (1, 1) (1, 1) 500] ++
  deletesOf 3 3 5 5 101 33 ++ deletesOf 7 7 9 9 1 12

/-- The tree that `sparseOps` builds. -/
def sparseTree : QTree Nat :=
  { init := true, min := (0, 0), max := (16, 16),
    root := .quad 1 []
      (.quad 1 [] (.leaf 1 [⟨(1, 1), (1, 1), 500⟩]) Node.zero Node.zero Node.zero)
      Node.zero Node.zero Node.zero }

/-- The visitor that counts its invocations and always returns `false`. -/
def stopper : Visitor Nat Nat := fun s _ _ _ => (s + 1, false)

/-! ## Every node of a tree -/

/-- Every node of the subtree of a node, each with its region and its depth,
for a node of region `(min, max)` at depth `level`. -/
def Node.sub : Node D → Pt → Pt → Nat → List (Node D × Pt × Pt × Nat)
  | .leaf count entries, min, max, level => [(.leaf count entries, min, max, level)]
  | .quad count entries c0 c1 c2 c3, min, max, level =>
    (.quad count entries c0 c1 c2 c3, min, max, level) ::
      (c0.sub (q0 min max).1 (q0 min max).2 (level + 1) ++
       c1.sub (q1 min max).1 (q1 min max).2 (level + 1) ++
       c2.sub (q2 min max).1 (q2 min max).2 (level + 1) ++
       c3.sub (q3 min max).1 (q3 min max).2 (level + 1))

/-- Every node of a tree with its region and depth: the root has the domain
as its region and depth 1. -/
def QTree.nodes (tr : QTree D) : List (Node D × Pt × Pt × Nat) :=
  tr.root.sub tr.min tr.max 1

/-- The number of levels of a subtree: 1 for a node without children. -/
def Node.height : Node D → Nat
  | .leaf _ _ => 1
  | .quad _ _ c0 c1 c2 c3 =>
    1 + Nat.max (Nat.max c0.height c1.height) (Nat.max c2.height c3.height)

/-- Thirty-four times the same point in the lower left corner of the domain:
the splits cascade down to `maxLevel`. -/
def deepOps : List (Op Nat) := insertsOf 0 0 0 0 1 34

/-- A chain of `k` nodes with count `c`, no own entries and empty children 1
to 3, above the node `n` as child 0. -/
def chainOf (c : Int) : Nat → Node Nat → Node Nat
  | 0, n => n
  | k + 1, n => .quad c [] (chainOf c k n) Node.zero Node.zero Node.zero

/-- The tree that `deepOps` builds: fifteen levels of nodes with children and
a leaf at depth 16 with all thirty-four entries. -/
def deepTree : QTree Nat :=
  { init := true, min := (0, 0), max := (16, 16),
    root := chainOf 34 15 (.leaf 34 ((List.range 34).map (fun k => ⟨(0, 0), (0, 0), 1 + k⟩))) }

/-! ## The placement of the entries -/

/-- The placement condition at one node with children and region `(min, max)`:
`choose` returns -1 for every entry of the node's own list, which so lies in
none of the four quadrants, and returns `i` for every entry stored below child
`i`, which so has quadrant `i` as the first one that contains its box. -/
def PlacedAt : Node D → Pt → Pt → Prop
  | .leaf _ _, _, _ => True
  | .quad _ entries c0 c1 c2 c3, min, max =>
    (∀ e ∈ entries, quadOf min max e = -1 ∧
      contains (q0 min max).1 (q0 min max).2 e.min e.max = false ∧
      contains (q1 min max).1 (q1 min max).2 e.min e.max = false ∧
      contains (q2 min max).1 (q2 min max).2 e.min e.max = false ∧
      contains (q3 min max).1 (q3 min max).2 e.min e.max = false) ∧
    (∀ e ∈ c0.all, quadOf min max e = 0 ∧
      contains (q0 min max).1 (q0 min max).2 e.min e.max = true) ∧
    (∀ e ∈ c1.all, quadOf min max e = 1 ∧
      contains (q0 min max).1 (q0 min max).2 e.min e.max = false ∧
      contains (q1 min max).1 (q1 min max).2 e.min e.max = true) ∧
    (∀ e ∈ c2.all, quadOf min max e = 2 ∧
      contains (q0 min max).1 (q0 min max).2 e.min e.max = false ∧
      contains (q1 min max).1 (q1 min max).2 e.min e.max = false ∧
      contains (q2 min max).1 (q2 min max).2 e.min e.max = true) ∧
    (∀ e ∈ c3.all, quadOf min max e = 3 ∧
      contains (q0 min max).1 (q0 min max).2 e.min e.max = false ∧
      contains (q1 min max).1 (q1 min max).2 e.min e.max = false ∧
      contains (q2 min max).1 (q2 min max).2 e.min e.max = false ∧
      contains (q3 min max).1 (q3 min max).2 e.min e.max = true)

/-- The placement condition at every node of a subtree, for a node of region
`(min, max)`. -/
def Placed : Node D → Pt → Pt → Prop
  | .leaf _ _, _, _ => True
  | .quad _ entries c0 c1 c2 c3, min, max =>
    (∀ e ∈ entries, quadOf min max e = -1) ∧
    (∀ e ∈ c0.all, quadOf min max e = 0) ∧
    (∀ e ∈ c1.all, quadOf min max e = 1) ∧
    (∀ e ∈ c2.all, quadOf min max e = 2) ∧
    (∀ e ∈ c3.all, quadOf min max e = 3) ∧
    Placed c0 (q0 min max).1 (q0 min max).2 ∧
    Placed c1 (q1 min max).1 (q1 min max).2 ∧
    Placed c2 (q2 min max).1 (q2 min max).2 ∧
    Placed c3 (q3 min max).1 (q3 min max).2

/-- The children of a node: none for a leaf, the four `quads` otherwise. -/
def Node.children : Node D → List (Node D)
  | .leaf _ _ => []
  | .quad _ _ c0 c1 c2 c3 => [c0, c1, c2, c3]

/-- The tree that `lossOps` builds: a leaf with count 11 and ten entries. -/
def lossTree : QTree Nat :=
  { init := true, min := (0, 0), max := (16, 16),
    root := .leaf 11 ((List.range 10).map (fun k => ⟨(3, 3), (5, 5), 33 - k⟩)) }

/-- Thirty-three boxes around the centre of the domain, twenty-two of them
deleted again. -/
def thinOps : List (Op Nat) := insertsOf 7 7 9 9 1 33 ++ deletesOf 7 7 9 9 1 22

/-- The payload that a call deletes, if it deletes one. -/
def Op.deleted : Op D → Option D
  | .insert _ _ _ => none
  | .delete _ _ d => some d
  | .replace _ _ c _ _ _ => some c

/-- Three boxes in a fresh tree. -/
def smallOps : List (Op Nat) :=
  [Op.insert (1, 2) (3, 4) 1, Op.insert (0, 5) (2, 6) 2, Op.insert (2, 1) (7, 3) 3]

/-- The tree that `smallOps` builds: a root without children. -/
def smallTree : QTree Nat :=
  { init := true, min := (0, 0), max := (16, 16),
    root := .leaf 3 [⟨(1, 2), (3, 4), 1⟩, ⟨(0, 5), (2, 6), 2⟩, ⟨(2, 1), (7, 3), 3⟩] }

/-! ## Points inside the domain -/

/-- The entry is a point (`min == max`) that lies inside the box `(min, max)`. -/
def Entry.pointIn (min max : Pt) (e : Entry D) : Prop :=
  e.min = e.max ∧ contains min max e.min e.max = true

/-- The domain that a tree has, or that its first `Insert` gives it. -/
def QTree.domain (tr : QTree D) : Pt × Pt :=
  if tr.init then (tr.min, tr.max) else ((-180, -90), (180, 90))

/-- The call sequences of `Insert` and `Delete` in which every inserted entry
is a point inside the box `(dmin, dmax)`, no two insertions have the same
payload, and every `Delete` passes the box and payload of an earlier `Insert`;
`seen` lists the entries inserted before. -/
def PointCalls (dmin dmax : Pt) : List (Op D) → List (Entry D) → Prop
  | [], _ => True
  | .insert mn mx d :: ops, seen =>
    mn = mx ∧ contains dmin dmax mn mx = true ∧ (∀ x ∈ seen, x.data ≠ d) ∧
      PointCalls dmin dmax ops (seen ++ [⟨mn, mx, d⟩])
  | .delete mn mx d :: ops, seen =>
    (⟨mn, mx, d⟩ : Entry D) ∈ seen ∧ PointCalls dmin dmax ops seen
  | .replace _ _ _ _ _ _ :: _, _ => False

/-- The invariant of the trees that hold only points inside their domain: a
leaf's count is the number of its entries, which are points inside its region;
a node with children has no entries of its own, its count is the sum of its
children's counts, and every child that has children has count at least
`minEntries`. -/
def Tight : Node D → Pt → Pt → Prop
  | .leaf count entries, min, max =>
    count = (entries.length : Int) ∧ ∀ e ∈ entries, e.pointIn min max
  | .quad count entries c0 c1 c2 c3, min, max =>
    entries = [] ∧ count = c0.count + c1.count + c2.count + c3.count ∧
    (c0.isQuad = true → minEntries ≤ c0.count) ∧
    (c1.isQuad = true → minEntries ≤ c1.count) ∧
    (c2.isQuad = true → minEntries ≤ c2.count) ∧
    (c3.isQuad = true → minEntries ≤ c3.count) ∧
    Tight c0 (q0 min max).1 (q0 min max).2 ∧
    Tight c1 (q1 min max).1 (q1 min max).2 ∧
    Tight c2 (q2 min max).1 (q2 min max).2 ∧
    Tight c3 (q3 min max).1 (q3 min max).2

/-- Whether a call sequence is in `PointCalls` can be computed. -/
instance PointCalls.decidable [DecidableEq D] (dmin dmax : Pt) :
    (ops : List (Op D)) → (seen : List (Entry D)) → Decidable (PointCalls dmin dmax ops seen)
  | [], _ => isTrue trivial
  | .insert mn mx d :: ops, seen =>
    have := PointCalls.decidable dmin dmax ops (seen ++ [(⟨mn, mx, d⟩ : Entry D)])
    inferInstanceAs (Decidable (mn = mx ∧ contains dmin dmax mn mx = true ∧
      (∀ x ∈ seen, x.data ≠ d) ∧
      PointCalls dmin dmax ops (seen ++ [(⟨mn, mx, d⟩ : Entry D)])))
  | .delete mn mx d :: ops, seen =>
    have := PointCalls.decidable dmin dmax ops seen
    inferInstanceAs (Decidable ((⟨mn, mx, d⟩ : Entry D) ∈ seen ∧ PointCalls dmin dmax ops seen))
  | .replace _ _ _ _ _ _ :: _, _ => isFalse (fun h => h)

/-- The `k`-th point of a grid of seven columns inside the domain of the
examples. -/
def gridPt (k : Nat) : Pt := (((k % 7 * 2 + 1 : Nat) : ℚ), ((k / 7 * 2 + 1 : Nat) : ℚ))

/-- Fifty points of the grid are inserted with payloads 0 to 49, then the
first forty-five are deleted with their boxes. -/
def pointOps : List (Op Nat) :=
  (List.range 50).map (fun k => Op.insert (gridPt k) (gridPt k) k) ++
  (List.range 45).map (fun k => Op.delete (gridPt k) (gridPt k) k)

/-! # Theorems -/

/-! ## Visiting a list of entries -/

section Visit
variable {σ : Type}

theorem scanEntries_nil (iter : Visitor σ D) (s : σ) : scanEntries iter [] s = (s, true) := rfl

theorem scanEntries_append (iter : Visitor σ D) (l1 l2 : List (Entry D)) (s : σ) :
    scanEntries iter (l1 ++ l2) s =
      if (scanEntries iter l1 s).2 then scanEntries iter l2 (scanEntries iter l1 s).1
      else scanEntries iter l1 s := by
  induction l1 generalizing s with
  | nil => simp [scanEntries]
  | cons e es ih =>
    simp only [List.cons_append, scanEntries]
    rcases h : iter s e.min e.max e.data with ⟨s1, b⟩
    cases b
    · simp
    · simp only []
      exact ih s1

theorem searchEntries_eq (tmin tmax : Pt) (iter : Visitor σ D) (es : List (Entry D)) (s : σ) :
    searchEntries tmin tmax iter es s = scanEntries iter (es.filter (Entry.hit tmin tmax)) s := by
  induction es generalizing s with
  | nil => rfl
  | cons e es ih =>
    simp only [searchEntries, List.filter_cons, Entry.hit]
    by_cases h : intersects tmin tmax e.min e.max = true
    · simp only [h, if_true, scanEntries]
      rcases iter s e.min e.max e.data with ⟨s1, b⟩
      cases b
      · rfl
      · exact ih s1
    · simp only [h, if_false]
      exact ih s

/-- The shape of one step of `search` and `scan`: stop when the part before
stopped, go on otherwise. -/
theorem step_eq (r : σ × Bool) (k : σ → σ × Bool) :
    (match r with
      | (s0, false) => (s0, false)
      | (s0, true) => k s0) = if r.2 then k r.1 else r := by
  rcases r with ⟨s0, b⟩
  cases b <;> rfl

theorem child_step_eq (p : Prop) [Decidable p] (iter : Visitor σ D) (l : List (Entry D)) (s : σ) :
    (if p then scanEntries iter l s else (s, true)) = scanEntries iter (if p then l else []) s := by
  split <;> rfl

theorem scan_eq (n : Node D) (iter : Visitor σ D) (s : σ) :
    scan n iter s = scanEntries iter n.all s := by
  induction n generalizing s with
  | leaf c es => rfl
  | quad c es c0 c1 c2 c3 ih0 ih1 ih2 ih3 =>
    simp only [scan, Node.all, step_eq, ih0, ih1, ih2, ih3, ← scanEntries_append,
      List.append_assoc]

theorem search_eq (n : Node D) (min max tmin tmax : Pt) (iter : Visitor σ D) (s : σ) :
    search n min max tmin tmax iter s = scanEntries iter (n.hits min max tmin tmax) s := by
  induction n generalizing s min max with
  | leaf c es => simp [search, Node.hits, searchEntries_eq]
  | quad c es c0 c1 c2 c3 ih0 ih1 ih2 ih3 =>
    simp only [search, Node.hits, step_eq, searchEntries_eq, ih0, ih1, ih2, ih3,
      child_step_eq, ← scanEntries_append, List.append_assoc]

theorem scanEntries_collect (l s : List (Entry D)) :
    scanEntries collect l s = (s ++ l, true) := by
  induction l generalizing s with
  | nil => simp [scanEntries]
  | cons e es ih => simp [scanEntries, collect, ih]

end Visit

theorem scanList_eq (tr : QTree D) : tr.scanList = tr.root.all := by
  simp [QTree.scanList, QTree.Scan, scan_eq, scanEntries_collect]

theorem searchList_eq (tr : QTree D) (tmin tmax : Pt) :
    tr.searchList tmin tmax =
      if tr.init then tr.root.hits tr.min tr.max tmin tmax else [] := by
  simp only [QTree.searchList, QTree.Search, search_eq, scanEntries_collect]
  split <;> simp

/-! ## Geometry lemmas -/

theorem choose_cases (min max : Pt) (e : Entry D) :
    choose min max e = ((q0 min max).1, (q0 min max).2, 0) ∨
    choose min max e = ((q1 min max).1, (q1 min max).2, 1) ∨
    choose min max e = ((q2 min max).1, (q2 min max).2, 2) ∨
    choose min max e = ((q3 min max).1, (q3 min max).2, 3) ∨
    choose min max e = ((q3 min max).1, (q3 min max).2, -1) := by
  unfold choose
  split
  · exact Or.inl rfl
  · split
    · exact Or.inr (Or.inl rfl)
    · split
      · exact Or.inr (Or.inr (Or.inl rfl))
      · split
        · exact Or.inr (Or.inr (Or.inr (Or.inl rfl)))
        · exact Or.inr (Or.inr (Or.inr (Or.inr rfl)))

theorem quadOf_zero_contains {min max : Pt} {e : Entry D} (h : quadOf min max e = 0) :
    contains (q0 min max).1 (q0 min max).2 e.min e.max = true := by
  unfold quadOf choose at h
  split at h
  · assumption
  · split at h
    · simp at h
    · split at h
      · simp at h
      · split at h <;> simp at h

theorem quadOf_one_contains {min max : Pt} {e : Entry D} (h : quadOf min max e = 1) :
    contains (q1 min max).1 (q1 min max).2 e.min e.max = true := by
  unfold quadOf choose at h
  split at h
  · simp at h
  · split at h
    · assumption
    · split at h
      · simp at h
      · split at h <;> simp at h

theorem quadOf_two_contains {min max : Pt} {e : Entry D} (h : quadOf min max e = 2) :
    contains (q2 min max).1 (q2 min max).2 e.min e.max = true := by
  unfold quadOf choose at h
  split at h
  · simp at h
  · split at h
    · simp at h
    · split at h
      · assumption
      · split at h <;> simp at h

theorem quadOf_three_contains {min max : Pt} {e : Entry D} (h : quadOf min max e = 3) :
    contains (q3 min max).1 (q3 min max).2 e.min e.max = true := by
  unfold quadOf choose at h
  split at h
  · simp at h
  · split at h
    · simp at h
    · split at h
      · simp at h
      · split at h
        · assumption
        · simp at h

/-- A query that meets a box meets every box that contains it. -/
theorem intersects_of_contains {tmin tmax qmin qmax bmin bmax : Pt}
    (hc : contains qmin qmax bmin bmax = true) (hi : intersects tmin tmax bmin bmax = true) :
    intersects tmin tmax qmin qmax = true := by
  simp only [contains, decide_eq_true_eq, ge_iff_le] at hc
  obtain ⟨h1, h2, h3, h4⟩ := hc
  unfold intersects at hi ⊢
  split at hi
  · simp at hi
  · split at hi
    · simp at hi
    · rename_i ha hb
      simp only [gt_iff_lt, not_or, not_lt] at ha hb
      have e1 : ¬ (qmin.1 > tmax.1 ∨ qmax.1 < tmin.1) := by
        simp only [gt_iff_lt, not_or, not_lt]
        exact ⟨le_trans h1 ha.1, le_trans ha.2 h2⟩
      have e2 : ¬ (qmin.2 > tmax.2 ∨ qmax.2 < tmin.2) := by
        simp only [gt_iff_lt, not_or, not_lt]
        exact ⟨le_trans h3 hb.1, le_trans hb.2 h4⟩
      simp only [e1, e2, if_false]

/-! ## Consequences of the invariant -/

theorem Good.count_le {n : Node D} {min max : Pt} {level : Nat} (h : Good n min max level) :
    (n.all.length : Int) ≤ n.count := by
  cases n with
  | leaf c es => exact h.1
  | quad c es c0 c1 c2 c3 => exact h.1

theorem Good.level_le {n : Node D} {min max : Pt} {level : Nat} (h : Good n min max level) :
    level ≤ maxLevel := by
  cases n with
  | leaf c es => exact h.2
  | quad c es c0 c1 c2 c3 => exact Nat.le_of_lt h.2.1

theorem Good.zero (min max : Pt) {level : Nat} (h : level ≤ maxLevel) :
    Good (Node.zero : Node D) min max level := by
  simp [Node.zero, Good, h]

/-- What the pruning of one child in `search` relies on. -/
theorem child_hits_eq {c : Node D} {qmin qmax tmin tmax : Pt}
    (hlen : (c.all.length : Int) ≤ c.count)
    (hin : ∀ e ∈ c.all, contains qmin qmax e.min e.max = true)
    (ih : c.hits qmin qmax tmin tmax = c.all.filter (Entry.hit tmin tmax)) :
    (if c.count > 0 ∧ intersects tmin tmax qmin qmax = true
      then c.hits qmin qmax tmin tmax else []) = c.all.filter (Entry.hit tmin tmax) := by
  split
  · exact ih
  · rename_i hno
    symm
    rw [List.filter_eq_nil_iff]
    intro e he hhit
    apply hno
    constructor
    · have : 0 < c.all.length := List.length_pos_of_mem he
      omega
    · exact intersects_of_contains (hin e he) hhit

theorem hits_eq_filter (n : Node D) (min max tmin tmax : Pt) (level : Nat)
    (h : Good n min max level) :
    n.hits min max tmin tmax = n.all.filter (Entry.hit tmin tmax) := by
  induction n generalizing min max level with
  | leaf c es => rfl
  | quad c es c0 c1 c2 c3 ih0 ih1 ih2 ih3 =>
    obtain ⟨_, _, _, h0, h1, h2, h3, g0, g1, g2, g3⟩ := h
    simp only [Node.hits, Node.all, List.filter_append]
    rw [child_hits_eq g0.count_le (fun e he => quadOf_zero_contains (h0 e he)) (ih0 _ _ _ g0),
      child_hits_eq g1.count_le (fun e he => quadOf_one_contains (h1 e he)) (ih1 _ _ _ g1),
      child_hits_eq g2.count_le (fun e he => quadOf_two_contains (h2 e he)) (ih2 _ _ _ g2),
      child_hits_eq g3.count_le (fun e he => quadOf_three_contains (h3 e he)) (ih3 _ _ _ g3)]

/-! ## Insertion keeps the invariant and adds the entry -/

section Perm
variable {α : Type}

theorem perm_own {es a b c d x : List α} :
    List.Perm (es ++ x ++ a ++ b ++ c ++ d) (es ++ a ++ b ++ c ++ d ++ x) := by
  rw [← Multiset.coe_eq_coe]
  simp only [← Multiset.coe_add]
  abel

theorem perm_c0 {es a a1 b c d x : List α} (h : List.Perm a1 (a ++ x)) :
    List.Perm (es ++ a1 ++ b ++ c ++ d) (es ++ a ++ b ++ c ++ d ++ x) := by
  rw [← Multiset.coe_eq_coe] at h ⊢
  simp only [← Multiset.coe_add] at h ⊢
  rw [h]; abel

theorem perm_c1 {es a b b1 c d x : List α} (h : List.Perm b1 (b ++ x)) :
    List.Perm (es ++ a ++ b1 ++ c ++ d) (es ++ a ++ b ++ c ++ d ++ x) := by
  rw [← Multiset.coe_eq_coe] at h ⊢
  simp only [← Multiset.coe_add] at h ⊢
  rw [h]; abel

theorem perm_c2 {es a b c c1 d x : List α} (h : List.Perm c1 (c ++ x)) :
    List.Perm (es ++ a ++ b ++ c1 ++ d) (es ++ a ++ b ++ c ++ d ++ x) := by
  rw [← Multiset.coe_eq_coe] at h ⊢
  simp only [← Multiset.coe_add] at h ⊢
  rw [h]; abel

theorem perm_c3 {es a b c d d1 x : List α} (h : List.Perm d1 (d ++ x)) :
    List.Perm (es ++ a ++ b ++ c ++ d1) (es ++ a ++ b ++ c ++ d ++ x) := by
  rw [← Multiset.coe_eq_coe] at h ⊢
  simp only [← Multiset.coe_add] at h ⊢
  rw [h]; abel

end Perm

theorem splitLoop_inv {ins : Node D → Entry D → Option (Node D)} {P : Node D → Prop}
    (hstep : ∀ n x n1, P n → ins n x = some n1 → P n1 ∧ List.Perm n1.all (n.all ++ [x])) :
    ∀ (xs : List (Entry D)) (n r : Node D), P n → splitLoop ins xs n = some r →
      P r ∧ List.Perm r.all (n.all ++ xs) := by
  intro xs
  induction xs with
  | nil =>
    intro n r hn h
    simp only [splitLoop, Option.some.injEq] at h
    subst h
    simpa using hn
  | cons x xs ih =>
    intro n r hn h
    simp only [splitLoop] at h
    cases hx : ins n x with
    | none => simp [hx] at h
    | some n1 =>
      simp only [hx] at h
      obtain ⟨p1, q1⟩ := hstep n x n1 hn hx
      obtain ⟨p2, q2⟩ := ih n1 r p1 h
      refine ⟨p2, q2.trans ?_⟩
      have := q1.append_right xs
      simpa using this

theorem good_fresh_quad (min max : Pt) {level : Nat} (h : level < maxLevel) :
    Good (.quad 0 [] Node.zero Node.zero Node.zero Node.zero : Node D) min max level := by
  have h1 : level + 1 ≤ maxLevel := h
  simp [Good, Node.zero, Node.all, h, h1]

theorem insert_good (fuel : Nat) : ∀ (n : Node D) (min max : Pt) (level : Nat) (e : Entry D)
    (n1 : Node D), Good n min max level → insert fuel n min max level e = some n1 →
    Good n1 min max level ∧ List.Perm n1.all (n.all ++ [e]) := by
  induction fuel with
  | zero => intro n min max level e n1 _ h; simp [insert] at h
  | succ fuel ih =>
    intro n min max level e n1 hg h
    cases n with
    | leaf c es =>
      simp only [insert] at h
      split at h
      · rename_i hsplit
        cases hs : split (fun n x => insert fuel n min max level x) es with
        | none => simp [hs] at h
        | some n2 =>
          simp only [hs] at h
          have hlt : level < maxLevel := lt_of_le_of_ne hg.2 hsplit.1
          obtain ⟨g2, p2⟩ := splitLoop_inv (P := fun n => Good n min max level)
            (fun n x n1 hn hx => ih n min max level x n1 hn hx) es _ n2
            (good_fresh_quad min max hlt) hs
          obtain ⟨g3, p3⟩ := ih n2 min max level e n1 g2 h
          refine ⟨g3, p3.trans ?_⟩
          have := p2.append_right [e]
          simpa [Node.all, Node.zero] using this
      · simp only [Option.some.injEq] at h
        subst h
        refine ⟨⟨?_, hg.2⟩, by simp [Node.all]⟩
        have := hg.1
        simp only [List.length_append, List.length_singleton]
        push_cast
        omega
    | quad c es c0 c1 c2 c3 =>
      obtain ⟨hlen, hlev, hes, h0, h1, h2, h3, g0, g1, g2, g3⟩ := hg
      simp only [List.length_append] at hlen
      simp only [insert] at h
      rcases choose_cases min max e with hch | hch | hch | hch | hch
      · have hq : quadOf min max e = 0 := by simp [quadOf, hch]
        simp only [hch] at h
        norm_num at h
        obtain ⟨c', hc', rfl⟩ := h
        obtain ⟨g', p'⟩ := ih c0 _ _ _ e c' g0 hc'
        have hl := p'.length_eq
        simp only [List.length_append, List.length_singleton] at hl
        refine ⟨⟨?_, hlev, hes, ?_, h1, h2, h3, g', g1, g2, g3⟩, perm_c0 p'⟩
        · simp only [List.length_append, hl]; push_cast; omega
        · intro x hx
          rcases List.mem_append.1 (p'.subset hx) with hx | hx
          · exact h0 x hx
          · simp only [List.mem_singleton] at hx; subst hx; exact hq
      · have hq : quadOf min max e = 1 := by simp [quadOf, hch]
        simp only [hch] at h
        norm_num at h
        obtain ⟨c', hc', rfl⟩ := h
        obtain ⟨g', p'⟩ := ih c1 _ _ _ e c' g1 hc'
        have hl := p'.length_eq
        simp only [List.length_append, List.length_singleton] at hl
        refine ⟨⟨?_, hlev, hes, h0, ?_, h2, h3, g0, g', g2, g3⟩, perm_c1 p'⟩
        · simp only [List.length_append, hl]; push_cast; omega
        · intro x hx
          rcases List.mem_append.1 (p'.subset hx) with hx | hx
          · exact h1 x hx
          · simp only [List.mem_singleton] at hx; subst hx; exact hq
      · have hq : quadOf min max e = 2 := by simp [quadOf, hch]
        simp only [hch] at h
        norm_num at h
        obtain ⟨c', hc', rfl⟩ := h
        obtain ⟨g', p'⟩ := ih c2 _ _ _ e c' g2 hc'
        have hl := p'.length_eq
        simp only [List.length_append, List.length_singleton] at hl
        refine ⟨⟨?_, hlev, hes, h0, h1, ?_, h3, g0, g1, g', g3⟩, perm_c2 p'⟩
        · simp only [List.length_append, hl]; push_cast; omega
        · intro x hx
          rcases List.mem_append.1 (p'.subset hx) with hx | hx
          · exact h2 x hx
          · simp only [List.mem_singleton] at hx; subst hx; exact hq
      · have hq : quadOf min max e = 3 := by simp [quadOf, hch]
        simp only [hch] at h
        norm_num at h
        obtain ⟨c', hc', rfl⟩ := h
        obtain ⟨g', p'⟩ := ih c3 _ _ _ e c' g3 hc'
        have hl := p'.length_eq
        simp only [List.length_append, List.length_singleton] at hl
        refine ⟨⟨?_, hlev, hes, h0, h1, h2, ?_, g0, g1, g2, g'⟩, perm_c3 p'⟩
        · simp only [List.length_append, hl]; push_cast; omega
        · intro x hx
          rcases List.mem_append.1 (p'.subset hx) with hx | hx
          · exact h3 x hx
          · simp only [List.mem_singleton] at hx; subst hx; exact hq
      · have hq : quadOf min max e = -1 := by simp [quadOf, hch]
        simp only [hch] at h
        norm_num at h
        subst h
        refine ⟨⟨?_, hlev, ?_, h0, h1, h2, h3, g0, g1, g2, g3⟩, perm_own⟩
        · simp only [List.length_append, List.length_singleton]; push_cast; omega
        · intro x hx
          rcases List.mem_append.1 hx with hx | hx
          · exact hes x hx
          · simp only [List.mem_singleton] at hx; subst hx; exact hq

/-! ## Insertion returns: enough fuel gives a result -/

theorem insert_isQuad (fuel : Nat) (n : Node D) (min max : Pt) (level : Nat) (e : Entry D)
    (n1 : Node D) (hq : n.isQuad = true) (h : insert fuel n min max level e = some n1) :
    n1.isQuad = true := by
  cases n with
  | leaf c es => simp [Node.isQuad] at hq
  | quad c es c0 c1 c2 c3 =>
    cases fuel with
    | zero => simp [insert] at h
    | succ fuel =>
      simp only [insert] at h
      rcases choose_cases min max e with hch | hch | hch | hch | hch <;>
        simp only [hch] at h <;> norm_num at h
      · obtain ⟨c', _, rfl⟩ := h; rfl
      · obtain ⟨c', _, rfl⟩ := h; rfl
      · obtain ⟨c', _, rfl⟩ := h; rfl
      · obtain ⟨c', _, rfl⟩ := h; rfl
      · subst h; rfl

theorem splitLoop_total {f : Node D → Entry D → Option (Node D)} {P : Node D → Prop}
    (hstep : ∀ n x, P n → ∃ n1, f n x = some n1 ∧ P n1) :
    ∀ (xs : List (Entry D)) (n : Node D), P n → ∃ r, splitLoop f xs n = some r ∧ P r := by
  intro xs
  induction xs with
  | nil => intro n hn; exact ⟨n, rfl, hn⟩
  | cons x xs ih =>
    intro n hn
    obtain ⟨n1, h1, p1⟩ := hstep n x hn
    obtain ⟨r, h2, p2⟩ := ih n1 p1
    exact ⟨r, by simp [splitLoop, h1, h2], p2⟩

/-- Insertion into a node that satisfies the invariant returns, as soon as
the fuel covers the levels left below the node. -/
theorem insert_total (fuel : Nat) : ∀ (n : Node D) (min max : Pt) (level : Nat) (e : Entry D),
    Good n min max level →
    (2 * (maxLevel - level) + 1 ≤ fuel ∨ (n.isQuad = true ∧ 2 * (maxLevel - level) ≤ fuel)) →
    ∃ n1, insert fuel n min max level e = some n1 := by
  induction fuel with
  | zero =>
    intro n min max level e hg hf
    exfalso
    rcases hf with hf | ⟨hq, hf⟩
    · omega
    · cases n with
      | leaf c es => simp [Node.isQuad] at hq
      | quad c es c0 c1 c2 c3 =>
        have := hg.2.1
        omega
  | succ fuel ih =>
    intro n min max level e hg hf
    cases n with
    | leaf c es =>
      have hf1 : 2 * (maxLevel - level) ≤ fuel := by
        rcases hf with hf | ⟨hq, _⟩
        · omega
        · simp [Node.isQuad] at hq
      simp only [insert]
      split
      · rename_i hsplit
        have hlt : level < maxLevel := lt_of_le_of_ne hg.2 hsplit.1
        obtain ⟨n2, hs, g2, q2⟩ := splitLoop_total
          (f := fun n x => insert fuel n min max level x)
          (P := fun n => Good n min max level ∧ n.isQuad = true)
          (fun n x hn => by
            obtain ⟨n1, h1⟩ := ih n min max level x hn.1 (Or.inr ⟨hn.2, hf1⟩)
            exact ⟨n1, h1, (insert_good fuel n min max level x n1 hn.1 h1).1,
              insert_isQuad fuel n min max level x n1 hn.2 h1⟩)
          es (.quad 0 [] Node.zero Node.zero Node.zero Node.zero)
          ⟨good_fresh_quad min max hlt, rfl⟩
        simp only [split, hs]
        exact ih n2 min max level e g2 (Or.inr ⟨q2, hf1⟩)
      · exact ⟨_, rfl⟩
    | quad c es c0 c1 c2 c3 =>
      obtain ⟨_, hlev, _, _, _, _, _, g0, g1, g2, g3⟩ := hg
      have hf1 : 2 * (maxLevel - (level + 1)) + 1 ≤ fuel := by
        rcases hf with hf | ⟨_, hf⟩ <;> omega
      simp only [insert]
      rcases choose_cases min max e with hch | hch | hch | hch | hch <;>
        simp only [hch] <;> norm_num
      · obtain ⟨c', hc'⟩ := ih c0 _ _ _ e g0 (Or.inl hf1)
        exact ⟨_, c', hc', rfl⟩
      · obtain ⟨c', hc'⟩ := ih c1 _ _ _ e g1 (Or.inl hf1)
        exact ⟨_, c', hc', rfl⟩
      · obtain ⟨c', hc'⟩ := ih c2 _ _ _ e g2 (Or.inl hf1)
        exact ⟨_, c', hc', rfl⟩
      · obtain ⟨c', hc'⟩ := ih c3 _ _ _ e g3 (Or.inl hf1)
        exact ⟨_, c', hc', rfl⟩

/-! ## Deletion -/

theorem swapRemove_perm (es : List (Entry D)) (i : Nat) (h : i < es.length) :
    List.Perm (es[i] :: swapRemove es i) es := by
  induction es generalizing i with
  | nil => simp at h
  | cons x xs ih =>
    cases xs with
    | nil =>
      have : i = 0 := by simpa using h
      subst this
      simp [swapRemove]
    | cons y ys =>
      obtain ⟨l, hl⟩ : ∃ l, (y :: ys).getLast? = some l := by
        cases hh : (y :: ys).getLast? with
        | none => simp at hh
        | some l => exact ⟨l, rfl⟩
      have hl' : (x :: y :: ys).getLast? = some l := by
        rw [List.getLast?_cons_cons]; exact hl
      cases i with
      | zero =>
        simp only [swapRemove, hl', List.set_cons_zero, List.getElem_cons_zero]
        rw [List.dropLast_cons₂]
        refine List.Perm.cons x ?_
        have h1 := List.dropLast_append_getLast? l (by simpa using hl)
        have h2 := List.perm_append_singleton l (y :: ys).dropLast
        rw [h1] at h2
        exact h2.symm
      | succ j =>
        have hj : j < (y :: ys).length := by simpa using h
        have ih' := ih j hj
        simp only [swapRemove, hl] at ih'
        simp only [swapRemove, hl', List.set_cons_succ, List.getElem_cons_succ]
        obtain ⟨z, zs, hz⟩ : ∃ z zs, (y :: ys).set j l = z :: zs := by
          cases hh : (y :: ys).set j l with
          | nil => simp at hh
          | cons z zs => exact ⟨z, zs, rfl⟩
        rw [hz] at ih' ⊢
        rw [List.dropLast_cons₂]
        exact (List.Perm.swap _ _ _).trans (List.Perm.cons x ih')

/-- What the loop at the head of `node.delete` removes: an entry of the list
with the payload looked for, the rest being kept. -/
theorem findIdx_swapRemove [DecidableEq D] (es : List (Entry D)) (d : D) (i : Nat)
    (h : es.findIdx? (fun x => decide (x.data = d)) = some i) :
    ∃ x, x ∈ es ∧ x.data = d ∧ List.Perm (x :: swapRemove es i) es := by
  obtain ⟨hi, hp, _⟩ := List.findIdx?_eq_some_iff_getElem.1 h
  exact ⟨es[i], List.getElem_mem hi, by simpa using hp, swapRemove_perm es i hi⟩

theorem entries_sublist_all (n : Node D) : n.entries.Sublist n.all := by
  cases n with
  | leaf c es => exact List.Sublist.refl _
  | quad c es c0 c1 c2 c3 =>
    simp only [Node.entries, Node.all, List.append_assoc]
    exact List.sublist_append_left _ _

theorem join_count (n : Node D) : (join n).count = n.count := by
  cases n <;> rfl

theorem join_all_sublist (n : Node D) : (join n).all.Sublist n.all := by
  cases n with
  | leaf c es => exact List.Sublist.refl _
  | quad c es c0 c1 c2 c3 =>
    simp only [join, Node.all]
    exact ((((List.Sublist.refl es).append (entries_sublist_all c0)).append
      (entries_sublist_all c1)).append (entries_sublist_all c2)).append (entries_sublist_all c3)

theorem join_good {n : Node D} {min max : Pt} {level : Nat} (h : Good n min max level) :
    Good (join n) min max level := by
  cases n with
  | leaf c es => exact h
  | quad c es c0 c1 c2 c3 =>
    refine ⟨?_, Nat.le_of_lt h.2.1⟩
    have h1 := (join_all_sublist (.quad c es c0 c1 c2 c3)).length_le
    have h2 := h.1
    simp only [join, Node.all] at h1 h2
    omega

theorem afterChildDelete_count (n : Node D) : (afterChildDelete n).count = n.count - 1 := by
  cases n with
  | leaf c es => rfl
  | quad c es c0 c1 c2 c3 =>
    simp only [afterChildDelete]
    split
    · rfl
    · rfl

theorem afterChildDelete_all_sublist (n : Node D) : (afterChildDelete n).all.Sublist n.all := by
  cases n with
  | leaf c es => exact List.Sublist.refl _
  | quad c es c0 c1 c2 c3 =>
    simp only [afterChildDelete]
    split
    · exact join_all_sublist (.quad (c - 1) es c0 c1 c2 c3)
    · exact List.Sublist.refl _

theorem afterChildDelete_good {c : Int} {es : List (Entry D)} {c0 c1 c2 c3 : Node D}
    {min max : Pt} {level : Nat} (h : Good (.quad (c - 1) es c0 c1 c2 c3) min max level) :
    Good (afterChildDelete (.quad c es c0 c1 c2 c3)) min max level := by
  simp only [afterChildDelete]
  split
  · exact join_good h
  · exact h

theorem ms_c0 {α : Type} {x : α} {a a1 b c d es r : List α}
    (h : x ::ₘ (a1 : Multiset α) ≤ (a : Multiset α))
    (hr : r.Sublist (es ++ a1 ++ b ++ c ++ d)) :
    x ::ₘ (r : Multiset α) ≤ ((es ++ a ++ b ++ c ++ d : List α) : Multiset α) := by
  have h1 : (r : Multiset α) ≤ ((es ++ a1 ++ b ++ c ++ d : List α) : Multiset α) :=
    Multiset.coe_le.2 hr.subperm
  refine le_trans (Multiset.cons_le_cons x h1) ?_
  obtain ⟨t, ht⟩ := Multiset.le_iff_exists_add.1 h
  refine Multiset.le_iff_exists_add.2 ⟨t, ?_⟩
  simp only [← Multiset.coe_add, ht, ← Multiset.singleton_add]
  abel

theorem ms_c1 {α : Type} {x : α} {a b b1 c d es r : List α}
    (h : x ::ₘ (b1 : Multiset α) ≤ (b : Multiset α))
    (hr : r.Sublist (es ++ a ++ b1 ++ c ++ d)) :
    x ::ₘ (r : Multiset α) ≤ ((es ++ a ++ b ++ c ++ d : List α) : Multiset α) := by
  have h1 : (r : Multiset α) ≤ ((es ++ a ++ b1 ++ c ++ d : List α) : Multiset α) :=
    Multiset.coe_le.2 hr.subperm
  refine le_trans (Multiset.cons_le_cons x h1) ?_
  obtain ⟨t, ht⟩ := Multiset.le_iff_exists_add.1 h
  refine Multiset.le_iff_exists_add.2 ⟨t, ?_⟩
  simp only [← Multiset.coe_add, ht, ← Multiset.singleton_add]
  abel

theorem ms_c2 {α : Type} {x : α} {a b c c1 d es r : List α}
    (h : x ::ₘ (c1 : Multiset α) ≤ (c : Multiset α))
    (hr : r.Sublist (es ++ a ++ b ++ c1 ++ d)) :
    x ::ₘ (r : Multiset α) ≤ ((es ++ a ++ b ++ c ++ d : List α) : Multiset α) := by
  have h1 : (r : Multiset α) ≤ ((es ++ a ++ b ++ c1 ++ d : List α) : Multiset α) :=
    Multiset.coe_le.2 hr.subperm
  refine le_trans (Multiset.cons_le_cons x h1) ?_
  obtain ⟨t, ht⟩ := Multiset.le_iff_exists_add.1 h
  refine Multiset.le_iff_exists_add.2 ⟨t, ?_⟩
  simp only [← Multiset.coe_add, ht, ← Multiset.singleton_add]
  abel

theorem ms_c3 {α : Type} {x : α} {a b c d d1 es r : List α}
    (h : x ::ₘ (d1 : Multiset α) ≤ (d : Multiset α))
    (hr : r.Sublist (es ++ a ++ b ++ c ++ d1)) :
    x ::ₘ (r : Multiset α) ≤ ((es ++ a ++ b ++ c ++ d : List α) : Multiset α) := by
  have h1 : (r : Multiset α) ≤ ((es ++ a ++ b ++ c ++ d1 : List α) : Multiset α) :=
    Multiset.coe_le.2 hr.subperm
  refine le_trans (Multiset.cons_le_cons x h1) ?_
  obtain ⟨t, ht⟩ := Multiset.le_iff_exists_add.1 h
  refine Multiset.le_iff_exists_add.2 ⟨t, ?_⟩
  simp only [← Multiset.coe_add, ht, ← Multiset.singleton_add]
  abel

/-- The two outcomes of `node.delete`: nothing found and the node as it was,
or an entry with the payload removed, the count one less and nothing added. -/
theorem delete_spec [DecidableEq D] (n : Node D) (min max : Pt) (e : Entry D) :
    ((delete n min max e).2 = false ∧ (delete n min max e).1 = n) ∨
    ((delete n min max e).2 = true ∧ (delete n min max e).1.count = n.count - 1 ∧
      ∃ x, x ∈ n.all ∧ x.data = e.data ∧
        x ::ₘ ((delete n min max e).1.all : Multiset (Entry D)) ≤ (n.all : Multiset (Entry D))) := by
  induction n generalizing min max with
  | leaf c es =>
    simp only [delete]
    cases hf : es.findIdx? (fun x => decide (x.data = e.data)) with
    | none => exact Or.inl ⟨rfl, rfl⟩
    | some i =>
      obtain ⟨x, hx, hd, hp⟩ := findIdx_swapRemove es e.data i hf
      refine Or.inr ⟨rfl, rfl, x, hx, hd, ?_⟩
      simp only [Node.all, Multiset.cons_coe]
      exact le_of_eq (Multiset.coe_eq_coe.2 hp)
  | quad c es c0 c1 c2 c3 ih0 ih1 ih2 ih3 =>
    simp only [delete]
    cases hf : es.findIdx? (fun x => decide (x.data = e.data)) with
    | some i =>
      obtain ⟨x, hx, hd, hp⟩ := findIdx_swapRemove es e.data i hf
      refine Or.inr ⟨rfl, rfl, x, ?_, hd, ?_⟩
      · simp [Node.all, hx]
      · simp only [Node.all, Multiset.cons_coe]
        refine le_of_eq (Multiset.coe_eq_coe.2 ?_)
        simpa using hp.append_right (c0.all ++ c1.all ++ c2.all ++ c3.all)
    | none =>
      simp only []
      rcases choose_cases min max e with hch | hch | hch | hch | hch <;>
        simp only [hch] <;> norm_num
      · rcases hdel : delete c0 (q0 min max).1 (q0 min max).2 e with ⟨c', b⟩
        have hk := ih0 (q0 min max).1 (q0 min max).2
        rw [hdel] at hk
        rcases hk with ⟨hb, hn⟩ | ⟨hb, hc, x, hx, hd, hle⟩
        · simp only at hb hn
          subst hb hn
          exact Or.inl ⟨rfl, rfl⟩
        · simp only at hb hc hle
          subst hb
          refine Or.inr ⟨rfl, ?_, x, ?_, hd, ?_⟩
          · exact afterChildDelete_count (.quad c es c' c1 c2 c3)
          · simp [Node.all, hx]
          · exact ms_c0 hle (afterChildDelete_all_sublist (.quad c es c' c1 c2 c3))
      · rcases hdel : delete c1 (q1 min max).1 (q1 min max).2 e with ⟨c', b⟩
        have hk := ih1 (q1 min max).1 (q1 min max).2
        rw [hdel] at hk
        rcases hk with ⟨hb, hn⟩ | ⟨hb, hc, x, hx, hd, hle⟩
        · simp only at hb hn
          subst hb hn
          exact Or.inl ⟨rfl, rfl⟩
        · simp only at hb hc hle
          subst hb
          refine Or.inr ⟨rfl, ?_, x, ?_, hd, ?_⟩
          · exact afterChildDelete_count (.quad c es c0 c' c2 c3)
          · simp [Node.all, hx]
          · exact ms_c1 hle (afterChildDelete_all_sublist (.quad c es c0 c' c2 c3))
      · rcases hdel : delete c2 (q2 min max).1 (q2 min max).2 e with ⟨c', b⟩
        have hk := ih2 (q2 min max).1 (q2 min max).2
        rw [hdel] at hk
        rcases hk with ⟨hb, hn⟩ | ⟨hb, hc, x, hx, hd, hle⟩
        · simp only at hb hn
          subst hb hn
          exact Or.inl ⟨rfl, rfl⟩
        · simp only at hb hc hle
          subst hb
          refine Or.inr ⟨rfl, ?_, x, ?_, hd, ?_⟩
          · exact afterChildDelete_count (.quad c es c0 c1 c' c3)
          · simp [Node.all, hx]
          · exact ms_c2 hle (afterChildDelete_all_sublist (.quad c es c0 c1 c' c3))
      · rcases hdel : delete c3 (q3 min max).1 (q3 min max).2 e with ⟨c', b⟩
        have hk := ih3 (q3 min max).1 (q3 min max).2
        rw [hdel] at hk
        rcases hk with ⟨hb, hn⟩ | ⟨hb, hc, x, hx, hd, hle⟩
        · simp only at hb hn
          subst hb hn
          exact Or.inl ⟨rfl, rfl⟩
        · simp only at hb hc hle
          subst hb
          refine Or.inr ⟨rfl, ?_, x, ?_, hd, ?_⟩
          · exact afterChildDelete_count (.quad c es c0 c1 c2 c')
          · simp [Node.all, hx]
          · exact ms_c3 hle (afterChildDelete_all_sublist (.quad c es c0 c1 c2 c'))

theorem delete_good [DecidableEq D] (n : Node D) (min max : Pt) (level : Nat) (e : Entry D)
    (hg : Good n min max level) : Good (delete n min max e).1 min max level := by
  induction n generalizing min max level with
  | leaf c es =>
    simp only [delete]
    cases hf : es.findIdx? (fun x => decide (x.data = e.data)) with
    | none => exact hg
    | some i =>
      obtain ⟨x, hx, hd, hp⟩ := findIdx_swapRemove es e.data i hf
      have hl := hp.length_eq
      have h1 := hg.1
      simp only [List.length_cons] at hl
      exact ⟨by omega, hg.2⟩
  | quad c es c0 c1 c2 c3 ih0 ih1 ih2 ih3 =>
    obtain ⟨hlen, hlev, hes, h0, h1, h2, h3, g0, g1, g2, g3⟩ := hg
    simp only [delete]
    cases hf : es.findIdx? (fun x => decide (x.data = e.data)) with
    | some i =>
      obtain ⟨x, hx, hd, hp⟩ := findIdx_swapRemove es e.data i hf
      have hl := hp.length_eq
      simp only [List.length_cons] at hl
      refine ⟨?_, hlev, ?_, h0, h1, h2, h3, g0, g1, g2, g3⟩
      · simp only [List.length_append] at hlen ⊢
        omega
      · intro y hy
        exact hes y (hp.subset (List.mem_cons_of_mem _ hy))
    | none =>
      simp only []
      rcases choose_cases min max e with hch | hch | hch | hch | hch <;>
        simp only [hch] <;> norm_num
      · rcases hdel : delete c0 (q0 min max).1 (q0 min max).2 e with ⟨c', b⟩
        have hk := delete_spec c0 (q0 min max).1 (q0 min max).2 e
        have hg := ih0 (q0 min max).1 (q0 min max).2 (level + 1) g0
        rw [hdel] at hk hg
        rcases hk with ⟨hb, hn⟩ | ⟨hb, hc, x, hx, hd, hle⟩
        · simp only at hb hn
          subst hb hn
          exact ⟨hlen, hlev, hes, h0, h1, h2, h3, g0, g1, g2, g3⟩
        · simp only at hb hc hle hg
          subst hb
          refine afterChildDelete_good ⟨?_, hlev, hes, ?_, h1, h2, h3, hg, g1, g2, g3⟩
          · have := Multiset.card_le_card hle
            simp only [Multiset.card_cons, Multiset.coe_card] at this
            simp only [List.length_append] at hlen ⊢
            omega
          · intro y hy
            exact h0 y (Multiset.mem_coe.1 (Multiset.mem_of_le hle (Multiset.mem_cons_of_mem (Multiset.mem_coe.2 hy))))
      · rcases hdel : delete c1 (q1 min max).1 (q1 min max).2 e with ⟨c', b⟩
        have hk := delete_spec c1 (q1 min max).1 (q1 min max).2 e
        have hg := ih1 (q1 min max).1 (q1 min max).2 (level + 1) g1
        rw [hdel] at hk hg
        rcases hk with ⟨hb, hn⟩ | ⟨hb, hc, x, hx, hd, hle⟩
        · simp only at hb hn
          subst hb hn
          exact ⟨hlen, hlev, hes, h0, h1, h2, h3, g0, g1, g2, g3⟩
        · simp only at hb hc hle hg
          subst hb
          refine afterChildDelete_good ⟨?_, hlev, hes, h0, ?_, h2, h3, g0, hg, g2, g3⟩
          · have := Multiset.card_le_card hle
            simp only [Multiset.card_cons, Multiset.coe_card] at this
            simp only [List.length_append] at hlen ⊢
            omega
          · intro y hy
            exact h1 y (Multiset.mem_coe.1 (Multiset.mem_of_le hle (Multiset.mem_cons_of_mem (Multiset.mem_coe.2 hy))))
      · rcases hdel : delete c2 (q2 min max).1 (q2 min max).2 e with ⟨c', b⟩
        have hk := delete_spec c2 (q2 min max).1 (q2 min max).2 e
        have hg := ih2 (q2 min max).1 (q2 min max).2 (level + 1) g2
        rw [hdel] at hk hg
        rcases hk with ⟨hb, hn⟩ | ⟨hb, hc, x, hx, hd, hle⟩
        · simp only at hb hn
          subst hb hn
          exact ⟨hlen, hlev, hes, h0, h1, h2, h3, g0, g1, g2, g3⟩
        · simp only at hb hc hle hg
          subst hb
          refine afterChildDelete_good ⟨?_, hlev, hes, h0, h1, ?_, h3, g0, g1, hg, g3⟩
          · have := Multiset.card_le_card hle
            simp only [Multiset.card_cons, Multiset.coe_card] at this
            simp only [List.length_append] at hlen ⊢
            omega
          · intro y hy
            exact h2 y (Multiset.mem_coe.1 (Multiset.mem_of_le hle (Multiset.mem_cons_of_mem (Multiset.mem_coe.2 hy))))
      · rcases hdel : delete c3 (q3 min max).1 (q3 min max).2 e with ⟨c', b⟩
        have hk := delete_spec c3 (q3 min max).1 (q3 min max).2 e
        have hg := ih3 (q3 min max).1 (q3 min max).2 (level + 1) g3
        rw [hdel] at hk hg
        rcases hk with ⟨hb, hn⟩ | ⟨hb, hc, x, hx, hd, hle⟩
        · simp only at hb hn
          subst hb hn
          exact ⟨hlen, hlev, hes, h0, h1, h2, h3, g0, g1, g2, g3⟩
        · simp only at hb hc hle hg
          subst hb
          refine afterChildDelete_good ⟨?_, hlev, hes, h0, h1, h2, ?_, g0, g1, g2, hg⟩
          · have := Multiset.card_le_card hle
            simp only [Multiset.card_cons, Multiset.coe_card] at this
            simp only [List.length_append] at hlen ⊢
            omega
          · intro y hy
            exact h3 y (Multiset.mem_coe.1 (Multiset.mem_of_le hle (Multiset.mem_cons_of_mem (Multiset.mem_coe.2 hy))))
      · exact ⟨hlen, hlev, hes, h0, h1, h2, h3, g0, g1, g2, g3⟩

/-- Deleting a payload that no stored entry has changes nothing. -/
theorem delete_absent [DecidableEq D] (n : Node D) (min max : Pt) (e : Entry D)
    (h : ∀ x ∈ n.all, x.data ≠ e.data) : delete n min max e = (n, false) := by
  rcases delete_spec n min max e with ⟨hb, hn⟩ | ⟨_, _, x, hx, hd, _⟩
  · exact Prod.ext hn hb
  · exact absurd hd (h x hx)

/-- In a node that satisfies the invariant, `delete` called with the box and
payload of a stored entry finds an entry to remove. -/
theorem delete_finds [DecidableEq D] (n : Node D) (min max : Pt) (level : Nat) (e : Entry D)
    (hg : Good n min max level) (he : e ∈ n.all) : (delete n min max e).2 = true := by
  induction n generalizing min max level with
  | leaf c es =>
    simp only [delete]
    cases hf : es.findIdx? (fun x => decide (x.data = e.data)) with
    | none =>
      have := List.findIdx?_eq_none_iff.1 hf e he
      simp at this
    | some i => rfl
  | quad c es c0 c1 c2 c3 ih0 ih1 ih2 ih3 =>
    obtain ⟨hlen, hlev, hes, h0, h1, h2, h3, g0, g1, g2, g3⟩ := hg
    simp only [delete]
    cases hf : es.findIdx? (fun x => decide (x.data = e.data)) with
    | some i => rfl
    | none =>
      have hnot : e ∉ es := by
        intro hmem
        have := List.findIdx?_eq_none_iff.1 hf e hmem
        simp at this
      have hmem : e ∈ c0.all ∨ e ∈ c1.all ∨ e ∈ c2.all ∨ e ∈ c3.all := by
        simp only [Node.all, List.mem_append] at he
        tauto
      simp only []
      rcases choose_cases min max e with hch | hch | hch | hch | hch <;>
        simp only [hch] <;> norm_num
      · have hq : quadOf min max e = 0 := by simp [quadOf, hch]
        have hin : e ∈ c0.all := by
          rcases hmem with hm | hm | hm | hm
          · exact hm
          · have := h1 e hm; omega
          · have := h2 e hm; omega
          · have := h3 e hm; omega
        have hk := ih0 (q0 min max).1 (q0 min max).2 (level + 1) g0 hin
        rcases hdel : delete c0 (q0 min max).1 (q0 min max).2 e with ⟨c', b⟩
        rw [hdel] at hk
        simp only at hk
        subst hk
        rfl
      · have hq : quadOf min max e = 1 := by simp [quadOf, hch]
        have hin : e ∈ c1.all := by
          rcases hmem with hm | hm | hm | hm
          · have := h0 e hm; omega
          · exact hm
          · have := h2 e hm; omega
          · have := h3 e hm; omega
        have hk := ih1 (q1 min max).1 (q1 min max).2 (level + 1) g1 hin
        rcases hdel : delete c1 (q1 min max).1 (q1 min max).2 e with ⟨c', b⟩
        rw [hdel] at hk
        simp only at hk
        subst hk
        rfl
      · have hq : quadOf min max e = 2 := by simp [quadOf, hch]
        have hin : e ∈ c2.all := by
          rcases hmem with hm | hm | hm | hm
          · have := h0 e hm; omega
          · have := h1 e hm; omega
          · exact hm
          · have := h3 e hm; omega
        have hk := ih2 (q2 min max).1 (q2 min max).2 (level + 1) g2 hin
        rcases hdel : delete c2 (q2 min max).1 (q2 min max).2 e with ⟨c', b⟩
        rw [hdel] at hk
        simp only at hk
        subst hk
        rfl
      · have hq : quadOf min max e = 3 := by simp [quadOf, hch]
        have hin : e ∈ c3.all := by
          rcases hmem with hm | hm | hm | hm
          · have := h0 e hm; omega
          · have := h1 e hm; omega
          · have := h2 e hm; omega
          · exact hm
        have hk := ih3 (q3 min max).1 (q3 min max).2 (level + 1) g3 hin
        rcases hdel : delete c3 (q3 min max).1 (q3 min max).2 e with ⟨c', b⟩
        rw [hdel] at hk
        simp only at hk
        subst hk
        rfl
      · have hq : quadOf min max e = -1 := by simp [quadOf, hch]
        rcases hmem with hm | hm | hm | hm
        · have := h0 e hm; omega
        · have := h1 e hm; omega
        · have := h2 e hm; omega
        · have := h3 e hm; omega

/-! ## The invariant holds in every reachable tree -/

theorem goodTree_new (min max : Pt) : GoodTree (New min max : QTree D) :=
  ⟨fun h => by simp [New] at h, Good.zero min max (by decide)⟩

theorem goodTree_zero : GoodTree (QTree.zero : QTree D) :=
  ⟨fun _ => rfl, Good.zero _ _ (by decide)⟩

/-- What `Insert` does to a tree that satisfies the invariant. -/
theorem Insert_spec {tr tr1 : QTree D} (fuel : Nat) (min max : Pt) (d : D)
    (hg : GoodTree tr) (h : tr.Insert fuel min max d = some tr1) :
    GoodTree tr1 ∧ tr1.init = true ∧
      List.Perm tr1.root.all (tr.root.all ++ [⟨min, max, d⟩]) := by
  unfold QTree.Insert at h
  cases hi : tr.init with
  | true =>
    simp only [hi, if_true, Option.map_eq_some'] at h
    obtain ⟨r, hr, rfl⟩ := h
    obtain ⟨g, p⟩ := insert_good fuel _ _ _ _ _ r hg.2 hr
    exact ⟨⟨fun h => by simp at h, g⟩, rfl, p⟩
  | false =>
    simp only [hi, Bool.false_eq_true, if_false, Option.map_eq_some'] at h
    obtain ⟨r, hr, rfl⟩ := h
    obtain ⟨g, p⟩ := insert_good fuel _ _ _ _ _ r (goodTree_new _ _).2 hr
    refine ⟨⟨fun h => by simp [New] at h, g⟩, rfl, ?_⟩
    rw [hg.1 hi]
    exact p

/-- With fuel for the sixteen levels, `Insert` returns. -/
theorem Insert_total (tr : QTree D) (fuel : Nat) (min max : Pt) (d : D)
    (hg : GoodTree tr) (hf : 2 * maxLevel - 1 ≤ fuel) :
    ∃ tr1, tr.Insert fuel min max d = some tr1 := by
  have hf1 : 2 * (maxLevel - 1) + 1 ≤ fuel := by
    simp only [maxLevel] at hf ⊢; omega
  unfold QTree.Insert
  cases hi : tr.init with
  | true =>
    obtain ⟨r, hr⟩ := insert_total fuel tr.root tr.min tr.max 1 ⟨min, max, d⟩ hg.2 (Or.inl hf1)
    simp only [if_true, hr, Option.map_some']
    exact ⟨_, rfl⟩
  | false =>
    obtain ⟨r, hr⟩ := insert_total fuel (New (-180, -90) (180, 90) : QTree D).root
      (New (-180, -90) (180, 90) : QTree D).min (New (-180, -90) (180, 90) : QTree D).max 1
      ⟨min, max, d⟩ (goodTree_new _ _).2 (Or.inl hf1)
    simp only [Bool.false_eq_true, if_false]
    rw [hr]
    exact ⟨_, rfl⟩

theorem Delete_good [DecidableEq D] (tr : QTree D) (min max : Pt) (d : D) (hg : GoodTree tr) :
    GoodTree (tr.Delete min max d) := by
  unfold QTree.Delete
  cases hi : tr.init with
  | true => exact ⟨fun h => by simp [hi] at h, delete_good _ _ _ _ _ hg.2⟩
  | false => simpa using hg

theorem reachable_good [DecidableEq D] {tr : QTree D} (h : Reachable tr) : GoodTree tr := by
  induction h with
  | new min max => exact goodTree_new min max
  | zero => exact goodTree_zero
  | insert fuel min max data _ hins ih => exact (Insert_spec fuel min max data ih hins).1
  | delete min max data _ ih => exact Delete_good _ min max data ih
  | replace fuel a b c x y z _ hrep ih =>
    exact (Insert_spec fuel x y z (Delete_good _ a b c ih) hrep).1

theorem reachable_run [DecidableEq D] (fuel : Nat) (ops : List (Op D)) :
    ∀ (tr tr1 : QTree D), Reachable tr → QTree.run fuel tr ops = some tr1 → Reachable tr1 := by
  induction ops with
  | nil =>
    intro tr tr1 h hr
    simp only [QTree.run, Option.some.injEq] at hr
    exact hr ▸ h
  | cons op ops ih =>
    intro tr tr1 h hr
    simp only [QTree.run] at hr
    cases ha : tr.apply fuel op with
    | none => simp [ha] at hr
    | some tr2 =>
      simp only [ha] at hr
      refine ih tr2 tr1 ?_ hr
      cases op with
      | insert mn mx d => exact Reachable.insert fuel mn mx d h ha
      | delete mn mx d =>
        simp only [QTree.apply, Option.some.injEq] at ha
        exact ha ▸ Reachable.delete mn mx d h
      | replace a b c x y z => exact Reachable.replace fuel a b c x y z h ha

/-! ## The concrete call sequences -/

theorem demo_run : QTree.run 40 demoNew demoOps = some demoTree := by decide!

theorem hollow_run : QTree.run 40 demoNew hollowOps = some hollowTree := by decide!

theorem sparse_run : QTree.run 40 demoNew sparseOps = some sparseTree := by decide!

theorem demo_reachable : Reachable demoTree :=
  reachable_run 40 demoOps demoNew demoTree (Reachable.new _ _) demo_run

theorem hollow_reachable : Reachable hollowTree :=
  reachable_run 40 hollowOps demoNew hollowTree (Reachable.new _ _) hollow_run

theorem sparse_reachable : Reachable sparseTree :=
  reachable_run 40 sparseOps demoNew sparseTree (Reachable.new _ _) sparse_run

/-! ## Search against scan -/

theorem reachable_search_eq [DecidableEq D] {tr : QTree D} (h : Reachable tr) (qmin qmax : Pt) :
    tr.searchList qmin qmax = tr.scanList.filter (Entry.hit qmin qmax) := by
  have hg := reachable_good h
  rw [searchList_eq, scanList_eq]
  cases hi : tr.init with
  | true => simpa using hits_eq_filter tr.root tr.min tr.max qmin qmax 1 hg.2
  | false => simp [hg.1 hi, Node.zero, Node.all]

/-- C1: in every tree reachable from `New` or the zero value by `Insert`,
`Delete` and `Replace`, and for every query rectangle, `Search` visits exactly
the entries of a `Scan` whose box intersects the query, each once and in the
order of the `Scan`. -/
theorem search_visits_intersecting_of_scan [DecidableEq D] (tr : QTree D) (qmin qmax : Pt)
    (h : Reachable tr) :
    tr.searchList qmin qmax =
      tr.scanList.filter (fun e => intersects qmin qmax e.min e.max) :=
  reachable_search_eq h qmin qmax

theorem search_visits_intersecting_of_scan_witness :
    Reachable demoTree ∧
      demoTree.searchList (0, 0) (2, 2) =
        demoTree.scanList.filter (fun e => intersects (0, 0) (2, 2) e.min e.max) :=
  ⟨demo_reachable, search_visits_intersecting_of_scan demoTree (0, 0) (2, 2) demo_reachable⟩

/-! ## Deletion at the tree -/

/-- C6: for every tree, initialised or not, and every box, `Delete` with a
payload that no stored entry has leaves the whole tree as it was (entry lists
in their order, counts, children and domain), so `Len`, `Scan`, `Search` and
`Bounds` answer as before. -/
theorem delete_absent_payload_noop [DecidableEq D] (tr : QTree D) (min max : Pt) (d : D)
    (h : ∀ x ∈ tr.scanList, x.data ≠ d) :
    tr.Delete min max d = tr ∧
      (tr.Delete min max d).Len = tr.Len ∧
      (tr.Delete min max d).scanList = tr.scanList ∧
      (∀ qmin qmax, (tr.Delete min max d).searchList qmin qmax = tr.searchList qmin qmax) ∧
      (tr.Delete min max d).Bounds = tr.Bounds := by
  have key : tr.Delete min max d = tr := by
    unfold QTree.Delete
    split
    · rw [scanList_eq] at h
      rw [delete_absent tr.root tr.min tr.max ⟨min, max, d⟩ h]
    · rfl
  rw [key]
  exact ⟨rfl, rfl, rfl, fun _ _ => rfl, rfl⟩

theorem delete_absent_payload_noop_witness :
    (∀ x ∈ demoTree.scanList, x.data ≠ 999) ∧
      (demoTree.Delete (1, 1) (1, 1) 999 = demoTree ∧
        (demoTree.Delete (1, 1) (1, 1) 999).Len = demoTree.Len ∧
        (demoTree.Delete (1, 1) (1, 1) 999).scanList = demoTree.scanList ∧
        (∀ qmin qmax, (demoTree.Delete (1, 1) (1, 1) 999).searchList qmin qmax =
          demoTree.searchList qmin qmax) ∧
        (demoTree.Delete (1, 1) (1, 1) 999).Bounds = demoTree.Bounds) :=
  ⟨by decide!, delete_absent_payload_noop demoTree (1, 1) (1, 1) 999 (by decide!)⟩

theorem hits_subset_all (n : Node D) (min max tmin tmax : Pt) :
    ∀ x ∈ n.hits min max tmin tmax, x ∈ n.all := by
  induction n generalizing min max with
  | leaf c es =>
    intro x hx
    exact (List.mem_filter.1 hx).1
  | quad c es c0 c1 c2 c3 ih0 ih1 ih2 ih3 =>
    intro x hx
    simp only [Node.hits, List.mem_append] at hx
    simp only [Node.all, List.mem_append]
    rcases hx with (((hx | hx) | hx) | hx) | hx
    · exact Or.inl (Or.inl (Or.inl (Or.inl (List.mem_filter.1 hx).1)))
    · split at hx
      · exact Or.inl (Or.inl (Or.inl (Or.inr (ih0 _ _ x hx))))
      · simp at hx
    · split at hx
      · exact Or.inl (Or.inl (Or.inr (ih1 _ _ x hx)))
      · simp at hx
    · split at hx
      · exact Or.inl (Or.inr (ih2 _ _ x hx))
      · simp at hx
    · split at hx
      · exact Or.inr (ih3 _ _ x hx)
      · simp at hx

theorem searchList_subset_scanList (tr : QTree D) (qmin qmax : Pt) :
    ∀ x ∈ tr.searchList qmin qmax, x ∈ tr.scanList := by
  intro x hx
  rw [searchList_eq] at hx
  rw [scanList_eq]
  split at hx
  · exact hits_subset_all _ _ _ _ _ x hx
  · simp at hx

/-- C5: in every reachable tree, for every entry that `Scan` visits and whose
payload no other stored entry has, `Delete` with the entry's box and payload
finds it: `Len` decreases by exactly 1, and afterwards neither `Scan` nor any
`Search` visits an entry with that payload. -/
theorem delete_stored_unique_payload [DecidableEq D] (tr : QTree D) (e : Entry D)
    (h : Reachable tr) (he : e ∈ tr.scanList)
    (hu : tr.scanList.countP (fun x => decide (x.data = e.data)) = 1) :
    (tr.Delete e.min e.max e.data).Len = tr.Len - 1 ∧
      (∀ x ∈ (tr.Delete e.min e.max e.data).scanList, x.data ≠ e.data) ∧
      (∀ qmin qmax, ∀ x ∈ (tr.Delete e.min e.max e.data).searchList qmin qmax,
        x.data ≠ e.data) := by
  have hg := reachable_good h
  rw [scanList_eq] at he hu
  have hi : tr.init = true := by
    cases hi : tr.init with
    | true => rfl
    | false => rw [hg.1 hi] at he; simp [Node.zero, Node.all] at he
  have hfound := delete_finds tr.root tr.min tr.max 1 e hg.2 he
  have hscan : ∀ x ∈ (tr.Delete e.min e.max e.data).scanList, x.data ≠ e.data := by
    intro x hx
    rw [scanList_eq] at hx
    simp only [QTree.Delete, hi, if_true] at hx
    rcases delete_spec tr.root tr.min tr.max e with ⟨hb, _⟩ | ⟨_, _, y, _, hy, hle⟩
    · rw [hfound] at hb; cases hb
    · intro hxe
      have h1 := Multiset.countP_le_of_le (fun z : Entry D => z.data = e.data) hle
      simp only [Multiset.countP_cons, hy, if_true, Multiset.coe_countP] at h1
      have h2 : 0 < List.countP (fun z : Entry D => decide (z.data = e.data))
          (delete tr.root tr.min tr.max e).1.all :=
        List.countP_pos_iff.2 ⟨x, hx, by simpa using hxe⟩
      simp only [hu] at h1
      omega
  refine ⟨?_, hscan, fun qmin qmax x hx => hscan x (searchList_subset_scanList _ _ _ x hx)⟩
  simp only [QTree.Delete, hi, if_true, QTree.Len]
  rcases delete_spec tr.root tr.min tr.max e with ⟨hb, _⟩ | ⟨_, hc, _⟩
  · rw [hfound] at hb; cases hb
  · exact hc

theorem delete_stored_unique_payload_witness :
    Reachable demoTree ∧
      (⟨(1, 1), (1, 1), 100⟩ : Entry Nat) ∈ demoTree.scanList ∧
      demoTree.scanList.countP (fun x => decide (x.data = 100)) = 1 ∧
      ((demoTree.Delete (1, 1) (1, 1) 100).Len = demoTree.Len - 1 ∧
        (∀ x ∈ (demoTree.Delete (1, 1) (1, 1) 100).scanList, x.data ≠ 100) ∧
        (∀ qmin qmax, ∀ x ∈ (demoTree.Delete (1, 1) (1, 1) 100).searchList qmin qmax,
          x.data ≠ 100)) :=
  ⟨demo_reachable, by decide!, by decide!,
    delete_stored_unique_payload demoTree ⟨(1, 1), (1, 1), 100⟩ demo_reachable
      (by decide!) (by decide!)⟩

/-! ## Bounds of a tree without entries -/

theorem min_of_empty (n : Node D) (min max : Pt) (axis : Nat) (v : ℚ) (set : Bool)
    (h : n.all = []) : n.min min max axis v set = (v, set) := by
  induction n generalizing min max v set with
  | leaf c es =>
    simp only [Node.all] at h
    subst h
    rfl
  | quad c es c0 c1 c2 c3 ih0 _ ih2 _ =>
    simp only [Node.all, List.append_eq_nil] at h
    obtain ⟨⟨⟨⟨hes, h0⟩, _⟩, h2⟩, _⟩ := h
    subst hes
    simp only [Node.min, minLoop, ih0 _ _ _ _ h0, ih2 _ _ _ _ h2]
    cases set <;> simp

theorem max_of_empty (n : Node D) (min max : Pt) (axis : Nat) (v : ℚ) (set : Bool)
    (h : n.all = []) : n.max min max axis v set = (v, set) := by
  induction n generalizing min max v set with
  | leaf c es =>
    simp only [Node.all] at h
    subst h
    rfl
  | quad c es c0 c1 c2 c3 ih0 _ ih2 _ =>
    simp only [Node.all, List.append_eq_nil] at h
    obtain ⟨⟨⟨⟨hes, h0⟩, _⟩, h2⟩, _⟩ := h
    subst hes
    simp only [Node.max, maxLoop, ih0 _ _ _ _ h0, ih2 _ _ _ _ h2]
    cases set <;> simp

/-- C9: for the zero-value tree, for every other uninitialised tree and for
every tree that stores no entry (also one whose root still has four empty
children), `Bounds` returns the zero box `((0,0),(0,0))`. -/
theorem bounds_zero_of_no_entry (tr : QTree D) (h : tr.init = false ∨ tr.scanList = []) :
    (QTree.zero : QTree D).Bounds = ((0, 0), (0, 0)) ∧ tr.Bounds = ((0, 0), (0, 0)) := by
  refine ⟨rfl, ?_⟩
  unfold QTree.Bounds
  cases hi : tr.init with
  | false => rfl
  | true =>
    rcases h with h | h
    · rw [hi] at h; cases h
    · rw [scanList_eq] at h
      simp only [if_true, min_of_empty _ _ _ _ _ _ h, max_of_empty _ _ _ _ _ _ h]

theorem bounds_zero_of_no_entry_witness :
    Reachable hollowTree ∧ (hollowTree.init = false ∨ hollowTree.scanList = []) ∧
      ((QTree.zero : QTree Nat).Bounds = ((0, 0), (0, 0)) ∧
        hollowTree.Bounds = ((0, 0), (0, 0))) :=
  ⟨hollow_reachable, Or.inr (by decide!), bounds_zero_of_no_entry hollowTree (Or.inr (by decide!))⟩

/-! ## Early termination -/

section Stop
variable {σ : Type}

theorem scanEntries_traced (iter : Visitor σ D) (l : List (Entry D)) (s : σ)
    (log : List (Entry D × Bool)) :
    scanEntries (traced iter) l (s, log) =
      (((scanEntries iter l s).1, log ++ callsOn iter l s), (scanEntries iter l s).2) := by
  induction l generalizing s log with
  | nil => simp [scanEntries, callsOn]
  | cons e es ih =>
    simp only [scanEntries, callsOn, traced]
    rcases hr : iter s e.min e.max e.data with ⟨s1, b⟩
    cases b
    · simp
    · simp only [ih, if_true]
      simp

theorem callsOn_false_last (iter : Visitor σ D) (l : List (Entry D)) (s : σ) :
    ∀ (i : Nat) (e : Entry D), (callsOn iter l s)[i]? = some (e, false) →
      (callsOn iter l s).length = i + 1 := by
  induction l generalizing s with
  | nil => intro i e h; simp [callsOn] at h
  | cons x xs ih =>
    intro i e h
    simp only [callsOn] at h ⊢
    cases i with
    | zero =>
      simp only [List.getElem?_cons_zero, Option.some.injEq, Prod.mk.injEq] at h
      simp [h.2]
    | succ j =>
      simp only [List.getElem?_cons_succ] at h
      split at h
      · rename_i hb
        simp only [hb, if_true, List.length_cons]
        rw [ih _ j e h]
      · simp at h

theorem callsOn_all_false (iter : Visitor σ D) (hf : ∀ t mn mx d, (iter t mn mx d).2 = false)
    (l : List (Entry D)) (s : σ) :
    (callsOn iter l s).length ≤ 1 ∧ (l ≠ [] → (callsOn iter l s).length = 1) := by
  cases l with
  | nil => simp [callsOn]
  | cons x xs => simp [callsOn, hf]

theorem searchLog_eq (tr : QTree D) (qmin qmax : Pt) (iter : Visitor σ D) (s : σ) :
    tr.searchLog qmin qmax iter s = callsOn iter (tr.searchList qmin qmax) s := by
  simp only [QTree.searchLog, QTree.Search, searchList_eq, search_eq, scanEntries_traced]
  split <;> simp [callsOn]

theorem scanLog_eq (tr : QTree D) (iter : Visitor σ D) (s : σ) :
    tr.scanLog iter s = callsOn iter tr.scanList s := by
  simp [QTree.scanLog, QTree.Scan, scanList_eq, scan_eq, scanEntries_traced]

/-- C10: for every tree, query rectangle, visitor and start state, an
invocation of the visitor that returned `false` is the last one of the
`Search` and of the `Scan`, at any depth (the log only observes: the caller's
state is that of the plain call); a visitor that always returns `false` is
invoked at most once, exactly once in a `Scan` of a tree that stores an entry,
exactly once in a `Search` that has an entry to visit, and so exactly once in a
`Search` of a reachable tree in which a stored entry intersects the query. -/
theorem visitor_not_called_after_false [DecidableEq D] (tr : QTree D) (qmin qmax : Pt)
    (iter : Visitor σ D) (s : σ) :
    (tr.Search qmin qmax (traced iter) (s, [])).1 = tr.Search qmin qmax iter s ∧
    (tr.Scan (traced iter) (s, [])).1 = tr.Scan iter s ∧
    (∀ (i : Nat) (e : Entry D), (tr.searchLog qmin qmax iter s)[i]? = some (e, false) →
      (tr.searchLog qmin qmax iter s).length = i + 1) ∧
    (∀ (i : Nat) (e : Entry D), (tr.scanLog iter s)[i]? = some (e, false) →
      (tr.scanLog iter s).length = i + 1) ∧
    ((∀ t mn mx d, (iter t mn mx d).2 = false) →
      (tr.searchLog qmin qmax iter s).length ≤ 1 ∧
      (tr.scanLog iter s).length ≤ 1 ∧
      (tr.scanList ≠ [] → (tr.scanLog iter s).length = 1) ∧
      (tr.searchList qmin qmax ≠ [] → (tr.searchLog qmin qmax iter s).length = 1) ∧
      (Reachable tr → (∃ e ∈ tr.scanList, intersects qmin qmax e.min e.max = true) →
        (tr.searchLog qmin qmax iter s).length = 1)) := by
  refine ⟨?_, ?_, ?_, ?_, ?_⟩
  · simp only [QTree.Search, search_eq, scanEntries_traced]
    split <;> rfl
  · simp only [QTree.Scan, scan_eq, scanEntries_traced]
  · rw [searchLog_eq]
    exact callsOn_false_last iter _ s
  · rw [scanLog_eq]
    exact callsOn_false_last iter _ s
  · intro hf
    rw [searchLog_eq, scanLog_eq]
    refine ⟨(callsOn_all_false iter hf _ s).1, (callsOn_all_false iter hf _ s).1,
      (callsOn_all_false iter hf _ s).2, (callsOn_all_false iter hf _ s).2, ?_⟩
    intro hr ⟨e, he, hhit⟩
    refine (callsOn_all_false iter hf _ s).2 ?_
    rw [reachable_search_eq hr]
    intro hnil
    have := List.filter_eq_nil_iff.1 hnil e he
    exact this hhit

end Stop

theorem visitor_not_called_after_false_witness :
    demoTree.Search (0, 0) (16, 16) stopper 0 = 1 ∧ demoTree.Scan stopper 0 = 1 ∧
      (demoTree.searchLog (0, 0) (16, 16) stopper 0).length = 1 :=
  ⟨by decide!, by decide!,
    ((visitor_not_called_after_false demoTree (0, 0) (16, 16) stopper 0).2.2.2.2
      (fun _ _ _ _ => rfl)).2.2.2.2 demo_reachable ⟨⟨(1, 1), (1, 1), 100⟩, by decide!, by decide!⟩⟩

/-! ## Where `join` drops entries -/

/-- C3 at `lossOps`: thirty-four entries with distinct payloads are inserted
and twenty-three of them deleted with their own boxes, so eleven survive, the
one with payload 100 among them; the `Scan` of the tree visits ten entries and
not that one, while `Len` is 11. -/
theorem scan_misses_survivor_after_join :
    (survivors lossOps []).map (fun e => e.data) =
      [24, 25, 26, 27, 28, 29, 30, 31, 32, 33, 100] ∧
    (QTree.run 40 demoNew lossOps).map (fun t => t.scanList.map (fun e => e.data)) =
      some [33, 32, 31, 30, 29, 28, 27, 26, 25, 24] ∧
    (QTree.run 40 demoNew lossOps).map (fun t => t.Len) = some 11 := by
  decide!

/-- C4 at `lossOps` followed by the deletion of payload 100 with its box: ten
inserted entries survive, and `Len` is 11. -/
theorem len_counts_entry_dropped_by_join :
    (survivors (lossOps ++ [Op.delete (1, 1) (1, 1) 100]) []).length = 10 ∧
    (QTree.run 40 demoNew (lossOps ++ [Op.delete (1, 1) (1, 1) 100])).map (fun t => t.Len) =
      some 11 := by
  decide!

/-- C2 at `lossOps` followed by twenty-two insertions: the root is a leaf with
32 entries and count 33, and one more `Insert` splits it: the `Scan` grows from
32 to 33 entries and `Len` stays 33. -/
theorem insert_after_join_keeps_len :
    (QTree.run 40 demoNew (lossOps ++ insertsOf 9 9 9 9 200 22)).map
      (fun t => (t.Len, t.scanList.length)) = some (33, 32) ∧
    ((QTree.run 40 demoNew (lossOps ++ insertsOf 9 9 9 9 200 22)).bind
      (fun t => t.Insert 40 (9, 9) (9, 9) 300)).map
      (fun t => (t.Len, t.scanList.length)) = some (33, 33) := by
  decide!

/-- C7 at `sparseTree`: the tree is reachable, stores the one entry with
payload 500 and none with payload 600; after `Insert` and `Delete` of the point
`(9,1)` with payload 600, `Len` is 1 as before and the `Search` of the whole
domain, which visited the entry with payload 500, visits nothing. -/
theorem insert_delete_drops_other_entry :
    QTree.run 40 demoNew sparseOps = some sparseTree ∧
    sparseTree.Len = 1 ∧
    sparseTree.searchList (0, 0) (16, 16) = [⟨(1, 1), (1, 1), 500⟩] ∧
    (sparseTree.Insert 40 (9, 1) (9, 1) 600).map
      (fun t => ((t.Delete (9, 1) (9, 1) 600).Len,
        (t.Delete (9, 1) (9, 1) 600).searchList (0, 0) (16, 16))) = some (1, []) := by
  decide!

/-- C8 at `demoTree`: the tree is reachable and its root has split; every
stored entry has its box between `(1,1)` and `(5,5)`, the point `(1,1)` and a
box up to `(5,5)` are stored, and `Bounds` returns `((1,0),(5,0))`. -/
theorem bounds_after_split_not_enclosing :
    QTree.run 40 demoNew demoOps = some demoTree ∧
    (∀ e ∈ demoTree.scanList, 1 ≤ e.min.1 ∧ 1 ≤ e.min.2 ∧ e.max.1 ≤ 5 ∧ e.max.2 ≤ 5) ∧
    (⟨(1, 1), (1, 1), 100⟩ : Entry Nat) ∈ demoTree.scanList ∧
    (⟨(3, 3), (5, 5), 1⟩ : Entry Nat) ∈ demoTree.scanList ∧
    demoTree.Bounds = ((1, 0), (5, 0)) := by
  decide!

/-! ## What `Insert` does hold to -/

theorem insert_quad_count (fuel : Nat) (n : Node D) (min max : Pt) (level : Nat) (e : Entry D)
    (n1 : Node D) (hq : n.isQuad = true) (h : insert fuel n min max level e = some n1) :
    n1.count = n.count + 1 := by
  cases n with
  | leaf c es => simp [Node.isQuad] at hq
  | quad c es c0 c1 c2 c3 =>
    cases fuel with
    | zero => simp [insert] at h
    | succ fuel =>
      simp only [insert] at h
      rcases choose_cases min max e with hch | hch | hch | hch | hch <;>
        simp only [hch] at h <;> norm_num at h
      · obtain ⟨c', _, rfl⟩ := h; rfl
      · obtain ⟨c', _, rfl⟩ := h; rfl
      · obtain ⟨c', _, rfl⟩ := h; rfl
      · obtain ⟨c', _, rfl⟩ := h; rfl
      · subst h; rfl

theorem splitLoop_count {f : Node D → Entry D → Option (Node D)}
    (hstep : ∀ n x n1, n.isQuad = true → f n x = some n1 →
      n1.isQuad = true ∧ n1.count = n.count + 1) :
    ∀ (xs : List (Entry D)) (n r : Node D), n.isQuad = true → splitLoop f xs n = some r →
      r.isQuad = true ∧ r.count = n.count + xs.length := by
  intro xs
  induction xs with
  | nil =>
    intro n r hn h
    simp only [splitLoop, Option.some.injEq] at h
    subst h
    simpa using hn
  | cons x xs ih =>
    intro n r hn h
    simp only [splitLoop] at h
    cases hx : f n x with
    | none => simp [hx] at h
    | some n1 =>
      simp only [hx] at h
      obtain ⟨q1, c1⟩ := hstep n x n1 hn hx
      obtain ⟨q2, c2⟩ := ih n1 r q1 h
      refine ⟨q2, ?_⟩
      rw [c2, c1, List.length_cons]
      push_cast
      omega

/-- The count after `insert`: one more than before, unless the node is a leaf
that splits, where it is one more than the number of its entries. -/
theorem insert_count (fuel : Nat) (n : Node D) (min max : Pt) (level : Nat) (e : Entry D)
    (n1 : Node D) (h : insert fuel n min max level e = some n1) :
    n1.count =
      if n.isQuad = false ∧ level ≠ maxLevel ∧ n.entries.length = maxEntries
      then (n.entries.length : Int) + 1 else n.count + 1 := by
  cases n with
  | quad c es c0 c1 c2 c3 =>
    have hk := insert_quad_count fuel (.quad c es c0 c1 c2 c3) min max level e n1 rfl h
    rw [hk, if_neg (fun hc => by simp [Node.isQuad] at hc)]
  | leaf c es =>
    cases fuel with
    | zero => simp [insert] at h
    | succ fuel =>
      simp only [insert] at h
      split at h
      · rename_i hsplit
        cases hs : split (fun n x => insert fuel n min max level x) es with
        | none => simp [hs] at h
        | some n2 =>
          simp only [hs] at h
          obtain ⟨q2, k2⟩ := splitLoop_count
            (f := fun n x => insert fuel n min max level x)
            (fun n x n1 hn hx => ⟨insert_isQuad fuel n min max level x n1 hn hx,
              insert_quad_count fuel n min max level x n1 hn hx⟩)
            es (.quad 0 [] Node.zero Node.zero Node.zero Node.zero) n2 rfl hs
          have k3 := insert_quad_count fuel n2 min max level e n1 q2 h
          rw [if_pos ⟨rfl, hsplit.1, hsplit.2⟩, k3, k2]
          simp [Node.count, Node.entries]
      · rename_i hno
        simp only [Option.some.injEq] at h
        subst h
        rw [if_neg (fun hc => hno ⟨hc.2.1, hc.2.2⟩)]
        rfl

/-- In every reachable tree `Insert` returns as soon as the fuel covers the
sixteen levels, and the `Scan` afterwards visits the entries of the `Scan`
before and the new entry, each as often; `Len` grows by 1 when the count of the
root was the number of stored entries. -/
theorem reachable_insert [DecidableEq D] (tr : QTree D) (fuel : Nat) (min max : Pt) (d : D)
    (h : Reachable tr) (hf : 2 * maxLevel - 1 ≤ fuel) :
    ∃ tr1, tr.Insert fuel min max d = some tr1 ∧
      List.Perm tr1.scanList (tr.scanList ++ [⟨min, max, d⟩]) ∧
      (tr.Len = tr.scanList.length → tr1.Len = tr.Len + 1) := by
  have hg := reachable_good h
  obtain ⟨tr1, h1⟩ := Insert_total tr fuel min max d hg hf
  refine ⟨tr1, h1, ?_, ?_⟩
  · simpa [scanList_eq] using (Insert_spec fuel min max d hg h1).2.2
  · intro hlen
    rw [scanList_eq] at hlen
    unfold QTree.Insert at h1
    cases hi : tr.init with
    | true =>
      simp only [hi, if_true, Option.map_eq_some'] at h1
      obtain ⟨r, hr, rfl⟩ := h1
      have hc := insert_count fuel _ _ _ _ _ r hr
      simp only [QTree.Len] at hlen ⊢
      rw [hc]
      split
      · rename_i hcase
        cases hroot : tr.root with
        | quad c es c0 c1 c2 c3 => rw [hroot] at hcase; simp [Node.isQuad] at hcase
        | leaf c es => rw [hroot] at hlen; simp only [Node.entries, Node.count, Node.all] at hlen ⊢; omega
      · rfl
    | false =>
      simp only [hi, Bool.false_eq_true, if_false, Option.map_eq_some'] at h1
      obtain ⟨r, hr, rfl⟩ := h1
      have hc := insert_count fuel _ _ _ _ _ r hr
      simp only [QTree.Len, hg.1 hi]
      rw [hc]
      simp [New, Node.zero, Node.isQuad, Node.entries, Node.count, maxEntries]

/-! ## Every node of a reachable tree -/

theorem good_sub (n : Node D) (min max : Pt) (level : Nat) (h : Good n min max level) :
    ∀ x ∈ n.sub min max level, Good x.1 x.2.1 x.2.2.1 x.2.2.2 := by
  induction n generalizing min max level with
  | leaf c es =>
    intro x hx
    simp only [Node.sub, List.mem_singleton] at hx
    subst hx
    exact h
  | quad c es c0 c1 c2 c3 ih0 ih1 ih2 ih3 =>
    intro x hx
    simp only [Node.sub, List.mem_cons, List.mem_append] at hx
    have hh := h
    obtain ⟨_, _, _, _, _, _, _, g0, g1, g2, g3⟩ := hh
    rcases hx with hx | ((hx | hx) | hx) | hx
    · subst hx; exact h
    · exact ih0 _ _ _ g0 x hx
    · exact ih1 _ _ _ g1 x hx
    · exact ih2 _ _ _ g2 x hx
    · exact ih3 _ _ _ g3 x hx

theorem good_height (n : Node D) (min max : Pt) (level : Nat) (h : Good n min max level) :
    level + n.height ≤ maxLevel + 1 := by
  induction n generalizing min max level with
  | leaf c es =>
    have := h.2
    simp only [Node.height]
    omega
  | quad c es c0 c1 c2 c3 ih0 ih1 ih2 ih3 =>
    obtain ⟨_, _, _, _, _, _, _, g0, g1, g2, g3⟩ := h
    have h0 := ih0 _ _ _ g0
    have h1 := ih1 _ _ _ g1
    have h2 := ih2 _ _ _ g2
    have h3 := ih3 _ _ _ g3
    simp only [Node.height, Nat.max_def]
    split <;> split <;> split <;> omega

theorem reachable_nodes_good [DecidableEq D] {tr : QTree D} (h : Reachable tr) :
    ∀ x ∈ tr.nodes, Good x.1 x.2.1 x.2.2.1 x.2.2.2 :=
  good_sub tr.root tr.min tr.max 1 (reachable_good h).2

/-! ## More fuel, same result -/

theorem splitLoop_mono {f g : Node D → Entry D → Option (Node D)}
    (hfg : ∀ n x r, f n x = some r → g n x = some r) :
    ∀ (xs : List (Entry D)) (n r : Node D), splitLoop f xs n = some r →
      splitLoop g xs n = some r := by
  intro xs
  induction xs with
  | nil => intro n r h; exact h
  | cons x xs ih =>
    intro n r h
    simp only [splitLoop] at h ⊢
    cases hx : f n x with
    | none => simp [hx] at h
    | some n1 =>
      simp only [hx] at h
      rw [hfg n x n1 hx]
      exact ih n1 r h

theorem insert_fuel_succ (fuel : Nat) : ∀ (n : Node D) (min max : Pt) (level : Nat)
    (e : Entry D) (r : Node D), insert fuel n min max level e = some r →
    insert (fuel + 1) n min max level e = some r := by
  induction fuel with
  | zero => intro n min max level e r h; simp [insert] at h
  | succ fuel ih =>
    intro n min max level e r h
    cases n with
    | leaf c es =>
      simp only [insert] at h ⊢
      split
      · rename_i hsplit
        rw [if_pos hsplit] at h
        cases hs : split (fun n x => insert fuel n min max level x) es with
        | none => simp [hs] at h
        | some n1 =>
          simp only [hs] at h
          have hs2 : split (fun n x => insert (fuel + 1) n min max level x) es = some n1 :=
            splitLoop_mono (fun n x r hr => ih n min max level x r hr) es _ n1 hs
          simp only [hs2]
          exact ih n1 min max level e r h
      · rename_i hno
        rw [if_neg hno] at h
        exact h
    | quad c es c0 c1 c2 c3 =>
      simp only [insert] at h ⊢
      rcases choose_cases min max e with hch | hch | hch | hch | hch <;>
        simp only [hch] at h ⊢ <;> norm_num at h ⊢
      · obtain ⟨c', hc', rfl⟩ := h
        exact ⟨c', ih _ _ _ _ _ _ hc', rfl⟩
      · obtain ⟨c', hc', rfl⟩ := h
        exact ⟨c', ih _ _ _ _ _ _ hc', rfl⟩
      · obtain ⟨c', hc', rfl⟩ := h
        exact ⟨c', ih _ _ _ _ _ _ hc', rfl⟩
      · obtain ⟨c', hc', rfl⟩ := h
        exact ⟨c', ih _ _ _ _ _ _ hc', rfl⟩
      · exact h

theorem insert_fuel_le {fuel fuel1 : Nat} (hle : fuel ≤ fuel1) (n : Node D) (min max : Pt)
    (level : Nat) (e : Entry D) (r : Node D) (h : insert fuel n min max level e = some r) :
    insert fuel1 n min max level e = some r := by
  induction hle with
  | refl => exact h
  | step _ ih => exact insert_fuel_succ _ _ _ _ _ _ _ ih

theorem Insert_fuel_le {fuel fuel1 : Nat} (hle : fuel ≤ fuel1) (tr tr1 : QTree D) (min max : Pt)
    (d : D) (h : tr.Insert fuel min max d = some tr1) :
    tr.Insert fuel1 min max d = some tr1 := by
  unfold QTree.Insert at h ⊢
  simp only [Option.map_eq_some'] at h ⊢
  obtain ⟨r, hr, rfl⟩ := h
  exact ⟨r, insert_fuel_le hle _ _ _ _ _ _ hr, rfl⟩

theorem deep_run : QTree.run 40 demoNew deepOps = some deepTree := by decide!

theorem deep_reachable : Reachable deepTree :=
  reachable_run 40 deepOps demoNew deepTree (Reachable.new _ _) deep_run

/-- C12: in every reachable tree `Insert` returns for every entry as soon as
the fuel covers the sixteen levels, with the same result for any larger fuel;
no node lies deeper than `maxLevel` = 16 (root = depth 1), no node at depth 16
has children, and so the tree has at most 16 levels. -/
theorem insert_returns_height_bounded [DecidableEq D] (tr : QTree D) (h : Reachable tr) :
    (∀ (fuel : Nat) (min max : Pt) (d : D), 2 * maxLevel - 1 ≤ fuel →
      ∃ tr1, tr.Insert fuel min max d = some tr1 ∧
        ∀ fuel1, fuel ≤ fuel1 → tr.Insert fuel1 min max d = some tr1) ∧
    (∀ x ∈ tr.nodes, x.2.2.2 ≤ maxLevel ∧ (x.2.2.2 = maxLevel → x.1.isQuad = false)) ∧
    tr.root.height ≤ maxLevel := by
  have hg := reachable_good h
  refine ⟨?_, ?_, ?_⟩
  · intro fuel min max d hf
    obtain ⟨tr1, h1⟩ := Insert_total tr fuel min max d hg hf
    exact ⟨tr1, h1, fun fuel1 hle => Insert_fuel_le hle tr tr1 min max d h1⟩
  · intro x hx
    have hgx := reachable_nodes_good h x hx
    refine ⟨hgx.level_le, ?_⟩
    intro hl
    rcases x with ⟨n, mn, mx, l⟩
    cases n with
    | leaf c es => rfl
    | quad c es c0 c1 c2 c3 =>
      have := hgx.2.1
      simp only at hl this
      omega
  · have := good_height tr.root tr.min tr.max 1 hg.2
    omega

theorem insert_returns_height_bounded_witness :
    Reachable deepTree ∧ deepTree.root.height = 16 ∧
      (deepTree.nodes.filter (fun x => decide (x.2.2.2 = 16 ∧ x.1.entries.length = 34))).length = 1 ∧
      ((∀ (fuel : Nat) (min max : Pt) (d : Nat), 2 * maxLevel - 1 ≤ fuel →
        ∃ tr1, deepTree.Insert fuel min max d = some tr1 ∧
          ∀ fuel1, fuel ≤ fuel1 → deepTree.Insert fuel1 min max d = some tr1) ∧
      (∀ x ∈ deepTree.nodes, x.2.2.2 ≤ maxLevel ∧ (x.2.2.2 = maxLevel → x.1.isQuad = false)) ∧
      deepTree.root.height ≤ maxLevel) :=
  ⟨deep_reachable, by decide!, by decide!, insert_returns_height_bounded deepTree deep_reachable⟩

/-! ## The placement of the entries -/

theorem quadOf_facts (min max : Pt) (e : Entry D) :
    (quadOf min max e = -1 →
      contains (q0 min max).1 (q0 min max).2 e.min e.max = false ∧
      contains (q1 min max).1 (q1 min max).2 e.min e.max = false ∧
      contains (q2 min max).1 (q2 min max).2 e.min e.max = false ∧
      contains (q3 min max).1 (q3 min max).2 e.min e.max = false) ∧
    (quadOf min max e = 0 →
      contains (q0 min max).1 (q0 min max).2 e.min e.max = true) ∧
    (quadOf min max e = 1 →
      contains (q0 min max).1 (q0 min max).2 e.min e.max = false ∧
      contains (q1 min max).1 (q1 min max).2 e.min e.max = true) ∧
    (quadOf min max e = 2 →
      contains (q0 min max).1 (q0 min max).2 e.min e.max = false ∧
      contains (q1 min max).1 (q1 min max).2 e.min e.max = false ∧
      contains (q2 min max).1 (q2 min max).2 e.min e.max = true) ∧
    (quadOf min max e = 3 →
      contains (q0 min max).1 (q0 min max).2 e.min e.max = false ∧
      contains (q1 min max).1 (q1 min max).2 e.min e.max = false ∧
      contains (q2 min max).1 (q2 min max).2 e.min e.max = false ∧
      contains (q3 min max).1 (q3 min max).2 e.min e.max = true) := by
  unfold quadOf choose
  split
  · simp_all
  · split
    · simp_all
    · split
      · simp_all
      · split
        · simp_all
        · simp_all

theorem Good.placed {n : Node D} {min max : Pt} {level : Nat} (h : Good n min max level) :
    Placed n min max := by
  induction n generalizing min max level with
  | leaf c es => trivial
  | quad c es c0 c1 c2 c3 ih0 ih1 ih2 ih3 =>
    obtain ⟨_, _, hes, h0, h1, h2, h3, g0, g1, g2, g3⟩ := h
    exact ⟨hes, h0, h1, h2, h3, ih0 g0, ih1 g1, ih2 g2, ih3 g3⟩

theorem placed_sub (n : Node D) (min max : Pt) (level : Nat) (h : Placed n min max) :
    ∀ x ∈ n.sub min max level, PlacedAt x.1 x.2.1 x.2.2.1 := by
  induction n generalizing min max level with
  | leaf c es =>
    intro x hx
    simp only [Node.sub, List.mem_singleton] at hx
    subst hx
    trivial
  | quad c es c0 c1 c2 c3 ih0 ih1 ih2 ih3 =>
    intro x hx
    simp only [Node.sub, List.mem_cons, List.mem_append] at hx
    obtain ⟨hes, h0, h1, h2, h3, g0, g1, g2, g3⟩ := h
    rcases hx with hx | ((hx | hx) | hx) | hx
    · subst hx
      exact ⟨fun e he => ⟨hes e he, (quadOf_facts min max e).1 (hes e he)⟩,
        fun e he => ⟨h0 e he, (quadOf_facts min max e).2.1 (h0 e he)⟩,
        fun e he => ⟨h1 e he, (quadOf_facts min max e).2.2.1 (h1 e he)⟩,
        fun e he => ⟨h2 e he, (quadOf_facts min max e).2.2.2.1 (h2 e he)⟩,
        fun e he => ⟨h3 e he, (quadOf_facts min max e).2.2.2.2 (h3 e he)⟩⟩
    · exact ih0 _ _ _ g0 x hx
    · exact ih1 _ _ _ g1 x hx
    · exact ih2 _ _ _ g2 x hx
    · exact ih3 _ _ _ g3 x hx

theorem sub_placed (n : Node D) (min max : Pt) (level : Nat)
    (h : ∀ x ∈ n.sub min max level, PlacedAt x.1 x.2.1 x.2.2.1) : Placed n min max := by
  induction n generalizing min max level with
  | leaf c es => trivial
  | quad c es c0 c1 c2 c3 ih0 ih1 ih2 ih3 =>
    have hself := h (.quad c es c0 c1 c2 c3, min, max, level) (by simp [Node.sub])
    obtain ⟨hes, h0, h1, h2, h3⟩ := hself
    refine ⟨fun e he => (hes e he).1, fun e he => (h0 e he).1, fun e he => (h1 e he).1,
      fun e he => (h2 e he).1, fun e he => (h3 e he).1,
      ih0 _ _ (level + 1) fun x hx => h x ?_, ih1 _ _ (level + 1) fun x hx => h x ?_,
      ih2 _ _ (level + 1) fun x hx => h x ?_, ih3 _ _ (level + 1) fun x hx => h x ?_⟩ <;>
    simp only [Node.sub, List.mem_cons, List.mem_append] <;> tauto

theorem placed_fresh_quad (min max : Pt) :
    Placed (.quad 0 [] Node.zero Node.zero Node.zero Node.zero : Node D) min max := by
  simp [Placed, Node.zero, Node.all]

theorem insert_placed (fuel : Nat) : ∀ (n : Node D) (min max : Pt) (level : Nat) (e : Entry D)
    (n1 : Node D), Placed n min max → insert fuel n min max level e = some n1 →
    Placed n1 min max ∧ List.Perm n1.all (n.all ++ [e]) := by
  induction fuel with
  | zero => intro n min max level e n1 _ h; simp [insert] at h
  | succ fuel ih =>
    intro n min max level e n1 hg h
    cases n with
    | leaf c es =>
      simp only [insert] at h
      split at h
      · cases hs : split (fun n x => insert fuel n min max level x) es with
        | none => simp [hs] at h
        | some n2 =>
          simp only [hs] at h
          obtain ⟨g2, p2⟩ := splitLoop_inv (P := fun n => Placed n min max)
            (fun n x n1 hn hx => ih n min max level x n1 hn hx) es _ n2
            (placed_fresh_quad min max) hs
          obtain ⟨g3, p3⟩ := ih n2 min max level e n1 g2 h
          refine ⟨g3, p3.trans ?_⟩
          have := p2.append_right [e]
          simpa [Node.all, Node.zero] using this
      · simp only [Option.some.injEq] at h
        subst h
        exact ⟨trivial, by simp [Node.all]⟩
    | quad c es c0 c1 c2 c3 =>
      obtain ⟨hes, h0, h1, h2, h3, g0, g1, g2, g3⟩ := hg
      simp only [insert] at h
      rcases choose_cases min max e with hch | hch | hch | hch | hch
      · have hq : quadOf min max e = 0 := by simp [quadOf, hch]
        simp only [hch] at h
        norm_num at h
        obtain ⟨c', hc', rfl⟩ := h
        obtain ⟨g', p'⟩ := ih c0 _ _ (level + 1) e c' g0 hc'
        refine ⟨⟨hes, ?_, h1, h2, h3, g', g1, g2, g3⟩, perm_c0 p'⟩
        intro x hx
        rcases List.mem_append.1 (p'.subset hx) with hx | hx
        · exact h0 x hx
        · simp only [List.mem_singleton] at hx; subst hx; exact hq
      · have hq : quadOf min max e = 1 := by simp [quadOf, hch]
        simp only [hch] at h
        norm_num at h
        obtain ⟨c', hc', rfl⟩ := h
        obtain ⟨g', p'⟩ := ih c1 _ _ (level + 1) e c' g1 hc'
        refine ⟨⟨hes, h0, ?_, h2, h3, g0, g', g2, g3⟩, perm_c1 p'⟩
        intro x hx
        rcases List.mem_append.1 (p'.subset hx) with hx | hx
        · exact h1 x hx
        · simp only [List.mem_singleton] at hx; subst hx; exact hq
      · have hq : quadOf min max e = 2 := by simp [quadOf, hch]
        simp only [hch] at h
        norm_num at h
        obtain ⟨c', hc', rfl⟩ := h
        obtain ⟨g', p'⟩ := ih c2 _ _ (level + 1) e c' g2 hc'
        refine ⟨⟨hes, h0, h1, ?_, h3, g0, g1, g', g3⟩, perm_c2 p'⟩
        intro x hx
        rcases List.mem_append.1 (p'.subset hx) with hx | hx
        · exact h2 x hx
        · simp only [List.mem_singleton] at hx; subst hx; exact hq
      · have hq : quadOf min max e = 3 := by simp [quadOf, hch]
        simp only [hch] at h
        norm_num at h
        obtain ⟨c', hc', rfl⟩ := h
        obtain ⟨g', p'⟩ := ih c3 _ _ (level + 1) e c' g3 hc'
        refine ⟨⟨hes, h0, h1, h2, ?_, g0, g1, g2, g'⟩, perm_c3 p'⟩
        intro x hx
        rcases List.mem_append.1 (p'.subset hx) with hx | hx
        · exact h3 x hx
        · simp only [List.mem_singleton] at hx; subst hx; exact hq
      · have hq : quadOf min max e = -1 := by simp [quadOf, hch]
        simp only [hch] at h
        norm_num at h
        subst h
        refine ⟨⟨?_, h0, h1, h2, h3, g0, g1, g2, g3⟩, perm_own⟩
        intro x hx
        rcases List.mem_append.1 hx with hx | hx
        · exact hes x hx
        · simp only [List.mem_singleton] at hx; subst hx; exact hq

theorem split_placed (fuel : Nat) (min max : Pt) (level : Nat) (es : List (Entry D))
    (n1 : Node D) (h : split (fun n x => insert fuel n min max level x) es = some n1) :
    Placed n1 min max ∧ List.Perm n1.all es := by
  obtain ⟨g, p⟩ := splitLoop_inv (P := fun n => Placed n min max)
    (fun n x n1 hn hx => insert_placed fuel n min max level x n1 hn hx) es _ n1
    (placed_fresh_quad min max) h
  exact ⟨g, by simpa [Node.all, Node.zero] using p⟩

theorem join_placed {n : Node D} {min max : Pt} (_h : Placed n min max) :
    Placed (join n) min max := by
  cases n <;> trivial

theorem afterChildDelete_placed {c : Int} {es : List (Entry D)} {c0 c1 c2 c3 : Node D}
    {min max : Pt} (h : Placed (.quad (c - 1) es c0 c1 c2 c3) min max) :
    Placed (afterChildDelete (.quad c es c0 c1 c2 c3)) min max := by
  simp only [afterChildDelete]
  split
  · exact join_placed h
  · exact h

theorem delete_placed [DecidableEq D] (n : Node D) (min max : Pt) (e : Entry D)
    (hg : Placed n min max) : Placed (delete n min max e).1 min max := by
  induction n generalizing min max with
  | leaf c es =>
    simp only [delete]
    cases hf : es.findIdx? (fun x => decide (x.data = e.data)) <;> trivial
  | quad c es c0 c1 c2 c3 ih0 ih1 ih2 ih3 =>
    obtain ⟨hes, h0, h1, h2, h3, g0, g1, g2, g3⟩ := hg
    simp only [delete]
    cases hf : es.findIdx? (fun x => decide (x.data = e.data)) with
    | some i =>
      obtain ⟨x, hx, hd, hp⟩ := findIdx_swapRemove es e.data i hf
      refine ⟨?_, h0, h1, h2, h3, g0, g1, g2, g3⟩
      intro y hy
      exact hes y (hp.subset (List.mem_cons_of_mem _ hy))
    | none =>
      simp only []
      rcases choose_cases min max e with hch | hch | hch | hch | hch <;>
        simp only [hch] <;> norm_num
      · rcases hdel : delete c0 (q0 min max).1 (q0 min max).2 e with ⟨c', b⟩
        have hk := delete_spec c0 (q0 min max).1 (q0 min max).2 e
        have hg := ih0 (q0 min max).1 (q0 min max).2 g0
        rw [hdel] at hk hg
        rcases hk with ⟨hb, hn⟩ | ⟨hb, hc, x, hx, hd, hle⟩
        · simp only at hb hn
          subst hb hn
          exact ⟨hes, h0, h1, h2, h3, g0, g1, g2, g3⟩
        · simp only at hb hc hle hg
          subst hb
          refine afterChildDelete_placed ⟨hes, ?_, h1, h2, h3, hg, g1, g2, g3⟩
          intro y hy
          exact h0 y (Multiset.mem_coe.1 (Multiset.mem_of_le hle
            (Multiset.mem_cons_of_mem (Multiset.mem_coe.2 hy))))
      · rcases hdel : delete c1 (q1 min max).1 (q1 min max).2 e with ⟨c', b⟩
        have hk := delete_spec c1 (q1 min max).1 (q1 min max).2 e
        have hg := ih1 (q1 min max).1 (q1 min max).2 g1
        rw [hdel] at hk hg
        rcases hk with ⟨hb, hn⟩ | ⟨hb, hc, x, hx, hd, hle⟩
        · simp only at hb hn
          subst hb hn
          exact ⟨hes, h0, h1, h2, h3, g0, g1, g2, g3⟩
        · simp only at hb hc hle hg
          subst hb
          refine afterChildDelete_placed ⟨hes, h0, ?_, h2, h3, g0, hg, g2, g3⟩
          intro y hy
          exact h1 y (Multiset.mem_coe.1 (Multiset.mem_of_le hle
            (Multiset.mem_cons_of_mem (Multiset.mem_coe.2 hy))))
      · rcases hdel : delete c2 (q2 min max).1 (q2 min max).2 e with ⟨c', b⟩
        have hk := delete_spec c2 (q2 min max).1 (q2 min max).2 e
        have hg := ih2 (q2 min max).1 (q2 min max).2 g2
        rw [hdel] at hk hg
        rcases hk with ⟨hb, hn⟩ | ⟨hb, hc, x, hx, hd, hle⟩
        · simp only at hb hn
          subst hb hn
          exact ⟨hes, h0, h1, h2, h3, g0, g1, g2, g3⟩
        · simp only at hb hc hle hg
          subst hb
          refine afterChildDelete_placed ⟨hes, h0, h1, ?_, h3, g0, g1, hg, g3⟩
          intro y hy
          exact h2 y (Multiset.mem_coe.1 (Multiset.mem_of_le hle
            (Multiset.mem_cons_of_mem (Multiset.mem_coe.2 hy))))
      · rcases hdel : delete c3 (q3 min max).1 (q3 min max).2 e with ⟨c', b⟩
        have hk := delete_spec c3 (q3 min max).1 (q3 min max).2 e
        have hg := ih3 (q3 min max).1 (q3 min max).2 g3
        rw [hdel] at hk hg
        rcases hk with ⟨hb, hn⟩ | ⟨hb, hc, x, hx, hd, hle⟩
        · simp only at hb hn
          subst hb hn
          exact ⟨hes, h0, h1, h2, h3, g0, g1, g2, g3⟩
        · simp only at hb hc hle hg
          subst hb
          refine afterChildDelete_placed ⟨hes, h0, h1, h2, ?_, g0, g1, g2, hg⟩
          intro y hy
          exact h3 y (Multiset.mem_coe.1 (Multiset.mem_of_le hle
            (Multiset.mem_cons_of_mem (Multiset.mem_coe.2 hy))))
      · exact ⟨hes, h0, h1, h2, h3, g0, g1, g2, g3⟩

/-- C19: in every reachable tree the placement condition holds at every node
that has children: for its region `r`, `choose` returns -1 on every entry of
its own list, which lies in none of the four quadrants of `r`, and returns `i`
on every entry stored below child `i`, for which quadrant `i` is the first
quadrant of `r` that contains its box. In any tree `insert`, `split`, `delete`
and `join` keep the condition. -/
theorem placement_invariant [DecidableEq D] :
    (∀ tr : QTree D, Reachable tr → ∀ x ∈ tr.nodes, PlacedAt x.1 x.2.1 x.2.2.1) ∧
    (∀ (n : Node D) (min max : Pt) (level : Nat),
      Placed n min max ↔ ∀ x ∈ n.sub min max level, PlacedAt x.1 x.2.1 x.2.2.1) ∧
    (∀ (fuel : Nat) (n : Node D) (min max : Pt) (level : Nat) (e : Entry D) (n1 : Node D),
      Placed n min max → insert fuel n min max level e = some n1 → Placed n1 min max) ∧
    (∀ (fuel : Nat) (min max : Pt) (level : Nat) (es : List (Entry D)) (n1 : Node D),
      split (fun n x => insert fuel n min max level x) es = some n1 → Placed n1 min max) ∧
    (∀ (n : Node D) (min max : Pt) (e : Entry D),
      Placed n min max → Placed (delete n min max e).1 min max) ∧
    (∀ (n : Node D) (min max : Pt), Placed n min max → Placed (join n) min max) := by
  refine ⟨?_, ?_, ?_, ?_, ?_, ?_⟩
  · intro tr h
    exact placed_sub tr.root tr.min tr.max 1 (reachable_good h).2.placed
  · intro n min max level
    exact ⟨placed_sub n min max level, sub_placed n min max level⟩
  · intro fuel n min max level e n1 hp h
    exact (insert_placed fuel n min max level e n1 hp h).1
  · intro fuel min max level es n1 h
    exact (split_placed fuel min max level es n1 h).1
  · intro n min max e hp
    exact delete_placed n min max e hp
  · intro n min max hp
    exact join_placed hp

theorem placement_invariant_witness :
    Reachable demoTree ∧ ∀ x ∈ demoTree.nodes, PlacedAt x.1 x.2.1 x.2.2.1 :=
  ⟨demo_reachable, placement_invariant.1 demoTree demo_reachable⟩

/-! ## The counts -/

theorem loss_run : QTree.run 40 demoNew lossOps = some lossTree := by decide!

theorem loss_reachable : Reachable lossTree :=
  reachable_run 40 lossOps demoNew lossTree (Reachable.new _ _) loss_run

theorem mem_sub_of_child {n c : Node D} {min max : Pt} {level : Nat}
    (hc : c ∈ n.children) : ∃ mn mx, (c, mn, mx, level + 1) ∈ n.sub min max level := by
  have hself : ∀ (m : Node D) (a b : Pt) (l : Nat), (m, a, b, l) ∈ m.sub a b l := by
    intro m a b l
    cases m <;> simp [Node.sub]
  cases n with
  | leaf k es => simp [Node.children] at hc
  | quad k es c0 c1 c2 c3 =>
    simp only [Node.children, List.mem_cons, List.mem_singleton, List.not_mem_nil,
      or_false] at hc
    rcases hc with rfl | rfl | rfl | rfl
    · refine ⟨(q0 min max).1, (q0 min max).2, ?_⟩
      simp only [Node.sub, List.mem_cons, List.mem_append]
      exact Or.inr (Or.inl (Or.inl (Or.inl (hself _ _ _ _))))
    · refine ⟨(q1 min max).1, (q1 min max).2, ?_⟩
      simp only [Node.sub, List.mem_cons, List.mem_append]
      exact Or.inr (Or.inl (Or.inl (Or.inr (hself _ _ _ _))))
    · refine ⟨(q2 min max).1, (q2 min max).2, ?_⟩
      simp only [Node.sub, List.mem_cons, List.mem_append]
      exact Or.inr (Or.inl (Or.inr (hself _ _ _ _)))
    · refine ⟨(q3 min max).1, (q3 min max).2, ?_⟩
      simp only [Node.sub, List.mem_cons, List.mem_append]
      exact Or.inr (Or.inr (hself _ _ _ _))

/-- C20: in every reachable tree the count of every node is at least the
number of entries stored in its subtree; so every child whose subtree holds an
entry has count > 0, and at every node what `search` offers its visitor is all
the stored entries of the subtree that intersect the query: the pruning leaves
no stored entry out. -/
theorem count_never_under_reports [DecidableEq D] (tr : QTree D) (h : Reachable tr) :
    (∀ x ∈ tr.nodes, (x.1.all.length : Int) ≤ x.1.count) ∧
    (∀ x ∈ tr.nodes, ∀ c ∈ x.1.children, c.all ≠ [] → 0 < c.count) ∧
    (∀ x ∈ tr.nodes, ∀ tmin tmax : Pt,
      x.1.hits x.2.1 x.2.2.1 tmin tmax = x.1.all.filter (Entry.hit tmin tmax)) := by
  have hall := reachable_nodes_good h
  refine ⟨fun x hx => (hall x hx).count_le, ?_, ?_⟩
  · intro x hx c hc hne
    have hgx := hall x hx
    rcases x with ⟨n, mn, mx, l⟩
    obtain ⟨a, b, hsub⟩ := @mem_sub_of_child D n c mn mx l hc
    have hgc := good_sub n mn mx l hgx _ hsub
    have h1 := hgc.count_le
    have h2 : 0 < c.all.length := List.length_pos.2 hne
    simp only at h1
    omega
  · intro x hx tmin tmax
    exact hits_eq_filter x.1 x.2.1 x.2.2.1 tmin tmax x.2.2.2 (hall x hx)

theorem count_never_under_reports_witness :
    Reachable lossTree ∧ lossTree.root.all.length = 10 ∧ lossTree.root.count = 11 ∧
      ((∀ x ∈ lossTree.nodes, (x.1.all.length : Int) ≤ x.1.count) ∧
      (∀ x ∈ lossTree.nodes, ∀ c ∈ x.1.children, c.all ≠ [] → 0 < c.count) ∧
      (∀ x ∈ lossTree.nodes, ∀ tmin tmax : Pt,
        x.1.hits x.2.1 x.2.2.1 tmin tmax = x.1.all.filter (Entry.hit tmin tmax))) :=
  ⟨loss_reachable, by decide!, by decide!, count_never_under_reports lossTree loss_reachable⟩

/-- C14 at `lossOps`: thirty-four insertions and twenty-three deletions, the
last of which collapses the root; the root's count, which `Len` returns, is 11,
and the subtree of the root stores ten entries, which is what a `Scan` visits. -/
theorem count_exceeds_stored_after_join :
    QTree.run 40 demoNew lossOps = some lossTree ∧
    lossTree.Len = 11 ∧ lossTree.root.count = 11 ∧
    lossTree.root.all.length = 10 ∧ lossTree.scanList.length = 10 := by
  decide!

/-- C15 at `thinOps`: thirty-three boxes that fit no quadrant of the domain are
inserted, so the root splits and keeps them in its own list; twenty-two are
deleted. The root still has children and its count is 11, below `minEntries`
= 12: the last `Delete` took it from 12 to 11 without a collapse. -/
theorem children_kept_below_minEntries :
    minEntries = 12 ∧
    (QTree.run 40 demoNew (thinOps.take 54)).map
      (fun t => (t.root.isQuad, t.root.count)) = some (true, 12) ∧
    (QTree.run 40 demoNew thinOps).map
      (fun t => (t.root.isQuad, t.root.count, t.root.entries.length)) = some (true, 11, 11) := by
  decide!

/-! ## The domain -/

theorem Insert_domain {tr tr1 : QTree D} (fuel : Nat) (mn mx : Pt) (d : D)
    (h : tr.Insert fuel mn mx d = some tr1) :
    tr1.init = true ∧
      (tr.init = true → tr1.min = tr.min ∧ tr1.max = tr.max) ∧
      (tr.init = false → tr1.min = (-180, -90) ∧ tr1.max = (180, 90)) := by
  unfold QTree.Insert at h
  by_cases hi : tr.init = true
  · simp only [hi, if_true, Option.map_eq_some'] at h
    obtain ⟨r, _, rfl⟩ := h
    exact ⟨rfl, fun _ => ⟨rfl, rfl⟩, fun hf => by rw [hi] at hf; cases hf⟩
  · simp only [hi, if_false, Option.map_eq_some'] at h
    obtain ⟨r, _, rfl⟩ := h
    exact ⟨rfl, fun ht => absurd ht hi, fun _ => ⟨rfl, rfl⟩⟩

theorem Delete_domain [DecidableEq D] (tr : QTree D) (mn mx : Pt) (d : D) :
    (tr.Delete mn mx d).init = tr.init ∧ (tr.Delete mn mx d).min = tr.min ∧
      (tr.Delete mn mx d).max = tr.max ∧ (tr.init = false → tr.Delete mn mx d = tr) := by
  unfold QTree.Delete
  by_cases hi : tr.init = true
  · rw [if_pos hi]
    exact ⟨rfl, rfl, rfl, fun hf => by rw [hi] at hf; cases hf⟩
  · rw [if_neg hi]
    exact ⟨rfl, rfl, rfl, fun _ => rfl⟩

theorem apply_domain [DecidableEq D] {tr tr1 : QTree D} (fuel : Nat) (op : Op D)
    (h : tr.apply fuel op = some tr1) :
    (tr.init = true → tr1.init = true ∧ tr1.min = tr.min ∧ tr1.max = tr.max) ∧
    (tr.init = false →
      tr1 = tr ∨ (tr1.init = true ∧ tr1.min = (-180, -90) ∧ tr1.max = (180, 90))) := by
  cases op with
  | insert mn mx d =>
    obtain ⟨h1, h2, h3⟩ := Insert_domain fuel mn mx d h
    exact ⟨fun hi => ⟨h1, h2 hi⟩, fun hi => Or.inr ⟨h1, h3 hi⟩⟩
  | delete mn mx d =>
    simp only [QTree.apply, Option.some.injEq] at h
    subst h
    obtain ⟨h1, h2, h3, h4⟩ := Delete_domain tr mn mx d
    exact ⟨fun hi => ⟨h1.trans hi, h2, h3⟩, fun hi => Or.inl (h4 hi)⟩
  | replace a b c x y z =>
    simp only [QTree.apply, QTree.Replace] at h
    obtain ⟨h1, h2, h3⟩ := Insert_domain fuel x y z h
    obtain ⟨k1, k2, k3, _⟩ := Delete_domain tr a b c
    refine ⟨fun hi => ⟨h1, ?_⟩, fun hi => Or.inr ⟨h1, h3 (k1.trans hi)⟩⟩
    have := h2 (k1.trans hi)
    rw [k2, k3] at this
    exact this

theorem run_domain [DecidableEq D] (fuel : Nat) (ops : List (Op D)) :
    ∀ (tr tr1 : QTree D), QTree.run fuel tr ops = some tr1 →
      (tr.init = true → tr1.init = true ∧ tr1.min = tr.min ∧ tr1.max = tr.max) ∧
      (tr.init = false →
        tr1 = tr ∨ (tr1.init = true ∧ tr1.min = (-180, -90) ∧ tr1.max = (180, 90))) := by
  induction ops with
  | nil =>
    intro tr tr1 h
    simp only [QTree.run, Option.some.injEq] at h
    subst h
    exact ⟨fun hi => ⟨hi, rfl, rfl⟩, fun _ => Or.inl rfl⟩
  | cons op ops ih =>
    intro tr tr1 h
    simp only [QTree.run] at h
    cases ha : tr.apply fuel op with
    | none => simp [ha] at h
    | some tr2 =>
      simp only [ha] at h
      obtain ⟨a1, a2⟩ := apply_domain fuel op ha
      obtain ⟨b1, b2⟩ := ih tr2 tr1 h
      refine ⟨fun hi => ?_, fun hi => ?_⟩
      · obtain ⟨i2, m2, x2⟩ := a1 hi
        obtain ⟨i1, m1, x1⟩ := b1 i2
        exact ⟨i1, m1.trans m2, x1.trans x2⟩
      · rcases a2 hi with rfl | ⟨i2, m2, x2⟩
        · exact b2 hi
        · obtain ⟨i1, m1, x1⟩ := b1 i2
          exact Or.inr ⟨i1, m1.trans m2, x1.trans x2⟩

/-- C13: a tree made by `New(min, max)` is initialised with domain `(min, max)`
after every sequence of `Insert`, `Delete` and `Replace` (the queries `Search`,
`Scan` and `Bounds` return no tree: they change nothing). A zero-value tree gets
the domain `((-180,-90),(180,90))` by its first `Insert`, and after any sequence
of calls it is either still the zero value or initialised with that domain. On
an uninitialised tree `Delete` returns the tree as it is, `Search` calls the
visitor not once and `Bounds` returns the zero box. -/
theorem domain_fixed_once_set [DecidableEq D] :
    (∀ (dmin dmax : Pt) (fuel : Nat) (ops : List (Op D)) (tr : QTree D),
      QTree.run fuel (New dmin dmax) ops = some tr →
        tr.init = true ∧ tr.min = dmin ∧ tr.max = dmax) ∧
    (∀ (fuel : Nat) (mn mx : Pt) (d : D) (tr : QTree D),
      (QTree.zero : QTree D).Insert fuel mn mx d = some tr →
        tr.init = true ∧ tr.min = (-180, -90) ∧ tr.max = (180, 90)) ∧
    (∀ (fuel : Nat) (ops : List (Op D)) (tr : QTree D),
      QTree.run fuel (QTree.zero : QTree D) ops = some tr →
        tr = QTree.zero ∨ (tr.init = true ∧ tr.min = (-180, -90) ∧ tr.max = (180, 90))) ∧
    (∀ (tr : QTree D), tr.init = false →
      (∀ (mn mx : Pt) (d : D), tr.Delete mn mx d = tr) ∧
      (∀ (σ : Type) (iter : Visitor σ D) (mn mx : Pt) (s : σ),
        tr.Search mn mx iter s = s ∧ tr.searchLog mn mx iter s = []) ∧
      tr.Bounds = ((0, 0), (0, 0))) := by
  refine ⟨?_, ?_, ?_, ?_⟩
  · intro dmin dmax fuel ops tr h
    exact (run_domain fuel ops _ tr h).1 rfl
  · intro fuel mn mx d tr h
    obtain ⟨h1, _, h3⟩ := Insert_domain fuel mn mx d h
    exact ⟨h1, h3 rfl⟩
  · intro fuel ops tr h
    exact (run_domain fuel ops _ tr h).2 rfl
  · intro tr hi
    refine ⟨fun mn mx d => (Delete_domain tr mn mx d).2.2.2 hi, ?_, ?_⟩
    · intro σ iter mn mx s
      simp [QTree.Search, QTree.searchLog, hi]
    · simp [QTree.Bounds, hi]

theorem domain_fixed_once_set_witness :
    (QTree.run 40 demoNew lossOps).map (fun t => (t.init, t.min, t.max)) =
        some (true, (0, 0), (16, 16)) ∧
      (QTree.run 40 (QTree.zero : QTree Nat) lossOps).map (fun t => (t.init, t.min, t.max)) =
        some (true, (-180, -90), (180, 90)) ∧
      (QTree.zero : QTree Nat).Delete (1, 1) (1, 1) 100 = QTree.zero ∧
      (∀ (tr : QTree Nat), QTree.run 40 demoNew lossOps = some tr →
        tr.init = true ∧ tr.min = (0, 0) ∧ tr.max = (16, 16)) :=
  ⟨by decide!, by decide!, by decide!,
    fun tr h => domain_fixed_once_set.1 (0, 0) (16, 16) 40 lossOps tr h⟩

/-! ## Entries that fit no quadrant of the root -/

theorem quadOf_neg_one_of_none {min max : Pt} {e : Entry D}
    (h0 : contains (q0 min max).1 (q0 min max).2 e.min e.max = false)
    (h1 : contains (q1 min max).1 (q1 min max).2 e.min e.max = false)
    (h2 : contains (q2 min max).1 (q2 min max).2 e.min e.max = false)
    (h3 : contains (q3 min max).1 (q3 min max).2 e.min e.max = false) :
    quadOf min max e = -1 := by
  simp [quadOf, choose, h0, h1, h2, h3]

theorem choose_of_quadOf_neg_one {min max : Pt} {e : Entry D} (h : quadOf min max e = -1) :
    choose min max e = ((q3 min max).1, (q3 min max).2, -1) := by
  rcases choose_cases min max e with hch | hch | hch | hch | hch <;>
    simp [quadOf, hch] at h ⊢

/-- An insertion into a node keeps the entries of the node's own list that fit
no quadrant. -/
theorem insert_quad_keeps_own (fuel : Nat) (n : Node D) (min max : Pt) (level : Nat)
    (x : Entry D) (n1 : Node D) (hq : n.isQuad = true)
    (h : insert fuel n min max level x = some n1) :
    (∀ e ∈ n.entries, e ∈ n1.entries) ∧ (quadOf min max x = -1 → x ∈ n1.entries) := by
  cases n with
  | leaf c es => simp [Node.isQuad] at hq
  | quad c es c0 c1 c2 c3 =>
    cases fuel with
    | zero => simp [insert] at h
    | succ fuel =>
      simp only [insert] at h
      rcases choose_cases min max x with hch | hch | hch | hch | hch <;>
        simp only [hch] at h <;> norm_num at h
      · obtain ⟨c', _, rfl⟩ := h
        exact ⟨fun e he => he, fun hx => by simp [quadOf, hch] at hx⟩
      · obtain ⟨c', _, rfl⟩ := h
        exact ⟨fun e he => he, fun hx => by simp [quadOf, hch] at hx⟩
      · obtain ⟨c', _, rfl⟩ := h
        exact ⟨fun e he => he, fun hx => by simp [quadOf, hch] at hx⟩
      · obtain ⟨c', _, rfl⟩ := h
        exact ⟨fun e he => he, fun hx => by simp [quadOf, hch] at hx⟩
      · subst h
        exact ⟨fun e he => by simp [Node.entries] at he ⊢; exact Or.inl he,
          fun _ => by simp [Node.entries]⟩

theorem splitLoop_keeps_own {f : Node D → Entry D → Option (Node D)} {min max : Pt}
    (hstep : ∀ n x n1, n.isQuad = true → f n x = some n1 →
      n1.isQuad = true ∧ (∀ e ∈ n.entries, e ∈ n1.entries) ∧
        (quadOf min max x = -1 → x ∈ n1.entries)) :
    ∀ (xs : List (Entry D)) (n r : Node D), n.isQuad = true → splitLoop f xs n = some r →
      r.isQuad = true ∧ (∀ e ∈ n.entries, e ∈ r.entries) ∧
        (∀ e ∈ xs, quadOf min max e = -1 → e ∈ r.entries) := by
  intro xs
  induction xs with
  | nil =>
    intro n r hn h
    simp only [splitLoop, Option.some.injEq] at h
    subst h
    exact ⟨hn, fun e he => he, fun e he => by simp at he⟩
  | cons x xs ih =>
    intro n r hn h
    simp only [splitLoop] at h
    cases hx : f n x with
    | none => simp [hx] at h
    | some n1 =>
      simp only [hx] at h
      obtain ⟨q1, k1, o1⟩ := hstep n x n1 hn hx
      obtain ⟨q2, k2, o2⟩ := ih n1 r q1 h
      refine ⟨q2, fun e he => k2 e (k1 e he), ?_⟩
      intro e he hqe
      rcases List.mem_cons.1 he with rfl | he
      · exact k2 e (o1 hqe)
      · exact o2 e he hqe

theorem insert_keeps_own (fuel : Nat) (n : Node D) (min max : Pt) (level : Nat)
    (x : Entry D) (n1 : Node D) (h : insert fuel n min max level x = some n1) :
    ∀ e ∈ n.entries, quadOf min max e = -1 → e ∈ n1.entries := by
  cases n with
  | quad c es c0 c1 c2 c3 =>
    intro e he _
    exact (insert_quad_keeps_own fuel (.quad c es c0 c1 c2 c3) min max level x n1 rfl h).1 e he
  | leaf c es =>
    cases fuel with
    | zero => simp [insert] at h
    | succ fuel =>
      simp only [insert] at h
      split at h
      · cases hs : split (fun n x => insert fuel n min max level x) es with
        | none => simp [hs] at h
        | some n2 =>
          simp only [hs] at h
          obtain ⟨q2, _, o2⟩ := splitLoop_keeps_own
            (f := fun n x => insert fuel n min max level x)
            (fun n x n1 hn hx => ⟨insert_isQuad fuel n min max level x n1 hn hx,
              insert_quad_keeps_own fuel n min max level x n1 hn hx⟩)
            es (.quad 0 [] Node.zero Node.zero Node.zero Node.zero) n2 rfl hs
          intro e he hqe
          exact (insert_quad_keeps_own fuel n2 min max level x n1 q2 h).1 e (o2 e he hqe)
      · simp only [Option.some.injEq] at h
        subst h
        intro e he _
        simp only [Node.entries, List.mem_append] at he ⊢
        exact Or.inl he

theorem afterChildDelete_keeps_own (n : Node D) :
    ∀ e ∈ n.entries, e ∈ (afterChildDelete n).entries := by
  cases n with
  | leaf c es => intro e he; exact he
  | quad c es c0 c1 c2 c3 =>
    intro e he
    simp only [afterChildDelete]
    split
    · simp only [join, Node.entries, List.mem_append] at he ⊢
      exact Or.inl (Or.inl (Or.inl (Or.inl he)))
    · exact he

theorem delete_keeps_own [DecidableEq D] (n : Node D) (min max : Pt) (x : Entry D) :
    ∀ e ∈ n.entries, e.data ≠ x.data → e ∈ (delete n min max x).1.entries := by
  intro e he hne
  have hrem : ∀ (es : List (Entry D)) (i : Nat), e ∈ es →
      es.findIdx? (fun y => decide (y.data = x.data)) = some i → e ∈ swapRemove es i := by
    intro es i hes hf
    obtain ⟨y, _, hy, hp⟩ := findIdx_swapRemove es x.data i hf
    rcases List.mem_cons.1 (hp.symm.subset hes) with rfl | hin
    · exact absurd hy hne
    · exact hin
  cases n with
  | leaf c es =>
    simp only [delete]
    cases hf : es.findIdx? (fun y => decide (y.data = x.data)) with
    | none => exact he
    | some i => exact hrem es i he hf
  | quad c es c0 c1 c2 c3 =>
    simp only [delete]
    cases hf : es.findIdx? (fun y => decide (y.data = x.data)) with
    | some i => exact hrem es i he hf
    | none =>
      simp only []
      rcases choose_cases min max x with hch | hch | hch | hch | hch <;>
        simp only [hch] <;> norm_num
      · rcases hdel : delete c0 (q0 min max).1 (q0 min max).2 x with ⟨c', b⟩
        cases b
        · exact he
        · exact afterChildDelete_keeps_own (.quad c es c' c1 c2 c3) e he
      · rcases hdel : delete c1 (q1 min max).1 (q1 min max).2 x with ⟨c', b⟩
        cases b
        · exact he
        · exact afterChildDelete_keeps_own (.quad c es c0 c' c2 c3) e he
      · rcases hdel : delete c2 (q2 min max).1 (q2 min max).2 x with ⟨c', b⟩
        cases b
        · exact he
        · exact afterChildDelete_keeps_own (.quad c es c0 c1 c' c3) e he
      · rcases hdel : delete c3 (q3 min max).1 (q3 min max).2 x with ⟨c', b⟩
        cases b
        · exact he
        · exact afterChildDelete_keeps_own (.quad c es c0 c1 c2 c') e he
      · exact he

theorem apply_keeps_root_own [DecidableEq D] {tr tr1 : QTree D} (fuel : Nat) (op : Op D)
    (e : Entry D) (hi : tr.init = true) (he : e ∈ tr.root.entries)
    (hq : quadOf tr.min tr.max e = -1) (hop : op.deleted ≠ some e.data)
    (h : tr.apply fuel op = some tr1) : e ∈ tr1.root.entries := by
  have hdel : ∀ (a b : Pt) (c : D), c ≠ e.data → e ∈ (tr.Delete a b c).root.entries := by
    intro a b c hc
    simp only [QTree.Delete, hi, if_true]
    exact delete_keeps_own tr.root tr.min tr.max ⟨a, b, c⟩ e he (fun hh => hc hh.symm)
  have hins : ∀ (t t1 : QTree D) (a b : Pt) (c : D), t.init = true → e ∈ t.root.entries →
      quadOf t.min t.max e = -1 → t.Insert fuel a b c = some t1 → e ∈ t1.root.entries := by
    intro t t1 a b c hti hte htq ht
    unfold QTree.Insert at ht
    simp only [hti, if_true, Option.map_eq_some'] at ht
    obtain ⟨r, hr, rfl⟩ := ht
    exact insert_keeps_own fuel t.root t.min t.max 1 ⟨a, b, c⟩ r hr e hte htq
  cases op with
  | insert a b c => exact hins tr tr1 a b c hi he hq h
  | delete a b c =>
    simp only [QTree.apply, Option.some.injEq] at h
    subst h
    exact hdel a b c (fun hc => hop (by simp [Op.deleted, hc]))
  | replace a b c x y z =>
    simp only [QTree.apply, QTree.Replace] at h
    obtain ⟨k1, k2, k3, _⟩ := Delete_domain tr a b c
    refine hins (tr.Delete a b c) tr1 x y z (k1.trans hi)
      (hdel a b c (fun hc => hop (by simp [Op.deleted, hc]))) ?_ h
    rw [k2, k3]
    exact hq

theorem run_keeps_root_own [DecidableEq D] (fuel : Nat) (e : Entry D) (ops : List (Op D)) :
    ∀ (tr tr1 : QTree D), tr.init = true → e ∈ tr.root.entries →
      quadOf tr.min tr.max e = -1 → (∀ op ∈ ops, op.deleted ≠ some e.data) →
      QTree.run fuel tr ops = some tr1 → e ∈ tr1.root.entries := by
  induction ops with
  | nil =>
    intro tr tr1 _ he _ _ h
    simp only [QTree.run, Option.some.injEq] at h
    exact h ▸ he
  | cons op ops ih =>
    intro tr tr1 hi he hq hops h
    simp only [QTree.run] at h
    cases ha : tr.apply fuel op with
    | none => simp [ha] at h
    | some tr2 =>
      simp only [ha] at h
      obtain ⟨i2, m2, x2⟩ := (apply_domain fuel op ha).1 hi
      refine ih tr2 tr1 i2
        (apply_keeps_root_own fuel op e hi he hq (hops op (List.mem_cons_self _ _)) ha)
        (by rw [m2, x2]; exact hq) (fun o ho => hops o (List.mem_cons_of_mem _ ho)) h

theorem mem_searchList_of_reachable [DecidableEq D] {tr : QTree D} (h : Reachable tr)
    (e : Entry D) (he : e ∈ tr.root.all) (qmin qmax : Pt)
    (hhit : intersects qmin qmax e.min e.max = true) : e ∈ tr.searchList qmin qmax := by
  rw [reachable_search_eq h, scanList_eq]
  exact List.mem_filter.2 ⟨he, hhit⟩

/-- C16: in a reachable tree whose root has children, `Insert` of an entry
whose box none of the root's four quadrants contains returns the tree with the
entry appended to the root's own list, the count one more and the four
children as they were; every `Search` whose window intersects the entry's box
visits it, on that tree and on every tree that further calls make of it, as
long as none of them deletes the entry's payload. -/
theorem insert_straddling_kept_at_root [DecidableEq D] (tr : QTree D) (fuel : Nat)
    (mn mx : Pt) (d : D) (c : Int) (es : List (Entry D)) (c0 c1 c2 c3 : Node D)
    (h : Reachable tr) (hroot : tr.root = .quad c es c0 c1 c2 c3) (hf : 0 < fuel)
    (h0 : contains (q0 tr.min tr.max).1 (q0 tr.min tr.max).2 mn mx = false)
    (h1 : contains (q1 tr.min tr.max).1 (q1 tr.min tr.max).2 mn mx = false)
    (h2 : contains (q2 tr.min tr.max).1 (q2 tr.min tr.max).2 mn mx = false)
    (h3 : contains (q3 tr.min tr.max).1 (q3 tr.min tr.max).2 mn mx = false) :
    ∃ tr1, tr.Insert fuel mn mx d = some tr1 ∧
      tr1.root = .quad (c + 1) (es ++ [⟨mn, mx, d⟩]) c0 c1 c2 c3 ∧
      tr1.init = true ∧ tr1.min = tr.min ∧ tr1.max = tr.max ∧
      (∀ qmin qmax : Pt, intersects qmin qmax mn mx = true →
        (⟨mn, mx, d⟩ : Entry D) ∈ tr1.searchList qmin qmax) ∧
      (∀ (fuel1 : Nat) (ops : List (Op D)) (tr2 : QTree D),
        (∀ op ∈ ops, op.deleted ≠ some d) → QTree.run fuel1 tr1 ops = some tr2 →
        (⟨mn, mx, d⟩ : Entry D) ∈ tr2.root.entries ∧
        ∀ qmin qmax : Pt, intersects qmin qmax mn mx = true →
          (⟨mn, mx, d⟩ : Entry D) ∈ tr2.searchList qmin qmax) := by
  have hg := reachable_good h
  have hi : tr.init = true := by
    by_cases hi : tr.init = true
    · exact hi
    · have := hg.1 (by simpa using hi)
      rw [hroot] at this
      simp [Node.zero] at this
  have hq : quadOf tr.min tr.max (⟨mn, mx, d⟩ : Entry D) = -1 :=
    quadOf_neg_one_of_none h0 h1 h2 h3
  obtain ⟨k, rfl⟩ : ∃ k, fuel = k + 1 := ⟨fuel - 1, by omega⟩
  have hins : tr.Insert (k + 1) mn mx d =
      some { tr with root := .quad (c + 1) (es ++ [⟨mn, mx, d⟩]) c0 c1 c2 c3 } := by
    unfold QTree.Insert
    simp only [hi, if_true, hroot, insert, choose_of_quadOf_neg_one hq]
    rfl
  refine ⟨_, hins, rfl, hi, rfl, rfl, ?_, ?_⟩
  · intro qmin qmax hhit
    exact mem_searchList_of_reachable (Reachable.insert (k + 1) mn mx d h hins) ⟨mn, mx, d⟩
      (by simp [Node.all]) qmin qmax hhit
  · intro fuel1 ops tr2 hops hrun
    have hr1 := Reachable.insert (k + 1) mn mx d h hins
    have hown := run_keeps_root_own fuel1 ⟨mn, mx, d⟩ ops
      { tr with root := .quad (c + 1) (es ++ [⟨mn, mx, d⟩]) c0 c1 c2 c3 } tr2 hi
      (by simp [Node.entries]) hq hops hrun
    refine ⟨hown, fun qmin qmax hhit => ?_⟩
    exact mem_searchList_of_reachable (reachable_run fuel1 ops _ tr2 hr1 hrun) ⟨mn, mx, d⟩
      ((entries_sublist_all tr2.root).subset hown) qmin qmax hhit

theorem insert_straddling_kept_at_root_witness :
    Reachable demoTree ∧
      ∃ tr1, demoTree.Insert 40 (7, 7) (9, 9) 777 = some tr1 ∧
        tr1.root = .quad (34 + 1) ([] ++ [⟨(7, 7), (9, 9), 777⟩])
          (.quad 34 ((List.range 33).map (fun k => ⟨(3, 3), (5, 5), 1 + k⟩))
            (.leaf 1 [⟨(1, 1), (1, 1), 100⟩]) Node.zero Node.zero Node.zero)
          Node.zero Node.zero Node.zero ∧
        tr1.init = true ∧ tr1.min = demoTree.min ∧ tr1.max = demoTree.max ∧
        (∀ qmin qmax : Pt, intersects qmin qmax (7, 7) (9, 9) = true →
          (⟨(7, 7), (9, 9), 777⟩ : Entry Nat) ∈ tr1.searchList qmin qmax) ∧
        (∀ (fuel1 : Nat) (ops : List (Op Nat)) (tr2 : QTree Nat),
          (∀ op ∈ ops, op.deleted ≠ some 777) → QTree.run fuel1 tr1 ops = some tr2 →
          (⟨(7, 7), (9, 9), 777⟩ : Entry Nat) ∈ tr2.root.entries ∧
          ∀ qmin qmax : Pt, intersects qmin qmax (7, 7) (9, 9) = true →
            (⟨(7, 7), (9, 9), 777⟩ : Entry Nat) ∈ tr2.searchList qmin qmax) :=
  ⟨demo_reachable,
    insert_straddling_kept_at_root demoTree 40 (7, 7) (9, 9) 777 34 [] _ _ _ _
      demo_reachable rfl (by decide) (by decide!) (by decide!) (by decide!) (by decide!)⟩

/-! ## Bounds of a root without children -/

theorem minLoop_set (axis : Nat) (es : List (Entry D)) (v : ℚ) :
    (minLoop axis es v true).2 = true ∧ (minLoop axis es v true).1 ≤ v ∧
      (∀ e ∈ es, (minLoop axis es v true).1 ≤ e.min.get axis) ∧
      ((minLoop axis es v true).1 = v ∨ ∃ e ∈ es, (minLoop axis es v true).1 = e.min.get axis) := by
  induction es generalizing v with
  | nil => simp [minLoop]
  | cons x xs ih =>
    simp only [minLoop, Bool.not_true, Bool.false_or, decide_eq_true_eq]
    split
    · rename_i hlt
      obtain ⟨a, b, c, d⟩ := ih (x.min.get axis)
      refine ⟨a, le_trans b (le_of_lt hlt), ?_, ?_⟩
      · intro e he
        rcases List.mem_cons.1 he with rfl | he
        · exact b
        · exact c e he
      · rcases d with d | ⟨e, he, d⟩
        · exact Or.inr ⟨x, List.mem_cons_self _ _, d⟩
        · exact Or.inr ⟨e, List.mem_cons_of_mem _ he, d⟩
    · rename_i hge
      obtain ⟨a, b, c, d⟩ := ih v
      refine ⟨a, b, ?_, ?_⟩
      · intro e he
        rcases List.mem_cons.1 he with rfl | he
        · exact le_trans b (not_lt.1 hge)
        · exact c e he
      · rcases d with d | ⟨e, he, d⟩
        · exact Or.inl d
        · exact Or.inr ⟨e, List.mem_cons_of_mem _ he, d⟩

theorem minLoop_unset (axis : Nat) (es : List (Entry D)) (v : ℚ) (hne : es ≠ []) :
    (∃ e ∈ es, (minLoop axis es v false).1 = e.min.get axis) ∧
      (∀ e ∈ es, (minLoop axis es v false).1 ≤ e.min.get axis) := by
  cases es with
  | nil => exact absurd rfl hne
  | cons x xs =>
    simp only [minLoop, Bool.not_false, Bool.true_or, if_true]
    obtain ⟨_, b, c, d⟩ := minLoop_set axis xs (x.min.get axis)
    refine ⟨?_, ?_⟩
    · rcases d with d | ⟨e, he, d⟩
      · exact ⟨x, List.mem_cons_self _ _, d⟩
      · exact ⟨e, List.mem_cons_of_mem _ he, d⟩
    · intro e he
      rcases List.mem_cons.1 he with rfl | he
      · exact b
      · exact c e he

theorem maxLoop_set (axis : Nat) (es : List (Entry D)) (v : ℚ) :
    (maxLoop axis es v true).2 = true ∧ v ≤ (maxLoop axis es v true).1 ∧
      (∀ e ∈ es, e.max.get axis ≤ (maxLoop axis es v true).1) ∧
      ((maxLoop axis es v true).1 = v ∨ ∃ e ∈ es, (maxLoop axis es v true).1 = e.max.get axis) := by
  induction es generalizing v with
  | nil => simp [maxLoop]
  | cons x xs ih =>
    simp only [maxLoop, Bool.not_true, Bool.false_or, decide_eq_true_eq]
    split
    · rename_i hlt
      obtain ⟨a, b, c, d⟩ := ih (x.max.get axis)
      refine ⟨a, le_trans (le_of_lt hlt) b, ?_, ?_⟩
      · intro e he
        rcases List.mem_cons.1 he with rfl | he
        · exact b
        · exact c e he
      · rcases d with d | ⟨e, he, d⟩
        · exact Or.inr ⟨x, List.mem_cons_self _ _, d⟩
        · exact Or.inr ⟨e, List.mem_cons_of_mem _ he, d⟩
    · rename_i hge
      obtain ⟨a, b, c, d⟩ := ih v
      refine ⟨a, b, ?_, ?_⟩
      · intro e he
        rcases List.mem_cons.1 he with rfl | he
        · exact le_trans (not_lt.1 hge) b
        · exact c e he
      · rcases d with d | ⟨e, he, d⟩
        · exact Or.inl d
        · exact Or.inr ⟨e, List.mem_cons_of_mem _ he, d⟩

theorem maxLoop_unset (axis : Nat) (es : List (Entry D)) (v : ℚ) (hne : es ≠ []) :
    (∃ e ∈ es, (maxLoop axis es v false).1 = e.max.get axis) ∧
      (∀ e ∈ es, e.max.get axis ≤ (maxLoop axis es v false).1) := by
  cases es with
  | nil => exact absurd rfl hne
  | cons x xs =>
    simp only [maxLoop, Bool.not_false, Bool.true_or, if_true]
    obtain ⟨_, b, c, d⟩ := maxLoop_set axis xs (x.max.get axis)
    refine ⟨?_, ?_⟩
    · rcases d with d | ⟨e, he, d⟩
      · exact ⟨x, List.mem_cons_self _ _, d⟩
      · exact ⟨e, List.mem_cons_of_mem _ he, d⟩
    · intro e he
      rcases List.mem_cons.1 he with rfl | he
      · exact b
      · exact c e he

theorem small_run : QTree.run 40 demoNew smallOps = some smallTree := by decide!

theorem small_reachable : Reachable smallTree :=
  reachable_run 40 smallOps demoNew smallTree (Reachable.new _ _) small_run

/-- C18: for every tree that is reachable or initialised, whose root has no
children and holds at least one entry, `Bounds` returns on each axis the
minimum of the entries' mins and the maximum of the entries' maxes: each of the
four numbers is the bound of a stored entry and bounds all stored entries. -/
theorem bounds_of_leaf_root [DecidableEq D] (tr : QTree D) (c : Int) (es : List (Entry D))
    (h : Reachable tr ∨ tr.init = true) (hroot : tr.root = .leaf c es) (hne : es ≠ []) :
    ((∃ e ∈ es, tr.Bounds.1.1 = e.min.1) ∧ ∀ e ∈ es, tr.Bounds.1.1 ≤ e.min.1) ∧
    ((∃ e ∈ es, tr.Bounds.1.2 = e.min.2) ∧ ∀ e ∈ es, tr.Bounds.1.2 ≤ e.min.2) ∧
    ((∃ e ∈ es, tr.Bounds.2.1 = e.max.1) ∧ ∀ e ∈ es, e.max.1 ≤ tr.Bounds.2.1) ∧
    ((∃ e ∈ es, tr.Bounds.2.2 = e.max.2) ∧ ∀ e ∈ es, e.max.2 ≤ tr.Bounds.2.2) := by
  have hi : tr.init = true := by
    rcases h with h | h
    · by_cases hi : tr.init = true
      · exact hi
      · have := (reachable_good h).1 (by simpa using hi)
        rw [hroot] at this
        simp only [Node.zero, Node.leaf.injEq] at this
        exact absurd this.2 hne
    · exact h
  have e0 := minLoop_unset 0 es 0 hne
  have e1 := minLoop_unset 1 es 0 hne
  have e2 := maxLoop_unset 0 es 0 hne
  have e3 := maxLoop_unset 1 es 0 hne
  simp only [QTree.Bounds, hi, if_true, hroot, Node.min, Node.max]
  simp only [Pt.get, if_true, Nat.one_ne_zero, if_false] at e0 e1 e2 e3
  exact ⟨e0, e1, e2, e3⟩

theorem bounds_of_leaf_root_witness :
    Reachable smallTree ∧ smallTree.Bounds = ((0, 1), (7, 6)) ∧
      (((∃ e ∈ smallTree.root.entries, smallTree.Bounds.1.1 = e.min.1) ∧
          ∀ e ∈ smallTree.root.entries, smallTree.Bounds.1.1 ≤ e.min.1) ∧
        ((∃ e ∈ smallTree.root.entries, smallTree.Bounds.1.2 = e.min.2) ∧
          ∀ e ∈ smallTree.root.entries, smallTree.Bounds.1.2 ≤ e.min.2) ∧
        ((∃ e ∈ smallTree.root.entries, smallTree.Bounds.2.1 = e.max.1) ∧
          ∀ e ∈ smallTree.root.entries, e.max.1 ≤ smallTree.Bounds.2.1) ∧
        ((∃ e ∈ smallTree.root.entries, smallTree.Bounds.2.2 = e.max.2) ∧
          ∀ e ∈ smallTree.root.entries, e.max.2 ≤ smallTree.Bounds.2.2)) :=
  ⟨small_reachable, by decide!,
    bounds_of_leaf_root smallTree 3 _ (Or.inl small_reachable) rfl (by decide)⟩

/-! ## Deletion with another box -/

theorem delete_own_found [DecidableEq D] (n : Node D) (min max : Pt) (e : Entry D)
    (h : ∃ x ∈ n.entries, x.data = e.data) : (delete n min max e).2 = true := by
  obtain ⟨x, hx, hd⟩ := h
  have hsome : ∀ es : List (Entry D), x ∈ es →
      ∃ i, es.findIdx? (fun y => decide (y.data = e.data)) = some i := by
    intro es hes
    cases hf : es.findIdx? (fun y => decide (y.data = e.data)) with
    | some i => exact ⟨i, rfl⟩
    | none =>
      have := List.findIdx?_eq_none_iff.1 hf x hes
      simp [hd] at this
  cases n with
  | leaf c es =>
    obtain ⟨i, hi⟩ := hsome es hx
    simp [delete, hi]
  | quad c es c0 c1 c2 c3 =>
    obtain ⟨i, hi⟩ := hsome es hx
    simp [delete, hi]

/-- What a `Delete` that found its payload did, and what one that did not. -/
theorem Delete_spec [DecidableEq D] (tr : QTree D) (mn mx : Pt) (p : D) :
    tr.Delete mn mx p = tr ∨
      ((tr.Delete mn mx p).Len = tr.Len - 1 ∧
        ∃ x ∈ tr.scanList, x.data = p ∧ (x :: (tr.Delete mn mx p).scanList).Subperm tr.scanList) := by
  unfold QTree.Delete
  by_cases hi : tr.init = true
  · rw [if_pos hi]
    rcases delete_spec tr.root tr.min tr.max ⟨mn, mx, p⟩ with ⟨_, hn⟩ | ⟨_, hc, x, hx, hd, hle⟩
    · left
      rw [hn]
    · right
      refine ⟨hc, x, by rw [scanList_eq]; exact hx, hd, ?_⟩
      rw [scanList_eq, scanList_eq]
      exact Multiset.coe_le.1 hle
  · rw [if_neg hi]
    exact Or.inl rfl

/-- C17, amended: `Delete` compares payloads only, and the box it is given only
selects the path of its descent. In every reachable tree `Delete(min, max, p)`
either leaves the tree as it is, or removes one entry with payload `p` and adds
none, and `Len` decreases by 1. It removes one whenever an entry with payload
`p` is in the root's own list, whatever the box, and whenever the box and `p`
are those of a stored entry. -/
theorem delete_by_payload_along_box [DecidableEq D] (tr : QTree D) (mn mx : Pt) (p : D)
    (h : Reachable tr) :
    (tr.Delete mn mx p = tr ∨
      ((tr.Delete mn mx p).Len = tr.Len - 1 ∧
        ∃ x ∈ tr.scanList, x.data = p ∧
          (x :: (tr.Delete mn mx p).scanList).Subperm tr.scanList)) ∧
    (((∃ x ∈ tr.root.entries, x.data = p) ∨ (⟨mn, mx, p⟩ : Entry D) ∈ tr.scanList) →
      (tr.Delete mn mx p).Len = tr.Len - 1 ∧
        ∃ x ∈ tr.scanList, x.data = p ∧
          (x :: (tr.Delete mn mx p).scanList).Subperm tr.scanList) := by
  refine ⟨Delete_spec tr mn mx p, ?_⟩
  intro hcase
  have hg := reachable_good h
  have hne : tr.root.all ≠ [] := by
    rcases hcase with ⟨x, hx, _⟩ | hx
    · exact List.ne_nil_of_mem ((entries_sublist_all tr.root).subset hx)
    · rw [scanList_eq] at hx
      exact List.ne_nil_of_mem hx
  have hi : tr.init = true := by
    by_cases hi : tr.init = true
    · exact hi
    · have := hg.1 (by simpa using hi)
      rw [this] at hne
      simp [Node.zero, Node.all] at hne
  have hfound : (delete tr.root tr.min tr.max ⟨mn, mx, p⟩).2 = true := by
    rcases hcase with hown | hx
    · exact delete_own_found tr.root tr.min tr.max ⟨mn, mx, p⟩ hown
    · rw [scanList_eq] at hx
      exact delete_finds tr.root tr.min tr.max 1 ⟨mn, mx, p⟩ hg.2 hx
  rcases delete_spec tr.root tr.min tr.max ⟨mn, mx, p⟩ with ⟨hb, _⟩ | ⟨_, hc, x, hx, hd, hle⟩
  · rw [hfound] at hb
    cases hb
  · simp only [QTree.Delete, hi, if_true, QTree.Len, scanList_eq]
    exact ⟨hc, x, hx, hd, Multiset.coe_le.1 hle⟩

theorem delete_by_payload_along_box_witness :
    Reachable smallTree ∧ (∃ x ∈ smallTree.root.entries, x.data = 2) ∧
      (⟨(9, 9), (9, 9), 2⟩ : Entry Nat) ∉ smallTree.scanList ∧
      ((smallTree.Delete (9, 9) (9, 9) 2).Len = smallTree.Len - 1 ∧
        ∃ x ∈ smallTree.scanList, x.data = 2 ∧
          (x :: (smallTree.Delete (9, 9) (9, 9) 2).scanList).Subperm smallTree.scanList) :=
  ⟨small_reachable, ⟨⟨(0, 5), (2, 6), 2⟩, by decide!, rfl⟩, by decide!,
    (delete_by_payload_along_box smallTree (9, 9) (9, 9) 2 small_reachable).2
      (Or.inl ⟨⟨(0, 5), (2, 6), 2⟩, by decide!, rfl⟩)⟩

/-- C17 as stated fails at `demoTree`: the tree is reachable and stores an
entry with payload 100, the point `(1,1)` below child 0 of the root; `Delete`
with the box `(9,9)-(9,9)` and payload 100 descends into child 3, finds nothing
and leaves the tree as it is, so `Len` stays 34. -/
theorem delete_with_other_box_finds_nothing :
    Reachable demoTree ∧ (∃ e ∈ demoTree.scanList, e.data = 100) ∧
      demoTree.Delete (9, 9) (9, 9) 100 = demoTree ∧
      (demoTree.Delete (9, 9) (9, 9) 100).Len = 34 ∧ demoTree.Len = 34 ∧
      (demoTree.Delete (9, 9) (9, 9) 100).Len ≠ demoTree.Len - 1 :=
  ⟨demo_reachable, ⟨⟨(1, 1), (1, 1), 100⟩, by decide!, rfl⟩, by decide!, by decide!,
    by decide!, by decide!⟩

/-! ## Trees of points -/

theorem pointIn_not_straddling {min max : Pt} {e : Entry D} (h : e.pointIn min max) :
    quadOf min max e ≠ -1 := by
  intro hq
  obtain ⟨h0, h1, h2, h3⟩ := (quadOf_facts min max e).1 hq
  obtain ⟨hp, hc⟩ := h
  simp only [contains, decide_eq_true_eq, decide_eq_false_iff_not, ge_iff_le,
    q0, q1, q2, q3, q0min, q0max, q1min, q1max, q2min, q2max, q3min, q3max, ← hp] at h0 h1 h2 h3 hc
  obtain ⟨a, b, c, d⟩ := hc
  rcases le_total e.min.1 ((max.1 + min.1) / 2) with hx | hx <;>
    rcases le_total e.min.2 ((max.2 + min.2) / 2) with hy | hy
  · exact h0 ⟨a, hx, c, hy⟩
  · exact h2 ⟨a, hx, hy, d⟩
  · exact h1 ⟨hx, b, c, hy⟩
  · exact h3 ⟨hx, b, hy, d⟩

theorem pointIn_of_q0 {min max : Pt} {e : Entry D}
    (h : e.pointIn (q0 min max).1 (q0 min max).2) : e.pointIn min max := by
  obtain ⟨hp, hc⟩ := h
  refine ⟨hp, ?_⟩
  simp only [contains, decide_eq_true_eq, ge_iff_le, q0, q0min, q0max, ← hp] at hc ⊢
  obtain ⟨a, b, c, d⟩ := hc
  exact ⟨a, by linarith, c, by linarith⟩

theorem pointIn_of_q1 {min max : Pt} {e : Entry D}
    (h : e.pointIn (q1 min max).1 (q1 min max).2) : e.pointIn min max := by
  obtain ⟨hp, hc⟩ := h
  refine ⟨hp, ?_⟩
  simp only [contains, decide_eq_true_eq, ge_iff_le, q1, q1min, q1max, ← hp] at hc ⊢
  obtain ⟨a, b, c, d⟩ := hc
  exact ⟨by linarith, b, c, by linarith⟩

theorem pointIn_of_q2 {min max : Pt} {e : Entry D}
    (h : e.pointIn (q2 min max).1 (q2 min max).2) : e.pointIn min max := by
  obtain ⟨hp, hc⟩ := h
  refine ⟨hp, ?_⟩
  simp only [contains, decide_eq_true_eq, ge_iff_le, q2, q2min, q2max, ← hp] at hc ⊢
  obtain ⟨a, b, c, d⟩ := hc
  exact ⟨a, by linarith, by linarith, d⟩

theorem pointIn_of_q3 {min max : Pt} {e : Entry D}
    (h : e.pointIn (q3 min max).1 (q3 min max).2) : e.pointIn min max := by
  obtain ⟨hp, hc⟩ := h
  refine ⟨hp, ?_⟩
  simp only [contains, decide_eq_true_eq, ge_iff_le, q3, q3min, q3max, ← hp] at hc ⊢
  obtain ⟨a, b, c, d⟩ := hc
  exact ⟨by linarith, b, by linarith, d⟩

theorem tight_count (n : Node D) (min max : Pt) (h : Tight n min max) :
    n.count = (n.all.length : Int) := by
  induction n generalizing min max with
  | leaf c es => exact h.1
  | quad c es c0 c1 c2 c3 ih0 ih1 ih2 ih3 =>
    obtain ⟨hes, hc, _, _, _, _, t0, t1, t2, t3⟩ := h
    subst hes
    have e0 := ih0 _ _ t0
    have e1 := ih1 _ _ t1
    have e2 := ih2 _ _ t2
    have e3 := ih3 _ _ t3
    show c = _
    simp only [Node.all, List.nil_append, List.length_append]
    push_cast
    omega

theorem tight_leaf_all (n : Node D) (min max : Pt) (h : Tight n min max)
    (hq : n.isQuad = false) : n.all = n.entries ∧ ∀ e ∈ n.entries, e.pointIn min max := by
  cases n with
  | leaf c es => exact ⟨rfl, h.2⟩
  | quad c es c0 c1 c2 c3 => simp [Node.isQuad] at hq

theorem tight_zero (min max : Pt) : Tight (Node.zero : Node D) min max := by
  simp [Node.zero, Tight]

theorem tight_fresh_quad (min max : Pt) :
    Tight (.quad 0 [] Node.zero Node.zero Node.zero Node.zero : Node D) min max := by
  simp [Tight, Node.zero, Node.count, Node.isQuad]

theorem splitLoop_mem_inv {f : Node D → Entry D → Option (Node D)} {P : Node D → Prop} :
    ∀ (xs : List (Entry D)) (n r : Node D),
      (∀ n x n1, x ∈ xs → P n → f n x = some n1 → P n1) → P n →
      splitLoop f xs n = some r → P r := by
  intro xs
  induction xs with
  | nil =>
    intro n r _ hn h
    simp only [splitLoop, Option.some.injEq] at h
    exact h ▸ hn
  | cons x xs ih =>
    intro n r hstep hn h
    simp only [splitLoop] at h
    cases hx : f n x with
    | none => simp [hx] at h
    | some n1 =>
      simp only [hx] at h
      exact ih n1 r (fun n y n2 hy => hstep n y n2 (List.mem_cons_of_mem _ hy))
        (hstep n x n1 (List.mem_cons_self _ _) hn hx) h

theorem insert_tight_count (fuel : Nat) (n : Node D) (min max : Pt) (level : Nat)
    (e : Entry D) (n1 : Node D) (ht : Tight n min max)
    (h : insert fuel n min max level e = some n1) : n1.count = n.count + 1 := by
  rw [insert_count fuel n min max level e n1 h]
  split
  · rename_i hc
    cases n with
    | leaf c es => rw [ht.1]; rfl
    | quad c es c0 c1 c2 c3 => simp [Node.isQuad] at hc
  · rfl

theorem insert_tight (fuel : Nat) : ∀ (n : Node D) (min max : Pt) (level : Nat) (e : Entry D)
    (n1 : Node D), Tight n min max → e.pointIn min max →
    insert fuel n min max level e = some n1 →
    Tight n1 min max ∧ (n1.isQuad = true → n.isQuad = false → minEntries ≤ n1.count) := by
  induction fuel with
  | zero => intro n min max level e n1 _ _ h; simp [insert] at h
  | succ fuel ih =>
    intro n min max level e n1 ht he h
    have hcount := insert_count (fuel + 1) n min max level e n1 h
    cases n with
    | leaf c es =>
      simp only [insert] at h
      split at h
      · rename_i hsplit
        cases hs : split (fun n x => insert fuel n min max level x) es with
        | none => simp [hs] at h
        | some n2 =>
          simp only [hs] at h
          have t2 : Tight n2 min max :=
            splitLoop_mem_inv (P := fun n => Tight n min max) es _ n2
              (fun n x n1 hx hn hins => (ih n min max level x n1 hn (ht.2 x hx) hins).1)
              (tight_fresh_quad min max) hs
          refine ⟨(ih n2 min max level e n1 t2 he h).1, fun _ _ => ?_⟩
          rw [hcount, if_pos ⟨rfl, hsplit.1, hsplit.2⟩]
          simp only [Node.entries, hsplit.2, minEntries, maxEntries]
          decide
      · simp only [Option.some.injEq] at h
        subst h
        refine ⟨⟨?_, ?_⟩, fun hq => by simp [Node.isQuad] at hq⟩
        · rw [ht.1]; simp
        · intro x hx
          rcases List.mem_append.1 hx with hx | hx
          · exact ht.2 x hx
          · simp only [List.mem_singleton] at hx; subst hx; exact he
    | quad c es c0 c1 c2 c3 =>
      obtain ⟨hes, hsum, m0, m1, m2, m3, t0, t1, t2, t3⟩ := ht
      subst hes
      simp only [insert] at h
      rcases choose_cases min max e with hch | hch | hch | hch | hch
      · have hq : quadOf min max e = 0 := by simp [quadOf, hch]
        simp only [hch] at h
        norm_num at h
        obtain ⟨c', hc', rfl⟩ := h
        have hpt : e.pointIn (q0 min max).1 (q0 min max).2 :=
          ⟨he.1, quadOf_zero_contains hq⟩
        obtain ⟨t', m'⟩ := ih c0 _ _ (level + 1) e c' t0 hpt hc'
        have hcnt := insert_tight_count fuel c0 _ _ (level + 1) e c' t0 hc'
        refine ⟨⟨rfl, ?_, ?_, m1, m2, m3, t', t1, t2, t3⟩, fun _ hn => by simp [Node.isQuad] at hn⟩
        · rw [hcnt, hsum]; ring
        · intro hq'
          cases hk : c0.isQuad with
          | true => have := m0 hk; rw [hcnt]; omega
          | false => exact m' hq' hk
      · have hq : quadOf min max e = 1 := by simp [quadOf, hch]
        simp only [hch] at h
        norm_num at h
        obtain ⟨c', hc', rfl⟩ := h
        have hpt : e.pointIn (q1 min max).1 (q1 min max).2 :=
          ⟨he.1, quadOf_one_contains hq⟩
        obtain ⟨t', m'⟩ := ih c1 _ _ (level + 1) e c' t1 hpt hc'
        have hcnt := insert_tight_count fuel c1 _ _ (level + 1) e c' t1 hc'
        refine ⟨⟨rfl, ?_, m0, ?_, m2, m3, t0, t', t2, t3⟩, fun _ hn => by simp [Node.isQuad] at hn⟩
        · rw [hcnt, hsum]; ring
        · intro hq'
          cases hk : c1.isQuad with
          | true => have := m1 hk; rw [hcnt]; omega
          | false => exact m' hq' hk
      · have hq : quadOf min max e = 2 := by simp [quadOf, hch]
        simp only [hch] at h
        norm_num at h
        obtain ⟨c', hc', rfl⟩ := h
        have hpt : e.pointIn (q2 min max).1 (q2 min max).2 :=
          ⟨he.1, quadOf_two_contains hq⟩
        obtain ⟨t', m'⟩ := ih c2 _ _ (level + 1) e c' t2 hpt hc'
        have hcnt := insert_tight_count fuel c2 _ _ (level + 1) e c' t2 hc'
        refine ⟨⟨rfl, ?_, m0, m1, ?_, m3, t0, t1, t', t3⟩, fun _ hn => by simp [Node.isQuad] at hn⟩
        · rw [hcnt, hsum]; ring
        · intro hq'
          cases hk : c2.isQuad with
          | true => have := m2 hk; rw [hcnt]; omega
          | false => exact m' hq' hk
      · have hq : quadOf min max e = 3 := by simp [quadOf, hch]
        simp only [hch] at h
        norm_num at h
        obtain ⟨c', hc', rfl⟩ := h
        have hpt : e.pointIn (q3 min max).1 (q3 min max).2 :=
          ⟨he.1, quadOf_three_contains hq⟩
        obtain ⟨t', m'⟩ := ih c3 _ _ (level + 1) e c' t3 hpt hc'
        have hcnt := insert_tight_count fuel c3 _ _ (level + 1) e c' t3 hc'
        refine ⟨⟨rfl, ?_, m0, m1, m2, ?_, t0, t1, t2, t'⟩, fun _ hn => by simp [Node.isQuad] at hn⟩
        · rw [hcnt, hsum]; ring
        · intro hq'
          cases hk : c3.isQuad with
          | true => have := m3 hk; rw [hcnt]; omega
          | false => exact m' hq' hk
      · exact absurd (by simp [quadOf, hch]) (pointIn_not_straddling he)

/-! ## Deletion in a tree of points -/

theorem tight_count_nonneg (n : Node D) (min max : Pt) (h : Tight n min max) : 0 ≤ n.count := by
  rw [tight_count n min max h]
  exact Int.natCast_nonneg _

theorem tight_small_leaf (n : Node D) (min max : Pt) (h : Tight n min max)
    (hm : n.isQuad = true → minEntries ≤ n.count) (hlt : n.count < minEntries) :
    n.all = n.entries ∧ ∀ e ∈ n.entries, e.pointIn min max := by
  apply tight_leaf_all n min max h
  cases hq : n.isQuad with
  | false => rfl
  | true => have := hm hq; omega

/-- The collapse of a node of points: it happens only when all four children
are leaves, and then no entry is lost. -/
theorem afterChildDelete_tight {c : Int} {c0 c1 c2 c3 : Node D} {min max : Pt}
    (h : Tight (.quad (c - 1) [] c0 c1 c2 c3) min max) :
    Tight (afterChildDelete (.quad c [] c0 c1 c2 c3)) min max ∧
      ((afterChildDelete (.quad c [] c0 c1 c2 c3)).isQuad = true →
        minEntries ≤ (afterChildDelete (.quad c [] c0 c1 c2 c3)).count) ∧
      (afterChildDelete (.quad c [] c0 c1 c2 c3)).all =
        (Node.quad (c - 1) [] c0 c1 c2 c3).all := by
  obtain ⟨_, hsum, m0, m1, m2, m3, t0, t1, t2, t3⟩ := h
  simp only [afterChildDelete]
  split
  · rename_i hlt
    have n0 := tight_count_nonneg _ _ _ t0
    have n1 := tight_count_nonneg _ _ _ t1
    have n2 := tight_count_nonneg _ _ _ t2
    have n3 := tight_count_nonneg _ _ _ t3
    obtain ⟨a0, p0⟩ := tight_small_leaf c0 _ _ t0 m0 (by omega)
    obtain ⟨a1, p1⟩ := tight_small_leaf c1 _ _ t1 m1 (by omega)
    obtain ⟨a2, p2⟩ := tight_small_leaf c2 _ _ t2 m2 (by omega)
    obtain ⟨a3, p3⟩ := tight_small_leaf c3 _ _ t3 m3 (by omega)
    have e0 := tight_count _ _ _ t0
    have e1 := tight_count _ _ _ t1
    have e2 := tight_count _ _ _ t2
    have e3 := tight_count _ _ _ t3
    refine ⟨⟨?_, ?_⟩, fun hq => by simp [join, Node.isQuad] at hq, ?_⟩
    · rw [← a0, ← a1, ← a2, ← a3]
      simp only [List.nil_append, List.length_append]
      push_cast
      omega
    · intro e he
      simp only [List.nil_append, List.mem_append] at he
      rcases he with ((he | he) | he) | he
      · exact pointIn_of_q0 (p0 e he)
      · exact pointIn_of_q1 (p1 e he)
      · exact pointIn_of_q2 (p2 e he)
      · exact pointIn_of_q3 (p3 e he)
    · simp only [join, Node.all, a0, a1, a2, a3]
  · rename_i hge
    refine ⟨⟨rfl, hsum, m0, m1, m2, m3, t0, t1, t2, t3⟩, fun _ => ?_, rfl⟩
    show minEntries ≤ c - 1
    omega

theorem delete_tight [DecidableEq D] (n : Node D) (min max : Pt) (e : Entry D)
    (ht : Tight n min max) (hm : n.isQuad = true → minEntries ≤ n.count) :
    Tight (delete n min max e).1 min max ∧
      ((delete n min max e).1.isQuad = true → minEntries ≤ (delete n min max e).1.count) ∧
      ((delete n min max e).2 = true →
        ∃ x, x.data = e.data ∧ List.Perm (x :: (delete n min max e).1.all) n.all) := by
  induction n generalizing min max with
  | leaf c es =>
    simp only [delete]
    cases hf : es.findIdx? (fun x => decide (x.data = e.data)) with
    | none => exact ⟨ht, hm, fun hb => by cases hb⟩
    | some i =>
      obtain ⟨x, hx, hd, hp⟩ := findIdx_swapRemove es e.data i hf
      have hl := hp.length_eq
      simp only [List.length_cons] at hl
      refine ⟨⟨?_, ?_⟩, fun hq => by simp [Node.isQuad] at hq, fun _ => ⟨x, hd, hp⟩⟩
      · rw [ht.1, ← hl]; push_cast; ring
      · intro y hy
        exact ht.2 y (hp.subset (List.mem_cons_of_mem _ hy))
  | quad c es c0 c1 c2 c3 ih0 ih1 ih2 ih3 =>
    obtain ⟨hes, hsum, m0, m1, m2, m3, t0, t1, t2, t3⟩ := ht
    subst hes
    simp only [delete, List.findIdx?_nil]
    rcases choose_cases min max e with hch | hch | hch | hch | hch <;>
      simp only [hch] <;> norm_num
    · rcases hdel : delete c0 (q0 min max).1 (q0 min max).2 e with ⟨c', b⟩
      have hk := delete_spec c0 (q0 min max).1 (q0 min max).2 e
      have hi := ih0 (q0 min max).1 (q0 min max).2 t0 m0
      rw [hdel] at hk hi
      obtain ⟨ht', hm', hp'⟩ := hi
      cases b with
      | false =>
        rcases hk with ⟨_, hn⟩ | ⟨hb, _⟩
        · simp only at hn
          subst hn
          exact ⟨⟨rfl, hsum, m0, m1, m2, m3, t0, t1, t2, t3⟩, hm, fun hf => by cases hf⟩
        · cases hb
      | true =>
        rcases hk with ⟨hb, _⟩ | ⟨_, hc, _⟩
        · cases hb
        · simp only at hc ht' hm' hp'
          obtain ⟨x, hx, hp⟩ := hp' trivial
          have hT : Tight (.quad (c - 1) [] c' c1 c2 c3) min max :=
            ⟨rfl, by show c - 1 = _; rw [hc]; simp only [Node.count] at hsum ⊢; omega,
              hm', m1, m2, m3, ht', t1, t2, t3⟩
          obtain ⟨a1, a2, a3⟩ := afterChildDelete_tight hT
          refine ⟨a1, a2, fun _ => ⟨x, hx, ?_⟩⟩
          rw [a3]
          have hq : List.Perm c0.all (c'.all ++ [x]) :=
            hp.symm.trans (List.perm_append_singleton x c'.all).symm
          exact (List.perm_append_singleton x _).symm.trans (perm_c0 hq).symm
    · rcases hdel : delete c1 (q1 min max).1 (q1 min max).2 e with ⟨c', b⟩
      have hk := delete_spec c1 (q1 min max).1 (q1 min max).2 e
      have hi := ih1 (q1 min max).1 (q1 min max).2 t1 m1
      rw [hdel] at hk hi
      obtain ⟨ht', hm', hp'⟩ := hi
      cases b with
      | false =>
        rcases hk with ⟨_, hn⟩ | ⟨hb, _⟩
        · simp only at hn
          subst hn
          exact ⟨⟨rfl, hsum, m0, m1, m2, m3, t0, t1, t2, t3⟩, hm, fun hf => by cases hf⟩
        · cases hb
      | true =>
        rcases hk with ⟨hb, _⟩ | ⟨_, hc, _⟩
        · cases hb
        · simp only at hc ht' hm' hp'
          obtain ⟨x, hx, hp⟩ := hp' trivial
          have hT : Tight (.quad (c - 1) [] c0 c' c2 c3) min max :=
            ⟨rfl, by show c - 1 = _; rw [hc]; simp only [Node.count] at hsum ⊢; omega,
              m0, hm', m2, m3, t0, ht', t2, t3⟩
          obtain ⟨a1, a2, a3⟩ := afterChildDelete_tight hT
          refine ⟨a1, a2, fun _ => ⟨x, hx, ?_⟩⟩
          rw [a3]
          have hq : List.Perm c1.all (c'.all ++ [x]) :=
            hp.symm.trans (List.perm_append_singleton x c'.all).symm
          exact (List.perm_append_singleton x _).symm.trans (perm_c1 hq).symm
    · rcases hdel : delete c2 (q2 min max).1 (q2 min max).2 e with ⟨c', b⟩
      have hk := delete_spec c2 (q2 min max).1 (q2 min max).2 e
      have hi := ih2 (q2 min max).1 (q2 min max).2 t2 m2
      rw [hdel] at hk hi
      obtain ⟨ht', hm', hp'⟩ := hi
      cases b with
      | false =>
        rcases hk with ⟨_, hn⟩ | ⟨hb, _⟩
        · simp only at hn
          subst hn
          exact ⟨⟨rfl, hsum, m0, m1, m2, m3, t0, t1, t2, t3⟩, hm, fun hf => by cases hf⟩
        · cases hb
      | true =>
        rcases hk with ⟨hb, _⟩ | ⟨_, hc, _⟩
        · cases hb
        · simp only at hc ht' hm' hp'
          obtain ⟨x, hx, hp⟩ := hp' trivial
          have hT : Tight (.quad (c - 1) [] c0 c1 c' c3) min max :=
            ⟨rfl, by show c - 1 = _; rw [hc]; simp only [Node.count] at hsum ⊢; omega,
              m0, m1, hm', m3, t0, t1, ht', t3⟩
          obtain ⟨a1, a2, a3⟩ := afterChildDelete_tight hT
          refine ⟨a1, a2, fun _ => ⟨x, hx, ?_⟩⟩
          rw [a3]
          have hq : List.Perm c2.all (c'.all ++ [x]) :=
            hp.symm.trans (List.perm_append_singleton x c'.all).symm
          exact (List.perm_append_singleton x _).symm.trans (perm_c2 hq).symm
    · rcases hdel : delete c3 (q3 min max).1 (q3 min max).2 e with ⟨c', b⟩
      have hk := delete_spec c3 (q3 min max).1 (q3 min max).2 e
      have hi := ih3 (q3 min max).1 (q3 min max).2 t3 m3
      rw [hdel] at hk hi
      obtain ⟨ht', hm', hp'⟩ := hi
      cases b with
      | false =>
        rcases hk with ⟨_, hn⟩ | ⟨hb, _⟩
        · simp only at hn
          subst hn
          exact ⟨⟨rfl, hsum, m0, m1, m2, m3, t0, t1, t2, t3⟩, hm, fun hf => by cases hf⟩
        · cases hb
      | true =>
        rcases hk with ⟨hb, _⟩ | ⟨_, hc, _⟩
        · cases hb
        · simp only at hc ht' hm' hp'
          obtain ⟨x, hx, hp⟩ := hp' trivial
          have hT : Tight (.quad (c - 1) [] c0 c1 c2 c') min max :=
            ⟨rfl, by show c - 1 = _; rw [hc]; simp only [Node.count] at hsum ⊢; omega,
              m0, m1, m2, hm', t0, t1, t2, ht'⟩
          obtain ⟨a1, a2, a3⟩ := afterChildDelete_tight hT
          refine ⟨a1, a2, fun _ => ⟨x, hx, ?_⟩⟩
          rw [a3]
          have hq : List.Perm c3.all (c'.all ++ [x]) :=
            hp.symm.trans (List.perm_append_singleton x c'.all).symm
          exact (List.perm_append_singleton x _).symm.trans (perm_c3 hq).symm
    · exact ⟨⟨rfl, hsum, m0, m1, m2, m3, t0, t1, t2, t3⟩, hm⟩

/-! ## The tree of points against the list model -/

theorem filter_ne_perm [DecidableEq D] (L : List (Entry D)) (e : Entry D)
    (hn : (L.map Entry.data).Nodup) (he : e ∈ L) :
    List.Perm (e :: L.filter (fun x => decide (x.data ≠ e.data))) L := by
  induction L with
  | nil => simp at he
  | cons y ys ih =>
    simp only [List.map_cons, List.nodup_cons, List.mem_map, not_exists, not_and] at hn
    obtain ⟨hy, hys⟩ := hn
    rcases List.mem_cons.1 he with rfl | he
    · have hall : ys.filter (fun x => decide (x.data ≠ e.data)) = ys := by
        rw [List.filter_eq_self]
        intro x hx
        simpa using hy x hx
      rw [List.filter_cons_of_neg (p := fun x : Entry D => decide (x.data ≠ e.data)) (by simp),
        hall]
    · have hne : y.data ≠ e.data := fun h => hy e he h.symm
      rw [List.filter_cons_of_pos (p := fun x : Entry D => decide (x.data ≠ e.data))
        (by simpa using hne)]
      exact (List.Perm.swap y e _).trans (List.Perm.cons y (ih hys he))

theorem Insert_unfold {tr tr1 : QTree D} (fuel : Nat) (mn mx : Pt) (d : D) (hg : GoodTree tr)
    (h : tr.Insert fuel mn mx d = some tr1) :
    insert fuel tr.root tr.domain.1 tr.domain.2 1 ⟨mn, mx, d⟩ = some tr1.root ∧
      tr1.domain = tr.domain := by
  unfold QTree.Insert at h
  unfold QTree.domain
  by_cases hi : tr.init = true
  · simp only [hi, if_true, Option.map_eq_some'] at h ⊢
    obtain ⟨r, hr, rfl⟩ := h
    exact ⟨hr, rfl⟩
  · have hz := hg.1 (by simpa using hi)
    simp only [hi, if_false, Option.map_eq_some'] at h ⊢
    obtain ⟨r, hr, rfl⟩ := h
    rw [hz]
    exact ⟨hr, rfl⟩

theorem run_points [DecidableEq D] (fuel : Nat) (hf : 2 * maxLevel - 1 ≤ fuel)
    (dmin dmax : Pt) :
    ∀ (ops : List (Op D)) (tr : QTree D) (seen L : List (Entry D)),
      GoodTree tr → tr.domain = (dmin, dmax) → Tight tr.root dmin dmax →
      (tr.root.isQuad = true → minEntries ≤ tr.root.count) →
      List.Perm tr.root.all L → L.Sublist seen → (seen.map Entry.data).Nodup →
      PointCalls dmin dmax ops seen →
      ∃ tr1, QTree.run fuel tr ops = some tr1 ∧
        tr1.root.count = ((survivors ops L).length : Int) ∧
        List.Perm tr1.root.all (survivors ops L) := by
  intro ops
  induction ops with
  | nil =>
    intro tr seen L hg hd ht hm hp hs hn hv
    exact ⟨tr, rfl, by rw [tight_count _ _ _ ht, hp.length_eq]; rfl, hp⟩
  | cons op ops ih =>
    intro tr seen L hg hd ht hm hp hs hn hv
    cases op with
    | insert mn mx d =>
      obtain ⟨hpt, hin, hfresh, hv1⟩ := hv
      obtain ⟨tr1, h1⟩ := Insert_total tr fuel mn mx d hg hf
      obtain ⟨g1, _, p1⟩ := Insert_spec fuel mn mx d hg h1
      obtain ⟨u1, d1⟩ := Insert_unfold fuel mn mx d hg h1
      simp only [hd] at u1 d1
      have he : (⟨mn, mx, d⟩ : Entry D).pointIn dmin dmax := ⟨hpt, hin⟩
      obtain ⟨t1, m1⟩ := insert_tight fuel tr.root dmin dmax 1 _ tr1.root ht he u1
      have c1 := insert_tight_count fuel tr.root dmin dmax 1 _ tr1.root ht u1
      have hm1 : tr1.root.isQuad = true → minEntries ≤ tr1.root.count := by
        intro hq
        cases hk : tr.root.isQuad with
        | true => have := hm hk; omega
        | false => exact m1 hq hk
      have hn1 : ((seen ++ [(⟨mn, mx, d⟩ : Entry D)]).map Entry.data).Nodup := by
        rw [List.map_append, List.nodup_append]
        refine ⟨hn, by simp, ?_⟩
        intro a ha hb
        simp only [List.map_cons, List.map_nil, List.mem_singleton] at hb
        obtain ⟨x, hx, hxa⟩ := List.mem_map.1 ha
        exact hfresh x hx (hxa.trans hb)
      obtain ⟨tr2, h2, k2, p2⟩ := ih tr1 (seen ++ [⟨mn, mx, d⟩]) (L ++ [⟨mn, mx, d⟩]) g1 d1 t1
        hm1 (p1.trans (hp.append_right _)) (hs.append (List.Sublist.refl _)) hn1 hv1
      exact ⟨tr2, by simp only [QTree.run, QTree.apply, h1]; exact h2, k2, p2⟩
    | delete mn mx d =>
      obtain ⟨hseen, hv1⟩ := hv
      have g1 := Delete_good tr mn mx d hg
      obtain ⟨di, dmn, dmx, dun⟩ := Delete_domain tr mn mx d
      have d1 : (tr.Delete mn mx d).domain = (dmin, dmax) := by
        unfold QTree.domain at hd ⊢
        rw [di, dmn, dmx]
        exact hd
      have hLn : (L.map Entry.data).Nodup := hn.sublist (hs.map _)
      have hinj : ∀ x ∈ L, x.data = d → x = (⟨mn, mx, d⟩ : Entry D) :=
        fun x hx hxd => List.inj_on_of_nodup_map hn (hs.subset hx) hseen hxd
      have key : Tight (tr.Delete mn mx d).root dmin dmax ∧
          ((tr.Delete mn mx d).root.isQuad = true →
            minEntries ≤ (tr.Delete mn mx d).root.count) ∧
          List.Perm (tr.Delete mn mx d).root.all (L.filter (fun x => decide (x.data ≠ d))) := by
        by_cases hi : tr.init = true
        · have hdom : tr.min = dmin ∧ tr.max = dmax := by
            unfold QTree.domain at hd
            simp only [hi, if_true, Prod.mk.injEq] at hd
            exact hd
          rw [← hdom.1, ← hdom.2] at ht ⊢
          simp only [QTree.Delete, hi, if_true]
          obtain ⟨t1, m1, f1⟩ := delete_tight tr.root tr.min tr.max ⟨mn, mx, d⟩ ht hm
          refine ⟨t1, m1, ?_⟩
          cases hb : (delete tr.root tr.min tr.max ⟨mn, mx, d⟩).2 with
          | true =>
            obtain ⟨x, hxd, hpx⟩ := f1 hb
            have hxL : x ∈ L := hp.subset (hpx.subset (List.mem_cons_self _ _))
            have hxe := hinj x hxL hxd
            subst hxe
            exact ((hpx.trans hp).trans (filter_ne_perm L _ hLn hxL).symm).cons_inv
          | false =>
            rcases delete_spec tr.root tr.min tr.max ⟨mn, mx, d⟩ with ⟨_, hsame⟩ | ⟨hb2, _⟩
            · rw [hsame]
              have hall : L.filter (fun x => decide (x.data ≠ d)) = L := by
                rw [List.filter_eq_self]
                intro x hx
                simp only [ne_eq, decide_eq_true_eq]
                intro hxd
                have hxe := hinj x hx hxd
                subst hxe
                have := delete_finds tr.root tr.min tr.max 1 _ hg.2 (hp.symm.subset hx)
                rw [hb] at this
                cases this
              rw [hall]
              exact hp
            · rw [hb] at hb2
              cases hb2
        · have hi2 : tr.init = false := by simpa using hi
          rw [dun hi2]
          have hz := hg.1 hi2
          have hL : L = [] := by
            rw [hz] at hp
            exact (List.Perm.nil_eq hp).symm
          subst hL
          exact ⟨ht, hm, by simpa using hp⟩
      obtain ⟨tr2, h2, k2, p2⟩ := ih (tr.Delete mn mx d) seen
        (L.filter (fun x => decide (x.data ≠ d))) g1 d1 key.1 key.2.1 key.2.2
        ((List.filter_sublist _).trans hs) hn hv1
      exact ⟨tr2, by simp only [QTree.run, QTree.apply]; exact h2, k2, p2⟩
    | replace a b c x y z => exact absurd hv (by simp [PointCalls])

/-- C11: for a fresh tree, made by `New` or the zero value, and every sequence
of `Insert` and `Delete` calls in which every entry is a point inside the
tree's domain, the payloads are pairwise distinct and every `Delete` passes the
box and payload of an earlier `Insert`, the calls return a tree that agrees with
the list of the surviving points: `Len` is their number, `Scan` visits exactly
them and, for every query rectangle, `Search` visits exactly those of them that
intersect the query, each once. -/
theorem points_agree_with_list_model [DecidableEq D] (t0 : QTree D) (ops : List (Op D))
    (fuel : Nat) (h0 : t0 = QTree.zero ∨ ∃ dmin dmax, t0 = New dmin dmax)
    (hv : PointCalls t0.domain.1 t0.domain.2 ops []) (hf : 2 * maxLevel - 1 ≤ fuel) :
    ∃ tr, QTree.run fuel t0 ops = some tr ∧
      tr.Len = ((survivors ops []).length : Int) ∧
      List.Perm tr.scanList (survivors ops []) ∧
      ∀ qmin qmax : Pt, List.Perm (tr.searchList qmin qmax)
        ((survivors ops []).filter (fun e => intersects qmin qmax e.min e.max)) := by
  have hg0 : GoodTree t0 := by
    rcases h0 with rfl | ⟨dmin, dmax, rfl⟩
    · exact goodTree_zero
    · exact goodTree_new _ _
  have hr0 : Reachable t0 := by
    rcases h0 with rfl | ⟨dmin, dmax, rfl⟩
    · exact Reachable.zero
    · exact Reachable.new _ _
  have hroot : t0.root = Node.zero := by
    rcases h0 with rfl | ⟨dmin, dmax, rfl⟩ <;> rfl
  obtain ⟨tr, hrun, hlen, hperm⟩ := run_points fuel hf t0.domain.1 t0.domain.2 ops t0 [] []
    hg0 rfl (by rw [hroot]; exact tight_zero _ _) (by rw [hroot]; simp [Node.zero, Node.isQuad])
    (by rw [hroot]; simp [Node.zero, Node.all]) (List.Sublist.refl _) (by simp) hv
  refine ⟨tr, hrun, hlen, by rw [scanList_eq]; exact hperm, fun qmin qmax => ?_⟩
  rw [reachable_search_eq (reachable_run fuel ops t0 tr hr0 hrun), scanList_eq]
  exact hperm.filter _

theorem points_agree_with_list_model_witness :
    (survivors pointOps []).map (fun e => e.data) = [45, 46, 47, 48, 49] ∧
      (QTree.run 40 demoNew pointOps).map (fun t => (t.Len, t.root.isQuad)) = some (5, false) ∧
      (QTree.run 40 demoNew (pointOps.take 50)).map (fun t => (t.Len, t.root.isQuad)) =
        some (50, true) ∧
      ∃ tr, QTree.run 40 demoNew pointOps = some tr ∧
        tr.Len = ((survivors pointOps []).length : Int) ∧
        List.Perm tr.scanList (survivors pointOps []) ∧
        ∀ qmin qmax : Pt, List.Perm (tr.searchList qmin qmax)
          ((survivors pointOps []).filter (fun e => intersects qmin qmax e.min e.max)) :=
  ⟨by decide!, by decide!, by decide!,
    points_agree_with_list_model demoNew pointOps 40 (Or.inr ⟨(0, 0), (16, 16), rfl⟩)
      (by decide!) (by decide)⟩

end Qtree
